import Mathlib

/-!
# Verification of the source-map "Scopes" codec

A shallow embedding of the scopes codec (VLQ layer, encoder, decoder in
STRICT/LAX mode, and the two scope-info builders), together with theorems
settling the specification claims.

Conventions of the embedding:
* Strings on the wire are modelled as `List Nat` of UTF-16 code units.
* JavaScript numbers are modelled as exact integers (`Int`); the 32-bit
  wrapping of the bitwise operators `&`, `<<`, `>>>` is made explicit via
  `toInt32` / `toUint32`.  This is exact for all values below `2^53`.
* Throwing code returns `Except String _`.  Error text follows the source
  (apostrophes and interpolated fragments are dropped from the messages).
* JavaScript `undefined` results of out-of-range array reads are modelled
  with `Option`.
-/

/-- `ToUint32` of an exact integer. -/
def toUint32 (i : Int) : Nat := (i % (2 ^ 32 : Int)).toNat

/-- `ToInt32` of an exact integer. -/
def toInt32 (i : Int) : Int :=
  let m := i % (2 ^ 32 : Int)
  if m < 2 ^ 31 then m else m - 2 ^ 32

/-- JavaScript `x << s` for a non-negative left operand: shift counts are
taken mod 32 and the result wraps to a signed 32-bit value. -/
def jsShl (x : Nat) (s : Nat) : Int := toInt32 ((x : Int) * 2 ^ (s % 32))

/-- JavaScript `x & 1` (used on the possibly-negative VLQ decode result). -/
def jsAnd1 (x : Int) : Nat := (toInt32 x % 2).toNat

/-! ## The VLQ codec (`src/vlq.ts`) -/

/-- Code-unit of `,`. -/
def commaCode : Nat := 44

/-- The code units of `BASE64_CHARS`
(`"ABCDEFGHIJKLMNOPQRSTUVWXYZabcdefghijklmnopqrstuvwxyz0123456789+/"`). -/
def BASE64_CHARS : List Nat :=
  "ABCDEFGHIJKLMNOPQRSTUVWXYZabcdefghijklmnopqrstuvwxyz0123456789+/".data.map Char.toNat

/-- `BASE64_CODES`, a `Uint8Array(123)` with the alphabet positions filled in.
Reads at index `≥ 123` are out of range and give `undefined`, i.e. `none`;
reads of non-alphabet codes below 123 give the array default `0`. -/
def BASE64_CODES (c : Nat) : Option Nat :=
  if c < 123 then
    some (if BASE64_CHARS.indexOf c < 64 then BASE64_CHARS.indexOf c else 0)
  else none

/-- `BASE64_CHARS[d]` for digit values `d < 64` (the encoder only uses these). -/
def base64Char (d : Nat) : Nat := BASE64_CHARS.getD d 0

/-- Inner loop of `encodeUnsigned`: the argument has already been brought into
the `u32` range by the first `>>>`. -/
def encodeUnsignedGo (m : Nat) : List Nat :=
  let digit := m % 32
  if h : m / 32 = 0 then [base64Char digit]
  else base64Char (32 + digit) :: encodeUnsignedGo (m / 32)
termination_by m
decreasing_by exact Nat.div_lt_self (Nat.pos_of_ne_zero (by omega)) (by omega)

/-- `encodeUnsigned(n)`: base64-VLQ digits, low-order first, continuation bit
`0x20` on all but the last digit.  The bitwise operators make the JavaScript
code operate on `n mod 2^32`. -/
def encodeUnsigned (n : Nat) : List Nat := encodeUnsignedGo (n % 2 ^ 32)

/-- `encodeSigned(n)`: the sign becomes the least significant bit. -/
def encodeSigned (n : Int) : List Nat :=
  encodeUnsigned (if 0 ≤ n then 2 * n else 1 - 2 * n).toNat

/-- `TokenIterator`: `rest` is the part of the string after the cursor and
`last` the most recently consumed code unit (`none` when the cursor has not
moved, in which case `currentChar` throws). -/
structure TokenIterator where
  rest : List Nat
  last : Option Nat
deriving Repr, DecidableEq

namespace TokenIterator

/-- `hasNext()`. -/
def hasNext (it : TokenIterator) : Bool := !it.rest.isEmpty

/-- `peek()` (`none` stands for the empty string returned past the end). -/
def peek (it : TokenIterator) : Option Nat := it.rest.head?

/-- `nextChar()` / `nextCharCode()` (the decoder only calls it when
`hasNext()` holds; past the end the cursor result is empty). -/
def nextChar (it : TokenIterator) : TokenIterator :=
  match it.rest with
  | [] => ⟨[], none⟩
  | c :: r => ⟨r, some c⟩

/-- `currentChar()`: the last consumed code unit; throws before any advance. -/
def currentChar (it : TokenIterator) : Except String Nat :=
  match it.last with
  | none => .error "Move the iterator first!"
  | some c => .ok c

/-- The loop of `nextUnsignedVLQ`, entered whenever the previous digit had the
continuation bit set; it walks the code units after the cursor.
`result`/`shift` are the accumulator and shift count. -/
def nextUnsignedVLQGo : List Nat → Int → Nat → Except String (Int × TokenIterator)
  | [], _, _ => .error "Unexpected end of input while decodling VLQ number!"
  | c :: r, result, shift =>
    let digit := BASE64_CODES c
    if c ≠ 65 ∧ digit = some 0 then
      .error "Unexpected char encountered while decoding"
    else
      let d := digit.getD 0
      let result := result + jsShl (d % 32) shift
      if d / 32 % 2 = 1 then nextUnsignedVLQGo r result (shift + 5)
      else .ok (result, ⟨r, some c⟩)

/-- `nextUnsignedVLQ()`. -/
def nextUnsignedVLQ (it : TokenIterator) : Except String (Int × TokenIterator) :=
  nextUnsignedVLQGo it.rest 0 0

/-- `nextSignedVLQ()`. -/
def nextSignedVLQ (it : TokenIterator) : Except String (Int × TokenIterator) := do
  let (result, it') ← nextUnsignedVLQ it
  let negative := jsAnd1 result
  let result' : Nat := toUint32 result / 2
  .ok (if negative ≠ 0 then -(result' : Int) else (result' : Int), it')

theorem nextUnsignedVLQGo_length {l : List Nat} {res : Int} {sh : Nat} {v : Int}
    {it' : TokenIterator} (h : nextUnsignedVLQGo l res sh = .ok (v, it')) :
    it'.rest.length < l.length := by
  induction l generalizing res sh with
  | nil => simp [nextUnsignedVLQGo] at h
  | cons c r ih =>
    rw [nextUnsignedVLQGo] at h
    dsimp only at h
    split at h
    · exact absurd h (by simp)
    · split at h
      · exact Nat.lt_trans (ih h) (by simp)
      · simp only [Except.ok.injEq, Prod.mk.injEq] at h
        simp [← h.2]

theorem nextUnsignedVLQ_length {it it' : TokenIterator} {v : Int}
    (h : nextUnsignedVLQ it = .ok (v, it')) : it'.rest.length < it.rest.length :=
  nextUnsignedVLQGo_length h

theorem nextSignedVLQ_length {it it' : TokenIterator} {v : Int}
    (h : nextSignedVLQ it = .ok (v, it')) : it'.rest.length < it.rest.length := by
  unfold nextSignedVLQ at h
  cases h2 : nextUnsignedVLQ it with
  | error e =>
    rw [h2] at h
    simp [Bind.bind, Except.bind] at h
  | ok p =>
    rw [h2] at h
    obtain ⟨w, itm⟩ := p
    simp only [Bind.bind, Except.bind, Except.ok.injEq, Prod.mk.injEq] at h
    rw [← h.2]
    exact nextUnsignedVLQ_length h2

end TokenIterator

/-! ## Data model (`src/scopes.d.ts`)

Positions in decoded output are accumulated from (possibly ill-formed)
deltas and are therefore modelled over `Int`. -/

/-- A decoded `Position`. -/
structure DPos where
  line : Int
  column : Int
deriving Repr, DecidableEq

/-- A `SubRangeBinding`; positions here are the authored-model positions
(natural numbers). -/
structure SubRangeBinding where
  value : Option String
  from_ : Nat × Nat
  to_ : Nat × Nat
deriving Repr, DecidableEq

/-- A `Binding` entry of `GeneratedRange.values`.  JavaScript distinguishes
`null` (written by hand or by the decoder for `-1`) from `undefined`
(an absent/out-of-range array read), hence two unavailable forms. -/
inductive BindVal where
  | nullv : BindVal
  | undef : BindVal
  | str : String → BindVal
  | subs : List SubRangeBinding → BindVal
deriving Repr, DecidableEq

/-! ## The decoder (`src/decode/decode.ts`, class `Decoder`)

Decoded scopes and ranges are mutable objects that are referenced from
several places (stacks, the flat scope list, tree links, definition-scope
links).  The embedding makes object identity explicit with an arena: a node
is an index into `scopeArena`/`rangeArena`, allocated in creation order, so
`scopeArena` is at the same time the decoder's `#flatOriginalScopes`. -/

/-- `DecodeMode` (the default of the `decode` entry point is `LAX`). -/
inductive DecodeMode where
  | STRICT
  | LAX
deriving Repr, DecidableEq

/-- A decoded `OriginalScope` node (tree links are arena indices). -/
structure DecScope where
  start : DPos
  end_ : DPos
  name : Option String
  kind : Option String
  isStackFrame : Bool
  variables_ : List String
  children : List Nat
  parent : Option Nat
deriving Repr, DecidableEq

/-- A decoded `GeneratedRange` node. `originalScope` is an index into the
scope arena (= `#flatOriginalScopes`). -/
structure DecRange where
  start : DPos
  end_ : DPos
  isStackFrame : Bool
  isHidden : Bool
  originalScope : Option Nat
  values : List BindVal
  children : List Nat
  parent : Option Nat
deriving Repr, DecidableEq

/-- `DEFAULT_SCOPE_STATE` (all fields `0`). -/
structure ScopeState where
  line : Int
  name : Int
  kind : Int
  variable_ : Int
deriving Repr, DecidableEq

def DEFAULT_SCOPE_STATE : ScopeState := ⟨0, 0, 0, 0⟩

/-- `DEFAULT_RANGE_STATE` (all fields `0`). -/
structure RangeState where
  line : Int
  column : Int
  defScopeIdx : Int
  callsiteSourceIdx : Int
  callsiteLine : Int
  callsiteColumn : Int
deriving Repr, DecidableEq

def DEFAULT_RANGE_STATE : RangeState := ⟨0, 0, 0, 0, 0, 0⟩

/-- The decoder's mutable state. Stacks grow at the head (`push`/`pop`/`at(-1)`
act on the head); result lists grow at the tail. -/
structure DecState where
  scopes : List (Option Nat)
  ranges : List Nat
  scopeArena : List DecScope
  rangeArena : List DecRange
  scopeState : ScopeState
  rangeState : RangeState
  scopeStack : List Nat
  rangeStack : List Nat
deriving Repr, DecidableEq

def initDecState : DecState :=
  ⟨[], [], [], [], DEFAULT_SCOPE_STATE, DEFAULT_RANGE_STATE, [], []⟩

/-- The decoded `ScopeInfo` together with the arenas that its indices
refer to. -/
structure DecodedScopeInfo where
  scopes : List (Option Nat)
  ranges : List Nat
  scopeArena : List DecScope
  rangeArena : List DecRange
deriving Repr, DecidableEq

/-- Test of bit `bit` of a JavaScript `&` flag test (both operands pass
through `ToInt32`; for bits below 32 this is a bit of the value mod `2^32`). -/
def jsTestBit (flags : Int) (bit : Nat) : Bool := (toUint32 flags).testBit bit

/-- `Decoder.#throwInStrictMode`. -/
def throwInStrictMode (mode : DecodeMode) (message : String) : Except String Unit :=
  if mode = DecodeMode.STRICT then .error message else .ok ()

/-- `Decoder.#resolveName`: out-of-bounds indices throw in STRICT mode and
resolve to the empty string in LAX mode. -/
def resolveName (mode : DecodeMode) (names : List String) (index : Int) :
    Except String String := do
  if index < 0 ∨ (names.length : Int) ≤ index then
    throwInStrictMode mode "Illegal index into the names array"
  if 0 ≤ index ∧ index < (names.length : Int) then
    pure (names.getD index.toNat "")
  else
    pure ""

/-- `Decoder.#handleOriginalScopeStartItem`. -/
def handleOriginalScopeStartItem (mode : DecodeMode) (names : List String)
    (st : DecState) (flags line column : Int)
    (nameIdx kindIdx : Option Int) : Except String DecState := do
  let sState := { st.scopeState with line := st.scopeState.line + line }
  let (sState, nm) ← match nameIdx with
    | none => pure (sState, (none : Option String))
    | some d => do
        let sState := { sState with name := sState.name + d }
        let s ← resolveName mode names sState.name
        pure (sState, some s)
  let (sState, kd) ← match kindIdx with
    | none => pure (sState, (none : Option String))
    | some d => do
        let sState := { sState with kind := sState.kind + d }
        let s ← resolveName mode names sState.kind
        pure (sState, some s)
  let scope : DecScope :=
    { start := ⟨sState.line, column⟩
      end_ := ⟨sState.line, column⟩
      name := nm
      kind := kd
      isStackFrame := jsTestBit flags 2
      variables_ := []
      children := []
      parent := none }
  .ok { st with
        scopeState := sState
        scopeStack := st.scopeArena.length :: st.scopeStack
        scopeArena := st.scopeArena ++ [scope] }

instance : Inhabited DecScope :=
  ⟨{ start := ⟨0, 0⟩, end_ := ⟨0, 0⟩, name := none, kind := none,
     isStackFrame := false, variables_ := [], children := [], parent := none }⟩

instance : Inhabited DecRange :=
  ⟨{ start := ⟨0, 0⟩, end_ := ⟨0, 0⟩, isStackFrame := false, isHidden := false,
     originalScope := none, values := [], children := [], parent := none }⟩

/-- One step of the loop in `Decoder.#handleOriginalScopeVariablesItem`:
accumulate the delta and append the resolved variable name to the scope that
sits on top of the stack. -/
def pushVariable (mode : DecodeMode) (names : List String) (topId : Nat)
    (st : DecState) (variableIdx : Int) : Except String DecState := do
  let sState := { st.scopeState with variable_ := st.scopeState.variable_ + variableIdx }
  let v ← resolveName mode names sState.variable_
  let n := (st.scopeArena.get? topId).getD default
  let arena := st.scopeArena.set topId { n with variables_ := n.variables_ ++ [v] }
  .ok { st with scopeState := sState, scopeArena := arena }


/-- `Decoder.#handleOriginalScopeVariablesItem`. -/
def handleOriginalScopeVariablesItem (mode : DecodeMode) (names : List String)
    (st : DecState) (variableIdxs : List Int) : Except String DecState := do
  match st.scopeStack with
  | [] => do
      throwInStrictMode mode
        "Encountered ORIGINAL_SCOPE_VARIABLES without surrounding ORIGINAL_SCOPE_START"
      pure st
  | topId :: _ => variableIdxs.foldlM (pushVariable mode names topId) st

/-- `Decoder.#handleOriginalScopeEndItem`. -/
def handleOriginalScopeEndItem (mode : DecodeMode) (st : DecState)
    (line column : Int) : Except String DecState := do
  let sState := { st.scopeState with line := st.scopeState.line + line }
  match st.scopeStack with
  | [] => do
      throwInStrictMode mode
        "Encountered ORIGINAL_SCOPE_END without matching ORIGINAL_SCOPE_START!"
      pure { st with scopeState := sState }
  | id :: stack => do
      let node := (st.scopeArena.get? id).getD default
      let node := { node with end_ := (⟨sState.line, column⟩ : DPos) }
      match stack with
      | parentId :: _ =>
          let node := { node with parent := some parentId }
          let arena := st.scopeArena.set id node
          let pnode := (arena.get? parentId).getD default
          let arena := arena.set parentId { pnode with children := pnode.children ++ [id] }
          .ok { st with scopeArena := arena, scopeStack := stack, scopeState := sState }
      | [] =>
          let arena := st.scopeArena.set id node
          .ok { st with
                scopeArena := arena
                scopeStack := []
                scopes := st.scopes ++ [some id]
                scopeState := DEFAULT_SCOPE_STATE }

/-- `Decoder.#handleGeneratedRangeStartItem`. -/
def handleGeneratedRangeStartItem (st : DecState) (flags : Int)
    (line : Option Int) (column : Int) (definitionIdx : Option Int) :
    Except String DecState := do
  let rState := match line with
    | some l => { st.rangeState with line := st.rangeState.line + l, column := column }
    | none => { st.rangeState with column := st.rangeState.column + column }
  let (rState, origScope) ← match definitionIdx with
    | none => pure (rState, (none : Option Nat))
    | some d => do
        let rState := { rState with defScopeIdx := rState.defScopeIdx + d }
        let o : Option Nat :=
          if (0 : Int) ≤ rState.defScopeIdx ∧ rState.defScopeIdx < (st.scopeArena.length : Int)
          then some rState.defScopeIdx.toNat else none
        pure (rState, o)
  let range : DecRange :=
    { start := ⟨rState.line, rState.column⟩
      end_ := ⟨rState.line, rState.column⟩
      isStackFrame := jsTestBit flags 2
      isHidden := jsTestBit flags 3
      originalScope := origScope
      values := []
      children := []
      parent := none }
  .ok { st with
        rangeState := rState
        rangeStack := st.rangeArena.length :: st.rangeStack
        rangeArena := st.rangeArena ++ [range] }

/-- `Decoder.#handleGeneratedRangeBindingsItem`.  Note that the source reads
`names[valueIdx]` directly (out-of-range gives `undefined`), without the
`#resolveName` bounds check. -/
def handleGeneratedRangeBindingsItem (mode : DecodeMode) (names : List String)
    (st : DecState) (valueIdxs : List Int) : Except String DecState := do
  match st.rangeStack with
  | [] => do
      throwInStrictMode mode
        "Encountered GENERATED_RANGE_BINDINGS without surrounding GENERATED_RANGE_START"
      pure st
  | topId :: _ =>
      let vals : List BindVal := valueIdxs.map fun valueIdx =>
        if valueIdx = -1 then BindVal.nullv
        else if _h : 0 ≤ valueIdx ∧ valueIdx < (names.length : Int) then
          BindVal.str (names.getD valueIdx.toNat "")
        else BindVal.undef
      let node := (st.rangeArena.get? topId).getD default
      let arena := st.rangeArena.set topId { node with values := node.values ++ vals }
      .ok { st with rangeArena := arena }

/-- `Decoder.#handleGeneratedRangeEndItem` (the caller passes `0` for the
line when the item carried a single VLQ). -/
def handleGeneratedRangeEndItem (mode : DecodeMode) (st : DecState)
    (line column : Int) : Except String DecState := do
  let rState :=
    if line ≠ 0 then { st.rangeState with line := st.rangeState.line + line, column := column }
    else { st.rangeState with column := st.rangeState.column + column }
  match st.rangeStack with
  | [] => do
      throwInStrictMode mode
        "Encountered GENERATED_RANGE_END without matching GENERATED_RANGE_START!"
      pure { st with rangeState := rState }
  | id :: stack => do
      let node := (st.rangeArena.get? id).getD default
      let node := { node with end_ := (⟨rState.line, rState.column⟩ : DPos) }
      match stack with
      | parentId :: _ =>
          let node := { node with parent := some parentId }
          let arena := st.rangeArena.set id node
          let pnode := (arena.get? parentId).getD default
          let arena := arena.set parentId { pnode with children := pnode.children ++ [id] }
          .ok { st with rangeArena := arena, rangeStack := stack, rangeState := rState }
      | [] =>
          let arena := st.rangeArena.set id node
          .ok { st with
                rangeArena := arena
                rangeStack := []
                ranges := st.ranges ++ [id]
                rangeState := DEFAULT_RANGE_STATE }

/-! ### Item parsing (`Decoder.decode`, the loop body) -/

/-- Helper: a monadic bind on `Except` succeeds exactly via a successful
intermediate result. -/
theorem exceptBind_ok {ε α β : Type} {x : Except ε α} {f : α → Except ε β} {b : β} :
    (x >>= f) = .ok b ↔ ∃ a, x = .ok a ∧ f a = .ok b := by
  cases x <;> simp [Bind.bind, Except.bind]

/- The numeric tags of `src/codec.ts` (`Tag`). -/
namespace Tag

def ORIGINAL_SCOPE_START : Int := 0x1
def ORIGINAL_SCOPE_END : Int := 0x2
def ORIGINAL_SCOPE_VARIABLES : Int := 0x3
def GENERATED_RANGE_START : Int := 0x5
def GENERATED_RANGE_END : Int := 0x6
def GENERATED_RANGE_BINDINGS : Int := 0x7

end Tag

open TokenIterator in
/-- `while (iter.hasNext() && iter.peek() !== ",") variableIdxs.push(iter.nextSignedVLQ())`
(fuelled; `rest.length + 1` units always suffice since every read consumes). -/
def readSignedVLQsUntilCommaFuel : Nat → TokenIterator → Except String (List Int × TokenIterator)
  | 0, it => .ok ([], it)
  | fuel + 1, it =>
    if it.hasNext ∧ it.peek ≠ some commaCode then
      match nextSignedVLQ it with
      | .error e => .error e
      | .ok (v, it') => do
          let (vs, it'') ← readSignedVLQsUntilCommaFuel fuel it'
          .ok (v :: vs, it'')
    else .ok ([], it)

def readSignedVLQsUntilComma (it : TokenIterator) :
    Except String (List Int × TokenIterator) :=
  readSignedVLQsUntilCommaFuel (it.rest.length + 1) it

open TokenIterator in
theorem readSignedVLQsUntilCommaFuel_congr :
    ∀ f g : Nat, ∀ it, it.rest.length < f → it.rest.length < g →
      readSignedVLQsUntilCommaFuel f it = readSignedVLQsUntilCommaFuel g it := by
  intro f
  induction f with
  | zero => intro g it hf; omega
  | succ f ih =>
    intro g it hf hg
    match g, hg with
    | g + 1, hg =>
      rw [readSignedVLQsUntilCommaFuel, readSignedVLQsUntilCommaFuel]
      by_cases hc : it.hasNext ∧ it.peek ≠ some commaCode
      · rw [if_pos hc, if_pos hc]
        cases hp : nextSignedVLQ it with
        | error e => rfl
        | ok p =>
          obtain ⟨v, it'⟩ := p
          dsimp only
          have := nextSignedVLQ_length hp
          rw [ih g it' (by omega) (by omega)]
      · rw [if_neg hc, if_neg hc]

open TokenIterator in
/-- One-step unfolding of `readSignedVLQsUntilComma` (the source loop). -/
theorem readSignedVLQsUntilComma_eq (it : TokenIterator) :
    readSignedVLQsUntilComma it =
      if it.hasNext ∧ it.peek ≠ some commaCode then
        match nextSignedVLQ it with
        | .error e => .error e
        | .ok (v, it') => do
            let (vs, it'') ← readSignedVLQsUntilComma it'
            .ok (v :: vs, it'')
      else .ok ([], it) := by
  unfold readSignedVLQsUntilComma
  rw [readSignedVLQsUntilCommaFuel]
  by_cases hc : it.hasNext ∧ it.peek ≠ some commaCode
  · rw [if_pos hc, if_pos hc]
    cases hp : nextSignedVLQ it with
    | error e => rfl
    | ok p =>
      obtain ⟨v, it'⟩ := p
      dsimp only
      have := nextSignedVLQ_length hp
      rw [readSignedVLQsUntilCommaFuel_congr it.rest.length (it'.rest.length + 1) it' (by omega) (by omega)]
  · rw [if_neg hc, if_neg hc]

open TokenIterator in
/-- `while (iter.hasNext() && iter.peek() !== ",") iter.nextUnsignedVLQ()` —
the forward-compatibility rule that discards trailing VLQs of an item
(fuelled like `readSignedVLQsUntilCommaFuel`). -/
def skipToCommaFuel : Nat → TokenIterator → Except String TokenIterator
  | 0, it => .ok it
  | fuel + 1, it =>
    if it.hasNext ∧ it.peek ≠ some commaCode then
      match nextUnsignedVLQ it with
      | .error e => .error e
      | .ok (_, it') => skipToCommaFuel fuel it'
    else .ok it

def skipToComma (it : TokenIterator) : Except String TokenIterator :=
  skipToCommaFuel (it.rest.length + 1) it

open TokenIterator in
theorem skipToCommaFuel_congr :
    ∀ f g : Nat, ∀ it, it.rest.length < f → it.rest.length < g →
      skipToCommaFuel f it = skipToCommaFuel g it := by
  intro f
  induction f with
  | zero => intro g it hf; omega
  | succ f ih =>
    intro g it hf hg
    match g, hg with
    | g + 1, hg =>
      rw [skipToCommaFuel, skipToCommaFuel]
      by_cases hc : it.hasNext ∧ it.peek ≠ some commaCode
      · rw [if_pos hc, if_pos hc]
        cases hp : nextUnsignedVLQ it with
        | error e => rfl
        | ok p =>
          obtain ⟨v, it'⟩ := p
          have := nextUnsignedVLQ_length hp
          exact ih g it' (by omega) (by omega)
      · rw [if_neg hc, if_neg hc]

open TokenIterator in
/-- One-step unfolding of `skipToComma` (the source loop). -/
theorem skipToComma_eq (it : TokenIterator) :
    skipToComma it =
      if it.hasNext ∧ it.peek ≠ some commaCode then
        match nextUnsignedVLQ it with
        | .error e => .error e
        | .ok (_, it') => skipToComma it'
      else .ok it := by
  unfold skipToComma
  rw [skipToCommaFuel]
  by_cases hc : it.hasNext ∧ it.peek ≠ some commaCode
  · rw [if_pos hc, if_pos hc]
    cases hp : nextUnsignedVLQ it with
    | error e => rfl
    | ok p =>
      obtain ⟨v, it'⟩ := p
      have := nextUnsignedVLQ_length hp
      exact skipToCommaFuel_congr it.rest.length (it'.rest.length + 1) it' (by omega) (by omega)
  · rw [if_neg hc, if_neg hc]

open TokenIterator in
/-- A conditional unsigned-VLQ field read. -/
def readOptUnsigned (cond : Bool) (it : TokenIterator) :
    Except String (Option Int × TokenIterator) :=
  if cond then do
    let (v, it') ← nextUnsignedVLQ it
    .ok (some v, it')
  else .ok (none, it)

open TokenIterator in
/-- A conditional signed-VLQ field read. -/
def readOptSigned (cond : Bool) (it : TokenIterator) :
    Except String (Option Int × TokenIterator) :=
  if cond then do
    let (v, it') ← nextSignedVLQ it
    .ok (some v, it')
  else .ok (none, it)

open TokenIterator in
/-- The `switch (tag)` of `Decoder.decode`: reads the tag-specific fields and
feeds them to the handler.  Unknown tags fall through unchanged. -/
def processTagItem (mode : DecodeMode) (names : List String) (st : DecState)
    (tag : Int) (it : TokenIterator) : Except String (DecState × TokenIterator) :=
  if tag = Tag.ORIGINAL_SCOPE_START then do
    let (flags, it) ← nextUnsignedVLQ it
    let (line, it) ← nextUnsignedVLQ it
    let (column, it) ← nextUnsignedVLQ it
    let (nameIdx, it) ← readOptSigned (jsTestBit flags 0) it
    let (kindIdx, it) ← readOptSigned (jsTestBit flags 1) it
    let st ← handleOriginalScopeStartItem mode names st flags line column nameIdx kindIdx
    pure (st, it)
  else if tag = Tag.ORIGINAL_SCOPE_VARIABLES then do
    let (variableIdxs, it) ← readSignedVLQsUntilComma it
    let st ← handleOriginalScopeVariablesItem mode names st variableIdxs
    pure (st, it)
  else if tag = Tag.ORIGINAL_SCOPE_END then do
    let (line, it) ← nextUnsignedVLQ it
    let (column, it) ← nextUnsignedVLQ it
    let st ← handleOriginalScopeEndItem mode st line column
    pure (st, it)
  else if tag = Tag.GENERATED_RANGE_START then do
    let (flags, it) ← nextUnsignedVLQ it
    let (line, it) ← readOptUnsigned (jsTestBit flags 0) it
    let (column, it) ← nextUnsignedVLQ it
    let (definitionIdx, it) ← readOptSigned (jsTestBit flags 1) it
    let st ← handleGeneratedRangeStartItem st flags line column definitionIdx
    pure (st, it)
  else if tag = Tag.GENERATED_RANGE_END then do
    let (lineOrColumn, it) ← nextUnsignedVLQ it
    let (maybeColumn, it) ← readOptUnsigned (it.hasNext && !(it.peek == some commaCode)) it
    let st ← match maybeColumn with
      | some column => handleGeneratedRangeEndItem mode st lineOrColumn column
      | none => handleGeneratedRangeEndItem mode st 0 lineOrColumn
    pure (st, it)
  else if tag = Tag.GENERATED_RANGE_BINDINGS then do
    let (valueIdxs, it) ← readSignedVLQsUntilComma it
    let st ← handleGeneratedRangeBindingsItem mode names st valueIdxs
    pure (st, it)
  else pure (st, it)

open TokenIterator in
/-- One iteration of the `while (iter.hasNext())` loop of `Decoder.decode`:
an empty item (leading comma) appends a `null` scope; otherwise the item is
parsed, trailing VLQs are discarded up to the next comma, and the comma is
consumed. -/
def processItem (mode : DecodeMode) (names : List String) (st : DecState)
    (it : TokenIterator) : Except String (DecState × TokenIterator) :=
  if it.peek = some commaCode then
    .ok ({ st with scopes := st.scopes ++ [none] }, it.nextChar)
  else do
    let (tag, it) ← nextUnsignedVLQ it
    let (st, it) ← processTagItem mode names st tag it
    let it ← skipToComma it
    let it := if it.hasNext then it.nextChar else it
    .ok (st, it)

namespace TokenIterator

theorem readOptUnsigned_length {c : Bool} {it it' : TokenIterator} {v : Option Int}
    (h : readOptUnsigned c it = .ok (v, it')) : it'.rest.length ≤ it.rest.length := by
  unfold readOptUnsigned at h
  split at h
  · simp only [exceptBind_ok] at h
    obtain ⟨⟨w, it1⟩, h1, h⟩ := h
    simp only [Except.ok.injEq, Prod.mk.injEq] at h
    rw [← h.2]
    exact Nat.le_of_lt (nextUnsignedVLQ_length h1)
  · simp only [Except.ok.injEq, Prod.mk.injEq] at h
    rw [← h.2]

theorem readOptSigned_length {c : Bool} {it it' : TokenIterator} {v : Option Int}
    (h : readOptSigned c it = .ok (v, it')) : it'.rest.length ≤ it.rest.length := by
  unfold readOptSigned at h
  split at h
  · simp only [exceptBind_ok] at h
    obtain ⟨⟨w, it1⟩, h1, h⟩ := h
    simp only [Except.ok.injEq, Prod.mk.injEq] at h
    rw [← h.2]
    exact Nat.le_of_lt (nextSignedVLQ_length h1)
  · simp only [Except.ok.injEq, Prod.mk.injEq] at h
    rw [← h.2]

theorem readSignedVLQsUntilCommaFuel_length :
    ∀ fuel : Nat, ∀ it vs (it' : TokenIterator),
      readSignedVLQsUntilCommaFuel fuel it = .ok (vs, it') →
      it'.rest.length ≤ it.rest.length := by
  intro fuel
  induction fuel with
  | zero =>
    intro it vs it' h
    simp only [readSignedVLQsUntilCommaFuel, Except.ok.injEq, Prod.mk.injEq] at h
    rw [← h.2]
  | succ fuel ih =>
    intro it vs it' h
    rw [readSignedVLQsUntilCommaFuel] at h
    split at h
    · split at h
      · exact absurd h (by simp)
      · rename_i v it1 heq
        simp only [exceptBind_ok] at h
        obtain ⟨⟨vs1, it2⟩, h1, h⟩ := h
        dsimp only at h
        simp only [Except.ok.injEq, Prod.mk.injEq] at h
        have hlt := nextSignedVLQ_length heq
        have := ih it1 vs1 it2 h1
        rw [← h.2]
        omega
    · simp only [Except.ok.injEq, Prod.mk.injEq] at h
      rw [← h.2]

theorem readSignedVLQsUntilComma_length {it it' : TokenIterator} {vs : List Int}
    (h : readSignedVLQsUntilComma it = .ok (vs, it')) :
    it'.rest.length ≤ it.rest.length :=
  readSignedVLQsUntilCommaFuel_length _ it vs it' h

theorem skipToCommaFuel_length :
    ∀ fuel : Nat, ∀ it (it' : TokenIterator),
      skipToCommaFuel fuel it = .ok it' → it'.rest.length ≤ it.rest.length := by
  intro fuel
  induction fuel with
  | zero =>
    intro it it' h
    simp only [skipToCommaFuel, Except.ok.injEq] at h
    rw [← h]
  | succ fuel ih =>
    intro it it' h
    rw [skipToCommaFuel] at h
    split at h
    · split at h
      · exact absurd h (by simp)
      · rename_i v it1 heq
        have hlt := nextUnsignedVLQ_length heq
        have := ih it1 it' h
        omega
    · simp only [Except.ok.injEq] at h
      rw [← h]

theorem skipToComma_length {it it' : TokenIterator}
    (h : skipToComma it = .ok it') : it'.rest.length ≤ it.rest.length :=
  skipToCommaFuel_length _ it it' h

theorem nextChar_length (it : TokenIterator) :
    it.nextChar.rest.length ≤ it.rest.length := by
  unfold nextChar
  cases it.rest <;> simp

end TokenIterator

theorem processTagItem_length {mode : DecodeMode} {names : List String}
    {st st' : DecState} {tag : Int} {it it' : TokenIterator}
    (h : processTagItem mode names st tag it = .ok (st', it')) :
    it'.rest.length ≤ it.rest.length := by
  unfold processTagItem at h
  split at h
  · simp only [exceptBind_ok] at h
    obtain ⟨⟨flags, it1⟩, h1, h⟩ := h
    dsimp only at h
    obtain ⟨⟨line, it2⟩, h2, h⟩ := h
    dsimp only at h
    obtain ⟨⟨column, it3⟩, h3, h⟩ := h
    dsimp only at h
    obtain ⟨⟨nameIdx, it4⟩, h4, h⟩ := h
    dsimp only at h
    obtain ⟨⟨kindIdx, it5⟩, h5, h⟩ := h
    dsimp only at h
    obtain ⟨st1, h6, h⟩ := h
    simp only [pure, Except.pure, Except.ok.injEq, Prod.mk.injEq] at h
    rw [← h.2]
    have := TokenIterator.nextUnsignedVLQ_length h1
    have := TokenIterator.nextUnsignedVLQ_length h2
    have := TokenIterator.nextUnsignedVLQ_length h3
    have := TokenIterator.readOptSigned_length h4
    have := TokenIterator.readOptSigned_length h5
    omega
  · split at h
    · simp only [exceptBind_ok] at h
      obtain ⟨⟨vs, it1⟩, h1, h⟩ := h
      dsimp only at h
      obtain ⟨st1, h2, h⟩ := h
      simp only [pure, Except.pure, Except.ok.injEq, Prod.mk.injEq] at h
      rw [← h.2]
      exact TokenIterator.readSignedVLQsUntilComma_length h1
    · split at h
      · simp only [exceptBind_ok] at h
        obtain ⟨⟨line, it1⟩, h1, h⟩ := h
        dsimp only at h
        obtain ⟨⟨column, it2⟩, h2, h⟩ := h
        dsimp only at h
        obtain ⟨st1, h3, h⟩ := h
        simp only [pure, Except.pure, Except.ok.injEq, Prod.mk.injEq] at h
        rw [← h.2]
        have := TokenIterator.nextUnsignedVLQ_length h1
        have := TokenIterator.nextUnsignedVLQ_length h2
        omega
      · split at h
        · simp only [exceptBind_ok] at h
          obtain ⟨⟨flags, it1⟩, h1, h⟩ := h
          dsimp only at h
          obtain ⟨⟨line, it2⟩, h2, h⟩ := h
          dsimp only at h
          obtain ⟨⟨column, it3⟩, h3, h⟩ := h
          dsimp only at h
          obtain ⟨⟨defIdx, it4⟩, h4, h⟩ := h
          dsimp only at h
          obtain ⟨st1, h5, h⟩ := h
          simp only [pure, Except.pure, Except.ok.injEq, Prod.mk.injEq] at h
          rw [← h.2]
          have := TokenIterator.nextUnsignedVLQ_length h1
          have := TokenIterator.readOptUnsigned_length h2
          have := TokenIterator.nextUnsignedVLQ_length h3
          have := TokenIterator.readOptSigned_length h4
          omega
        · split at h
          · simp only [exceptBind_ok] at h
            obtain ⟨⟨lineOrColumn, it1⟩, h1, h⟩ := h
            dsimp only at h
            obtain ⟨⟨maybeColumn, it2⟩, h2, h⟩ := h
            dsimp only at h
            have hl1 := TokenIterator.nextUnsignedVLQ_length h1
            have hl2 := TokenIterator.readOptUnsigned_length h2
            cases maybeColumn with
            | some column =>
              simp only [exceptBind_ok] at h
              obtain ⟨st1, h3, h⟩ := h
              simp only [pure, Except.pure, Except.ok.injEq, Prod.mk.injEq] at h
              rw [← h.2]
              omega
            | none =>
              simp only [exceptBind_ok] at h
              obtain ⟨st1, h3, h⟩ := h
              simp only [pure, Except.pure, Except.ok.injEq, Prod.mk.injEq] at h
              rw [← h.2]
              omega
          · split at h
            · simp only [exceptBind_ok] at h
              obtain ⟨⟨vs, it1⟩, h1, h⟩ := h
              dsimp only at h
              obtain ⟨st1, h2, h⟩ := h
              simp only [pure, Except.pure, Except.ok.injEq, Prod.mk.injEq] at h
              rw [← h.2]
              exact TokenIterator.readSignedVLQsUntilComma_length h1
            · simp only [pure, Except.pure, Except.ok.injEq, Prod.mk.injEq] at h
              rw [← h.2]

theorem processItem_length {mode : DecodeMode} {names : List String}
    {st st' : DecState} {it it' : TokenIterator}
    (h : processItem mode names st it = .ok (st', it'))
    (hne : it.rest ≠ []) : it'.rest.length < it.rest.length := by
  unfold processItem at h
  split at h
  · simp only [Except.ok.injEq, Prod.mk.injEq] at h
    rw [← h.2]
    unfold TokenIterator.nextChar
    cases hr : it.rest with
    | nil => exact absurd hr hne
    | cons a b => simp
  · simp only [exceptBind_ok] at h
    obtain ⟨⟨tag, it1⟩, h1, h⟩ := h
    dsimp only at h
    obtain ⟨⟨st1, it2⟩, h2, h⟩ := h
    dsimp only at h
    obtain ⟨it3, h3, h⟩ := h
    simp only [Except.ok.injEq, Prod.mk.injEq] at h
    have l1 := TokenIterator.nextUnsignedVLQ_length h1
    have l2 := processTagItem_length h2
    have l3 := TokenIterator.skipToComma_length h3
    have l4 : it'.rest.length ≤ it3.rest.length := by
      rw [← h.2]
      split
      · exact TokenIterator.nextChar_length it3
      · exact Nat.le_refl _
    omega

open TokenIterator in
/-- The `while (iter.hasNext())` loop of `Decoder.decode`, with an explicit
fuel argument (one unit per consumed code unit; `processItem` always
consumes at least one, so `it.rest.length + 1` units suffice). -/
def decodeLoopFuel (mode : DecodeMode) (names : List String) :
    Nat → DecState → TokenIterator → Except String (DecState × TokenIterator)
  | 0, st, it => .ok (st, it)
  | fuel + 1, st, it =>
    if it.rest = [] then .ok (st, it)
    else
      match processItem mode names st it with
      | .error e => .error e
      | .ok (st', it') => decodeLoopFuel mode names fuel st' it'

/-- The `while (iter.hasNext())` loop of `Decoder.decode`. -/
def decodeLoop (mode : DecodeMode) (names : List String) (st : DecState)
    (it : TokenIterator) : Except String (DecState × TokenIterator) :=
  decodeLoopFuel mode names (it.rest.length + 1) st it

theorem decodeLoopFuel_congr (mode : DecodeMode) (names : List String) :
    ∀ f g : Nat, ∀ st it, it.rest.length < f → it.rest.length < g →
      decodeLoopFuel mode names f st it = decodeLoopFuel mode names g st it := by
  intro f
  induction f with
  | zero => intro g st it hf; omega
  | succ f ih =>
    intro g st it hf hg
    match g, hg with
    | g + 1, hg =>
      rw [decodeLoopFuel, decodeLoopFuel]
      by_cases hne : it.rest = []
      · rw [if_pos hne, if_pos hne]
      · rw [if_neg hne, if_neg hne]
        cases hp : processItem mode names st it with
        | error e => rfl
        | ok p =>
          obtain ⟨st', it'⟩ := p
          have := processItem_length hp hne
          exact ih g st' it' (by omega) (by omega)

/-- One-step unfolding of `decodeLoop` (the shape of the source loop). -/
theorem decodeLoop_eq (mode : DecodeMode) (names : List String)
    (st : DecState) (it : TokenIterator) :
    decodeLoop mode names st it =
      if it.rest = [] then .ok (st, it)
      else
        match processItem mode names st it with
        | .error e => .error e
        | .ok (st', it') => decodeLoop mode names st' it' := by
  unfold decodeLoop
  rw [decodeLoopFuel]
  by_cases hne : it.rest = []
  · rw [if_pos hne, if_pos hne]
  · rw [if_neg hne, if_neg hne]
    cases hp : processItem mode names st it with
    | error e => rfl
    | ok p =>
      obtain ⟨st', it'⟩ := p
      have := processItem_length hp hne
      exact decodeLoopFuel_congr mode names _ _ st' it' (by omega) (by omega)

open TokenIterator in
/-- `Decoder.decode()`: run the loop, account for a trailing empty item,
check for unclosed scopes/ranges, return the result. -/
def decoderDecode (mode : DecodeMode) (names : List String) (s : List Nat) :
    Except String DecodedScopeInfo := do
  let (st, it) ← decodeLoop mode names initDecState ⟨s, none⟩
  let c ← it.currentChar
  let st := if c = commaCode then { st with scopes := st.scopes ++ [none] } else st
  if st.scopeStack ≠ [] then
    throwInStrictMode mode "Encountered ORIGINAL_SCOPE_START without matching END!"
  if st.rangeStack ≠ [] then
    throwInStrictMode mode "Encountered GENERATED_RANGE_START without matching END!"
  .ok ⟨st.scopes, st.ranges, st.scopeArena, st.rangeArena⟩

/-- `SourceMapJson` (the fields the codec touches; `scopes` is the encoded
code-unit list). -/
structure SourceMapJson where
  version : Int
  sources : List (Option String)
  mappings : String
  names : Option (List String)
  scopes : Option (List Nat)
deriving Repr, DecidableEq

/-- The exported `decode(sourceMap, options?)`: a missing `names`, and a
missing or empty (falsy) `scopes`, yield an empty `ScopeInfo`.  The `mode`
argument models `options?.mode ?? DecodeMode.LAX`. -/
def decode (sourceMap : SourceMapJson) (mode : DecodeMode) :
    Except String DecodedScopeInfo :=
  match sourceMap.scopes, sourceMap.names with
  | none, _ => .ok ⟨[], [], [], []⟩
  | some [], _ => .ok ⟨[], [], [], []⟩
  | some _, none => .ok ⟨[], [], [], []⟩
  | some s, some names => decoderDecode mode names s

/-! ### Correctness of the VLQ layer -/

theorem base64_roundtrip : ∀ d, d < 64 → BASE64_CODES (base64Char d) = some d := by
  decide

theorem base64Char_mem : ∀ d, d < 64 → base64Char d ∈ BASE64_CHARS := by decide

theorem base64Char_eq_65 : ∀ d, d < 64 → (base64Char d = 65 ↔ d = 0) := by decide

theorem comma_not_base64 : commaCode ∉ BASE64_CHARS := by decide

theorem jsShl_zero (s : Nat) : jsShl 0 s = 0 := by
  simp only [jsShl, toInt32, Nat.cast_zero, zero_mul]
  decide

theorem toInt32_of_small {i : Int} (h0 : 0 ≤ i) (h : i < 2 ^ 31) : toInt32 i = i := by
  unfold toInt32
  have h1 : i % (2 ^ 32 : Int) = i := Int.emod_eq_of_lt h0 (by omega)
  simp only [h1]
  omega

theorem jsShl_small {x s : Nat} (hs : s < 32) (h : (x : Int) * 2 ^ s < 2 ^ 31) :
    jsShl x s = (x : Int) * 2 ^ s := by
  unfold jsShl
  rw [Nat.mod_eq_of_lt hs]
  exact toInt32_of_small (by positivity) h

theorem shift_lt_32 {m : Nat} {shift : Nat} (hm : 0 < m)
    (h : (m : Int) * 2 ^ shift < 2 ^ 31) : shift < 32 := by
  by_contra hc
  push_neg at hc
  have h1 : (2 : Int) ^ 32 ≤ 2 ^ shift := pow_le_pow_right₀ (by norm_num) hc
  have h2 : (2 : Int) ^ shift ≤ (m : Int) * 2 ^ shift :=
    le_mul_of_one_le_left (pow_pos (by norm_num) shift).le (by exact_mod_cast hm)
  have h3 : (2 : Int) ^ 31 < 2 ^ 32 := by norm_num
  linarith

/-- Parsing the encoding of `m` (with anything appended) from accumulator
`res` at shift position `shift` adds `m * 2^shift` and stops right after the
encoding, provided the value fits in the 31 bits that survive the decoder's
`<<`. -/
theorem parse_encodeUnsignedGo :
    ∀ m : Nat, ∀ res : Int, ∀ shift : Nat, ∀ rest : List Nat,
      (m : Int) * 2 ^ shift < 2 ^ 31 →
      ∃ c, c ∈ BASE64_CHARS ∧
        TokenIterator.nextUnsignedVLQGo (encodeUnsignedGo m ++ rest) res shift =
          .ok (res + (m : Int) * 2 ^ shift, ⟨rest, some c⟩) := by
  intro m
  induction m using Nat.strong_induction_on with
  | _ m ih =>
    intro res shift rest hbound
    rw [encodeUnsignedGo]
    by_cases hdiv : m / 32 = 0
    · have hm32 : m < 32 := by omega
      rw [dif_pos hdiv]
      refine ⟨base64Char (m % 32), base64Char_mem _ (by omega), ?_⟩
      rw [List.cons_append, List.nil_append, TokenIterator.nextUnsignedVLQGo]
      have hcode : BASE64_CODES (base64Char (m % 32)) = some (m % 32) :=
        base64_roundtrip _ (by omega)
      rw [hcode]
      dsimp only
      rw [if_neg ?herr]
      case herr =>
        rintro ⟨hne, heq⟩
        simp only [Option.some.injEq] at heq
        have := (base64Char_eq_65 (m % 32) (by omega)).2 heq
        exact hne this
      have hd : (some (m % 32)).getD 0 = m % 32 := rfl
      rw [hd]
      have hcont : (m % 32) / 32 % 2 = 0 := by omega
      rw [Nat.mod_mod_of_dvd, hcont] <;> try norm_num
      have hmm : m % 32 = m := Nat.mod_eq_of_lt hm32
      by_cases hm0 : m = 0
      · subst hm0
        simp [jsShl_zero]
      · have hs32 : shift < 32 := shift_lt_32 (by omega) hbound
        rw [hmm, jsShl_small hs32 hbound]
    · rw [dif_neg hdiv]
      have hm32 : 32 ≤ m := by
        by_contra hc
        exact hdiv (by omega)
      have hs32 : shift < 32 := shift_lt_32 (by omega) hbound
      have hsub : ((m / 32 : Nat) : Int) * 2 ^ (shift + 5) ≤ (m : Int) * 2 ^ shift := by
        have h1 : (m / 32) * 32 ≤ m := Nat.div_mul_le_self m 32
        have h2 : ((m / 32 : Nat) : Int) * 32 ≤ (m : Int) := by exact_mod_cast h1
        have h3 : (2 : Int) ^ (shift + 5) = 2 ^ shift * 32 := by ring
        rw [h3]
        nlinarith [pow_pos (by norm_num : (0:Int) < 2) shift]
      obtain ⟨c, hcmem, hrec⟩ := ih (m / 32) (Nat.div_lt_self (by omega) (by norm_num))
        (res + ((m % 32 : Nat) : Int) * 2 ^ shift) (shift + 5) rest (by omega)
      refine ⟨c, hcmem, ?_⟩
      rw [List.cons_append, TokenIterator.nextUnsignedVLQGo]
      have hcode : BASE64_CODES (base64Char (32 + m % 32)) = some (32 + m % 32) :=
        base64_roundtrip _ (by omega)
      rw [hcode]
      dsimp only
      rw [if_neg ?herr2]
      case herr2 =>
        rintro ⟨hne, heq⟩
        simp only [Option.some.injEq] at heq
        omega
      have hd : (some (32 + m % 32)).getD 0 = 32 + m % 32 := rfl
      rw [hd]
      have hcont : (32 + m % 32) / 32 % 2 = 1 := by omega
      rw [if_pos ?hc2]
      case hc2 => omega
      have hmod : (32 + m % 32) % 32 = m % 32 := by omega
      rw [hmod]
      have hfit : ((m % 32 : Nat) : Int) * 2 ^ shift < 2 ^ 31 := by
        have : ((m % 32 : Nat) : Int) ≤ (m : Int) := by
          exact_mod_cast Nat.mod_le m 32
        nlinarith [pow_pos (by norm_num : (0:Int) < 2) shift]
      rw [jsShl_small hs32 hfit, hrec]
      congr 2
      have hsplit : (m : Int) = ((m / 32 : Nat) : Int) * 32 + ((m % 32 : Nat) : Int) := by
        have := Nat.div_add_mod m 32
        push_cast
        omega
      have h3 : (2 : Int) ^ (shift + 5) = 2 ^ shift * 32 := by ring
      rw [h3]
      nlinarith

theorem parse_encodeUnsigned {n : Nat} (h : n < 2 ^ 31) (rest : List Nat) :
    ∃ c, c ∈ BASE64_CHARS ∧
      TokenIterator.nextUnsignedVLQGo (encodeUnsigned n ++ rest) 0 0 =
        .ok ((n : Int), ⟨rest, some c⟩) := by
  unfold encodeUnsigned
  rw [Nat.mod_eq_of_lt (by omega)]
  obtain ⟨c, hc, heq⟩ := parse_encodeUnsignedGo n 0 0 rest (by
    push_cast
    simpa using (by exact_mod_cast h : (n : Int) < 2 ^ 31))
  exact ⟨c, hc, by simpa using heq⟩

theorem nextSignedVLQ_of_unsigned {it it' : TokenIterator} {u : Nat}
    (h : TokenIterator.nextUnsignedVLQ it = .ok ((u : Int), it')) (hub : u < 2 ^ 31) :
    TokenIterator.nextSignedVLQ it =
      .ok (if u % 2 = 1 then -((u / 2 : Nat) : Int) else ((u / 2 : Nat) : Int), it') := by
  unfold TokenIterator.nextSignedVLQ
  rw [h]
  simp only [Bind.bind, Except.bind]
  have e1 : jsAnd1 (u : Int) = u % 2 := by
    unfold jsAnd1
    rw [toInt32_of_small (by positivity) (by exact_mod_cast hub)]
    omega
  have e2 : toUint32 (u : Int) = u := by
    unfold toUint32
    omega
  rw [e1, e2]
  by_cases hpar : u % 2 = 1
  · rw [if_pos hpar, if_pos (by omega)]
  · rw [if_neg hpar, if_neg (by omega)]

theorem parse_encodeSigned {n : Int} (h1 : -(2 ^ 30 - 1) ≤ n) (h2 : n ≤ 2 ^ 30 - 1)
    (rest : List Nat) :
    ∃ c, c ∈ BASE64_CHARS ∧
      TokenIterator.nextSignedVLQ ⟨encodeSigned n ++ rest, none⟩ =
        .ok (n, ⟨rest, some c⟩) := by
  have hrw : encodeSigned n = encodeUnsigned (if 0 ≤ n then 2 * n else 1 - 2 * n).toNat := rfl
  have hucast : ((if 0 ≤ n then 2 * n else 1 - 2 * n).toNat : Int) =
      if 0 ≤ n then 2 * n else 1 - 2 * n := by
    split <;> omega
  have hub : (if 0 ≤ n then 2 * n else 1 - 2 * n).toNat < 2 ^ 31 := by
    split at hucast <;> omega
  obtain ⟨c, hc, heq⟩ := parse_encodeUnsigned hub rest
  refine ⟨c, hc, ?_⟩
  have hun : TokenIterator.nextUnsignedVLQ ⟨encodeSigned n ++ rest, none⟩ =
      .ok (((if 0 ≤ n then 2 * n else 1 - 2 * n).toNat : Int), ⟨rest, some c⟩) := by
    rw [hrw]
    exact heq
  rw [nextSignedVLQ_of_unsigned hun hub]
  congr 1
  simp only [Prod.mk.injEq]
  refine ⟨?_, trivial⟩
  by_cases hn : 0 ≤ n
  · rw [if_pos hn] at hucast
    rw [if_neg (by omega)]
    omega
  · rw [if_neg hn] at hucast
    rw [if_pos (by omega)]
    omega

/-- C4: for every unsigned integer below `2^31` (the range that survives the
decoder's 32-bit `<<` accumulation), `nextUnsignedVLQ` inverts
`encodeUnsigned`, and for every signed integer of magnitude at most
`2^30 - 1`, `nextSignedVLQ` inverts `encodeSigned`. -/
theorem vlq_roundtrip_c4 :
    (∀ n : Nat, n < 2 ^ 31 →
      ∃ it', TokenIterator.nextUnsignedVLQ ⟨encodeUnsigned n, none⟩ = .ok ((n : Int), it')) ∧
    (∀ n : Int, -(2 ^ 30 - 1) ≤ n → n ≤ 2 ^ 30 - 1 →
      ∃ it', TokenIterator.nextSignedVLQ ⟨encodeSigned n, none⟩ = .ok (n, it')) := by
  constructor
  · intro n h
    obtain ⟨c, _, heq⟩ := parse_encodeUnsigned h []
    refine ⟨⟨[], some c⟩, ?_⟩
    unfold TokenIterator.nextUnsignedVLQ
    dsimp only
    rw [← List.append_nil (encodeUnsigned n)]
    exact heq
  · intro n h1 h2
    obtain ⟨c, _, heq⟩ := parse_encodeSigned h1 h2 []
    refine ⟨⟨[], some c⟩, ?_⟩
    rw [← List.append_nil (encodeSigned n)]
    exact heq

/-- Witness for C4 at `n = 33` and `n = -5`. -/
theorem vlq_roundtrip_c4_witness :
    (∃ it', TokenIterator.nextUnsignedVLQ ⟨encodeUnsigned 33, none⟩ = .ok ((33 : Int), it')) ∧
    (∃ it', TokenIterator.nextSignedVLQ ⟨encodeSigned (-5), none⟩ = .ok ((-5 : Int), it')) :=
  ⟨vlq_roundtrip_c4.1 33 (by norm_num), vlq_roundtrip_c4.2 (-5) (by norm_num) (by norm_num)⟩

/-! ### C5: error behaviour of `nextUnsignedVLQ`

The source checks `BASE64_CODES[charCode]`, a `Uint8Array(123)`: a
non-alphabet code unit below 123 reads as the array default `0` and (unless
it is `A` = 65) raises "unexpected char"; a code unit of 123 or more reads
as `undefined`, which passes the `digit === 0` check and the continuation
test, so the VLQ ends silently with a zero digit instead of throwing. -/

/-- Exactly when does the VLQ reader run off the end of the input with a
continuation bit pending (claim-side characterization for C5). -/
def vlqEndsTruncated : List Nat → Bool
  | [] => true
  | c :: r =>
    match BASE64_CODES c with
    | none => false
    | some v =>
      if v = 0 ∧ c ≠ 65 then false
      else if v / 32 % 2 = 1 then vlqEndsTruncated r else false

/-- Exactly when does the VLQ reader hit a code unit that raises
"unexpected char": a non-alphabet unit *below 123* other than `A`
(claim-side characterization for C5). -/
def vlqHitsBadChar : List Nat → Bool
  | [] => false
  | c :: r =>
    match BASE64_CODES c with
    | none => false
    | some v =>
      if v = 0 ∧ c ≠ 65 then true
      else if v / 32 % 2 = 1 then vlqHitsBadChar r else false

theorem nextUnsignedVLQGo_error_characterization :
    ∀ (l : List Nat) (res : Int) (shift : Nat),
      (TokenIterator.nextUnsignedVLQGo l res shift =
          .error "Unexpected end of input while decodling VLQ number!" ↔
        vlqEndsTruncated l = true) ∧
      (TokenIterator.nextUnsignedVLQGo l res shift =
          .error "Unexpected char encountered while decoding" ↔
        vlqHitsBadChar l = true) := by
  intro l
  induction l with
  | nil =>
    intro res shift
    constructor
    · simp [TokenIterator.nextUnsignedVLQGo, vlqEndsTruncated]
    · simp only [TokenIterator.nextUnsignedVLQGo, vlqHitsBadChar]
      constructor
      · intro h
        simp at h
      · intro h
        exact absurd h (by simp)
  | cons c r ih =>
    intro res shift
    rw [TokenIterator.nextUnsignedVLQGo, vlqEndsTruncated, vlqHitsBadChar]
    dsimp only
    cases hcode : BASE64_CODES c with
    | none =>
      simp only [hcode, Option.getD_none]
      rw [if_neg (by rintro ⟨h1, h2⟩; exact Option.noConfusion h2)]
      norm_num
      exact ⟨by simp, by simp⟩
    | some v =>
      simp only [hcode, Option.getD_some, Option.some.injEq]
      by_cases hbad : v = 0 ∧ c ≠ 65
      · rw [if_pos ⟨hbad.2, hbad.1⟩]
        simp only [if_pos hbad]
        constructor
        · constructor
          · intro h
            simp at h
          · intro h
            exact absurd h (by simp)
        · simp
      · rw [if_neg (by rintro ⟨h65, heq⟩; exact hbad ⟨heq, h65⟩)]
        simp only [if_neg hbad]
        by_cases hcont : v / 32 % 2 = 1
        · simp only [if_pos hcont]
          exact ih _ _
        · simp only [if_neg hcont]
          constructor
          · constructor
            · intro h
              exact absurd h (by simp)
            · intro h
              exact absurd h (by simp)
          · constructor
            · intro h
              exact absurd h (by simp)
            · intro h
              exact absurd h (by simp)

/-- C5 (amended): `nextUnsignedVLQ` throws "unexpected end of input" exactly
when the input ends with a continuation bit pending, and throws
"unexpected char" exactly when it reads, inside the VLQ, a non-alphabet
code unit *below 123* other than `A`.  (Code units of 123 and above fall
outside the `BASE64_CODES` table, read as `undefined` and silently
terminate the VLQ with digit value 0 — the part of the claim that fails.) -/
theorem vlq_error_characterization_c5 (it : TokenIterator) :
    (TokenIterator.nextUnsignedVLQ it =
        .error "Unexpected end of input while decodling VLQ number!" ↔
      vlqEndsTruncated it.rest = true) ∧
    (TokenIterator.nextUnsignedVLQ it =
        .error "Unexpected char encountered while decoding" ↔
      vlqHitsBadChar it.rest = true) :=
  nextUnsignedVLQGo_error_characterization it.rest 0 0

/-- C5 counterexample: `{` (code unit 123) is not in the base64 alphabet,
yet reading a VLQ that starts with it does not throw — it yields 0. -/
theorem vlq_badchar_no_throw_c5 :
    123 ∉ BASE64_CHARS ∧
      TokenIterator.nextUnsignedVLQ ⟨[123], none⟩ =
        .ok (0, ⟨[], some 123⟩) := by
  constructor
  · decide
  · rfl

/-! ### C9 and C2: decoder entry behaviour -/

/-- C9: when the `scopes` field or the `names` field of the source map is
absent — including the case of an empty `scopes` string, which is falsy in
JavaScript — `decode` returns the empty `ScopeInfo` without throwing, in
both STRICT and LAX modes. -/
theorem decode_missing_fields_c9 (map : SourceMapJson) (mode : DecodeMode)
    (h : map.scopes = none ∨ map.scopes = some [] ∨ map.names = none) :
    decode map mode = .ok ⟨[], [], [], []⟩ := by
  unfold decode
  cases hs : map.scopes with
  | none => rfl
  | some s =>
    cases hn : map.names with
    | none => cases s <;> rfl
    | some names =>
      rcases h with h | h | h
      · rw [hs] at h
        exact absurd h (by simp)
      · rw [hs] at h
        simp only [Option.some.injEq] at h
        subst h
        rfl
      · rw [hn] at h
        exact absurd h (by simp)

/-- Witness for C9: a map with `names` absent, and one with `scopes = ""`,
decode to the empty info in both modes. -/
theorem decode_missing_fields_c9_witness :
    decode ⟨3, [], "", none, some [66]⟩ DecodeMode.STRICT = .ok ⟨[], [], [], []⟩ ∧
    decode ⟨3, [], "", some ["foo"], some []⟩ DecodeMode.LAX = .ok ⟨[], [], [], []⟩ ∧
    decode ⟨3, [], "", some ["foo"], none⟩ DecodeMode.STRICT = .ok ⟨[], [], [], []⟩ :=
  ⟨decode_missing_fields_c9 _ _ (Or.inr (Or.inr rfl)),
   decode_missing_fields_c9 _ _ (Or.inr (Or.inl rfl)),
   decode_missing_fields_c9 _ _ (Or.inl rfl)⟩

/-- C2 (code-bug evidence): the stream `"FAA,HE,GA"` — a generated range
with a GENERATED_RANGE_BINDINGS item whose resolved index `2` lies outside
`names = ["foo"]` — does *not* throw in STRICT mode; in both modes the
binding decodes to JavaScript `undefined` (`names[2]`), not the empty
string.  The name/kind/variable paths go through `#resolveName` and do
throw; the bindings path reads `names[valueIdx]` bare (the `TODO` in the
source), contradicting the decoder's own doc comment and
`decode.test.ts`. -/
theorem bindings_oob_not_checked_c2 :
    decode ⟨3, [none], "", some ["foo"], some [70, 65, 65, 44, 72, 69, 44, 71, 65]⟩
        DecodeMode.STRICT =
      .ok ⟨[], [0], [],
        [⟨⟨0, 0⟩, ⟨0, 0⟩, false, false, none, [BindVal.undef], [], none⟩]⟩ ∧
    decode ⟨3, [none], "", some ["foo"], some [70, 65, 65, 44, 72, 69, 44, 71, 65]⟩
        DecodeMode.LAX =
      .ok ⟨[], [0], [],
        [⟨⟨0, 0⟩, ⟨0, 0⟩, false, false, none, [BindVal.undef], [], none⟩]⟩ :=
  ⟨rfl, rfl⟩

/-! ## The authored data model and the encoder (`src/encode/encoder.ts`)

The encoder keys `#scopeToCount` by object identity and numbers the scopes
in emission (pre-order) order.  In the pure model a `GeneratedRange`
designates its definition scope by that pre-order index (`Option Nat`), as
does the decoded side, so `#scopeToCount.get(scope)` becomes a bounds check
against the running counter and `originalScope.variables` becomes a lookup
in the pre-order flattening of the scope forest. -/

/-- An authored `Position` (`u32` line/column). -/
structure Pos where
  line : Nat
  column : Nat
deriving Repr, DecidableEq

/-- An authored `OriginalScope` node: start, end, name, kind, isStackFrame,
variables, children (the `parent` back-reference is represented by the tree
shape itself). -/
inductive OrigScope : Type where
  | mk : Pos → Pos → Option String → Option String → Bool → List String →
      List OrigScope → OrigScope
deriving Repr

namespace OrigScope

def start : OrigScope → Pos | ⟨s, _, _, _, _, _, _⟩ => s
def end_ : OrigScope → Pos | ⟨_, e, _, _, _, _, _⟩ => e
def name : OrigScope → Option String | ⟨_, _, n, _, _, _, _⟩ => n
def kind : OrigScope → Option String | ⟨_, _, _, k, _, _, _⟩ => k
def isStackFrame : OrigScope → Bool | ⟨_, _, _, _, f, _, _⟩ => f
def variables_ : OrigScope → List String | ⟨_, _, _, _, _, v, _⟩ => v
def children : OrigScope → List OrigScope | ⟨_, _, _, _, _, _, c⟩ => c

end OrigScope

/-- An authored `OriginalPosition` (`callSite`). -/
structure OrigPos where
  sourceIndex : Nat
  line : Nat
  column : Nat
deriving Repr, DecidableEq

/-- An authored `GeneratedRange` node: start, end, definition scope
(pre-order index into the scope forest), isStackFrame, isHidden, callSite,
values, children. -/
inductive GenRange : Type where
  | mk : Pos → Pos → Option Nat → Bool → Bool → Option OrigPos →
      List BindVal → List GenRange → GenRange
deriving Repr

namespace GenRange

def start : GenRange → Pos | ⟨s, _, _, _, _, _, _, _⟩ => s
def end_ : GenRange → Pos | ⟨_, e, _, _, _, _, _, _⟩ => e
def originalScope : GenRange → Option Nat | ⟨_, _, o, _, _, _, _, _⟩ => o
def isStackFrame : GenRange → Bool | ⟨_, _, _, f, _, _, _, _⟩ => f
def isHidden : GenRange → Bool | ⟨_, _, _, _, h, _, _, _⟩ => h
def callSite : GenRange → Option OrigPos | ⟨_, _, _, _, _, c, _, _⟩ => c
def values : GenRange → List BindVal | ⟨_, _, _, _, _, _, v, _⟩ => v
def children : GenRange → List GenRange | ⟨_, _, _, _, _, _, _, c⟩ => c

end GenRange

/-- `ScopeInfo`. -/
structure ScopeInfo where
  scopes : List (Option OrigScope)
  ranges : List GenRange
deriving Repr

mutual
/-- Pre-order flattening of one scope tree (emission order of
OSCOPE_START items = the numbering of `#scopeToCount`). -/
def preorderScope : OrigScope → List OrigScope
  | .mk s e n k f v c => .mk s e n k f v c :: preorderScopes c

def preorderScopes : List OrigScope → List OrigScope
  | [] => []
  | t :: rest => preorderScope t ++ preorderScopes rest
end

/-- Pre-order flattening of the whole forest (`null` entries contribute no
nodes). -/
def preorderForest (scopes : List (Option OrigScope)) : List OrigScope :=
  scopes.foldr (fun s acc => (match s with | none => [] | some t => preorderScope t) ++ acc) []

/- The textual tags of `src/codec.ts` (`EncodedTag`), as code units. -/
namespace EncodedTag

def ORIGINAL_SCOPE_START : Nat := 66      -- "B" (0x1)
def ORIGINAL_SCOPE_END : Nat := 67       -- "C" (0x2)
def ORIGINAL_SCOPE_VARIABLES : Nat := 68 -- "D" (0x3)
def GENERATED_RANGE_START : Nat := 70     -- "F" (0x5)
def GENERATED_RANGE_END : Nat := 71      -- "G" (0x6)
def GENERATED_RANGE_BINDINGS : Nat := 72 -- "H" (0x7)

/-- Modelled from the spec: the GRANGE_CALLSITE tag is "impl-assigned" and
its `EncodedTag.GENERATED_RANGE_CALL_SITE` constant is referenced by the
encoder but not defined in the `codec.ts` of this snapshot; the next free
tag value 0x8 ("I") is used.  The decoder of this snapshot has no case for
it, so it is skipped as an unknown tag. -/
def GENERATED_RANGE_CALL_SITE : Nat := 73 -- "I" (0x8)

end EncodedTag

/-- The encoder's scope state (`DEFAULT_SCOPE_STATE` of the encoder also
tracks the column). -/
structure EScopeState where
  line : Nat
  column : Nat
  name : Nat
  kind : Nat
  variable_ : Nat
deriving Repr, DecidableEq

def E_DEFAULT_SCOPE_STATE : EScopeState := ⟨0, 0, 0, 0, 0⟩

/-- The encoder's range state. -/
structure ERangeState where
  line : Nat
  column : Nat
  defScopeIdx : Nat
  callsiteSourceIdx : Nat
  callsiteLine : Nat
  callsiteColumn : Nat
deriving Repr, DecidableEq

def E_DEFAULT_RANGE_STATE : ERangeState := ⟨0, 0, 0, 0, 0, 0⟩

/-- The `Encoder`'s mutable state.  `namesToIndex` models the
`Map<string, number>`: `set` conses in front, lookup takes the first hit.
Items are collected fully formed (`#currentItem`/`#finishItem` build each
item left to right, which the `++`s below reproduce). -/
structure EncoderState where
  names : List String
  namesToIndex : List (String × Nat)
  scopeState : EScopeState
  rangeState : ERangeState
  encodedItems : List (List Nat)
  scopeCounter : Nat
deriving Repr, DecidableEq

/-- Lookup in the modelled `Map` (first hit wins = latest `set`). -/
def mapGet (m : List (String × Nat)) (s : String) : Option Nat :=
  (m.find? (fun p => p.1 == s)).map (·.2)

/-- `Encoder.#resolveNamesIdx`: return the interned index, appending the
name to `names` on a miss. -/
def resolveNamesIdx (st : EncoderState) (name : String) : EncoderState × Nat :=
  match mapGet st.namesToIndex name with
  | some index => (st, index)
  | none =>
      let addedIndex := st.names.length
      ({ st with
          names := st.names ++ [name]
          namesToIndex := (name, addedIndex) :: st.namesToIndex },
       addedIndex)

/-- `Encoder.#verifyPositionWithScopeState`. -/
def verifyPositionWithScopeState (st : EncoderState) (line column : Nat) :
    Except String Unit :=
  if st.scopeState.line > line ∨ (st.scopeState.line = line ∧ st.scopeState.column > column) then
    .error "Attempting to encode scope item that precedes the last encoded scope item"
  else .ok ()

/-- `Encoder.#verifyPositionWithRangeState`. -/
def verifyPositionWithRangeState (st : EncoderState) (line column : Nat) :
    Except String Unit :=
  if st.rangeState.line > line ∨ (st.rangeState.line = line ∧ st.rangeState.column > column) then
    .error "Attempting to encode range item that precedes the last encoded range item"
  else .ok ()

/-- Append a finished item (`#finishItem`). -/
def pushItem (st : EncoderState) (item : List Nat) : EncoderState :=
  { st with encodedItems := st.encodedItems ++ [item] }

/-- `Encoder.#encodeOriginalScopeStart`. -/
def encodeOriginalScopeStart (st0 : EncoderState) (scope : OrigScope) :
    Except String EncoderState := do
  verifyPositionWithScopeState st0 scope.start.line scope.start.column
  let encodedLine := scope.start.line - st0.scopeState.line
  let st := { st0 with scopeState :=
    { st0.scopeState with line := scope.start.line, column := scope.start.column } }
  let (st, flagsName, encodedName) :=
    match scope.name with
    | none => (st, 0, none)
    | some nm =>
        let (st1, nameIdx) := resolveNamesIdx st nm
        let delta : Int := (nameIdx : Int) - (st1.scopeState.name : Int)
        ({ st1 with scopeState := { st1.scopeState with name := nameIdx } },
         1, some delta)
  let (st, flagsKind, encodedKind) :=
    match scope.kind with
    | none => (st, 0, none)
    | some kd =>
        let (st1, kindIdx) := resolveNamesIdx st kd
        let delta : Int := (kindIdx : Int) - (st1.scopeState.kind : Int)
        ({ st1 with scopeState := { st1.scopeState with kind := kindIdx } },
         2, some delta)
  let flags := flagsName + flagsKind + (if scope.isStackFrame then 4 else 0)
  let item := [EncodedTag.ORIGINAL_SCOPE_START] ++ encodeUnsigned flags ++
    encodeUnsigned encodedLine ++ encodeUnsigned scope.start.column ++
    (match encodedName with | none => [] | some d => encodeSigned d) ++
    (match encodedKind with | none => [] | some d => encodeSigned d)
  let st := pushItem st item
  .ok { st with scopeCounter := st.scopeCounter + 1 }

/-- `Encoder.#encodeOriginalScopeVariables`. -/
def encodeOriginalScopeVariables (st : EncoderState) (scope : OrigScope) :
    Except String EncoderState := do
  if scope.variables_.length = 0 then
    .ok st
  else
    let (st, item) := scope.variables_.foldl
      (fun (acc : EncoderState × List Nat) variable_ =>
        let (st, item) := acc
        let (st, idx) := resolveNamesIdx st variable_
        let delta : Int := (idx : Int) - (st.scopeState.variable_ : Int)
        ({ st with scopeState := { st.scopeState with variable_ := idx } },
         item ++ encodeSigned delta))
      (st, [EncodedTag.ORIGINAL_SCOPE_VARIABLES])
    .ok (pushItem st item)

/-- `Encoder.#encodeOriginalScopeEnd`. -/
def encodeOriginalScopeEnd (st0 : EncoderState) (scope : OrigScope) :
    Except String EncoderState := do
  verifyPositionWithScopeState st0 scope.end_.line scope.end_.column
  let encodedLine := scope.end_.line - st0.scopeState.line
  let st := { st0 with scopeState :=
    { st0.scopeState with line := scope.end_.line, column := scope.end_.column } }
  .ok (pushItem st ([EncodedTag.ORIGINAL_SCOPE_END] ++ encodeUnsigned encodedLine ++
    encodeUnsigned scope.end_.column))

mutual
/-- `Encoder.#encodeOriginalScope` for a non-null scope. -/
def encodeOriginalScopeTree (st : EncoderState) : OrigScope → Except String EncoderState
  | .mk s e n k f v c => do
    let scope : OrigScope := .mk s e n k f v c
    let st ← encodeOriginalScopeStart st scope
    let st ← encodeOriginalScopeVariables st scope
    let st ← encodeOriginalScopeChildren st c
    encodeOriginalScopeEnd st scope

def encodeOriginalScopeChildren (st : EncoderState) :
    List OrigScope → Except String EncoderState
  | [] => .ok st
  | child :: rest => do
    let st ← encodeOriginalScopeTree st child
    encodeOriginalScopeChildren st rest
end

/-- `Encoder.#encodeOriginalScope` (a `null` scope pushes an empty item). -/
def encodeOriginalScope (st : EncoderState) : Option OrigScope → Except String EncoderState
  | none => .ok (pushItem st [])
  | some scope => encodeOriginalScopeTree st scope

/-- `Encoder.#encodeGeneratedRangeStart`. -/
def encodeGeneratedRangeStart (st0 : EncoderState) (range : GenRange) :
    Except String EncoderState := do
  verifyPositionWithRangeState st0 range.start.line range.start.column
  let encodedLine := range.start.line - st0.rangeState.line
  let hasLine := 0 < encodedLine
  let encodedColumn :=
    if hasLine then range.start.column else range.start.column - st0.rangeState.column
  let st := { st0 with rangeState :=
    { st0.rangeState with line := range.start.line, column := range.start.column } }
  let (st, flagsDef, encodedDefinition) ←
    match range.originalScope with
    | none => pure (st, 0, (none : Option Int))
    | some r =>
        if r < st.scopeCounter then
          let delta : Int := (r : Int) - (st.rangeState.defScopeIdx : Int)
          pure ({ st with rangeState := { st.rangeState with defScopeIdx := r } },
                2, some delta)
        else
          .error "Unknown OriginalScope for definition!"
  let flags := (if hasLine then 1 else 0) + flagsDef +
    (if range.isStackFrame then 4 else 0) + (if range.isHidden then 8 else 0)
  let item := [EncodedTag.GENERATED_RANGE_START] ++ encodeUnsigned flags ++
    (if hasLine then encodeUnsigned encodedLine else []) ++
    encodeUnsigned encodedColumn ++
    (match encodedDefinition with | none => [] | some d => encodeSigned d)
  .ok (pushItem st item)

/-- `Encoder.#encodeGeneratedRangeBindings`.  `flatScopes` is the pre-order
flattening of the scope forest that resolves the definition-scope index
(standing in for the `range.originalScope` object pointer). -/
def encodeGeneratedRangeBindings (flatScopes : List OrigScope) (st : EncoderState)
    (range : GenRange) : Except String EncoderState := do
  if range.values.length = 0 then
    .ok st
  else
    match range.originalScope with
    | none => .error "Range has binding expressions but no OriginalScope"
    | some r =>
      let scope := ((flatScopes.get? r).getD (.mk ⟨0, 0⟩ ⟨0, 0⟩ none none false [] []))
      if scope.variables_.length ≠ range.values.length then
        .error "Ranges binding expressions dont match OriginalScopes variables"
      else do
        let (st, item) ← range.values.foldlM
          (fun (acc : EncoderState × List Nat) val => do
            let (st, item) := acc
            match val with
            | BindVal.nullv => pure (st, item ++ encodeSigned (-1))
            | BindVal.undef => pure (st, item ++ encodeSigned (-1))
            | BindVal.str s =>
                let (st, idx) := resolveNamesIdx st s
                pure (st, item ++ encodeSigned (idx : Int))
            | BindVal.subs _ => .error "Sub-range bindings not implemented yet!")
          (st, [EncodedTag.GENERATED_RANGE_BINDINGS])
        .ok (pushItem st item)

/-- `Encoder.#encodeGeneratedRangeCallSite` (the cascading differentials). -/
def encodeGeneratedRangeCallSite (st : EncoderState) (range : GenRange) :
    Except String EncoderState := do
  match range.callSite with
  | none => .ok st
  | some cs =>
    let encodedSourceIndex : Int := (cs.sourceIndex : Int) - (st.rangeState.callsiteSourceIdx : Int)
    let encodedLine : Int :=
      if encodedSourceIndex = 0 then (cs.line : Int) - (st.rangeState.callsiteLine : Int)
      else (cs.line : Int)
    let encodedColumn : Int :=
      if encodedLine = 0 then (cs.column : Int) - (st.rangeState.callsiteColumn : Int)
      else (cs.column : Int)
    let st := { st with rangeState :=
      { st.rangeState with
          callsiteSourceIdx := cs.sourceIndex
          callsiteLine := cs.line
          callsiteColumn := cs.column } }
    .ok (pushItem st ([EncodedTag.GENERATED_RANGE_CALL_SITE] ++
      encodeSigned encodedSourceIndex ++ encodeSigned encodedLine ++
      encodeSigned encodedColumn))

/-- `Encoder.#encodeGeneratedRangeEnd`. -/
def encodeGeneratedRangeEnd (st0 : EncoderState) (range : GenRange) :
    Except String EncoderState := do
  verifyPositionWithRangeState st0 range.end_.line range.end_.column
  let encodedLine := range.end_.line - st0.rangeState.line
  let hasLine := 0 < encodedLine
  let encodedColumn :=
    if hasLine then range.end_.column else range.end_.column - st0.rangeState.column
  let st := { st0 with rangeState :=
    { st0.rangeState with line := range.end_.line, column := range.end_.column } }
  .ok (pushItem st ([EncodedTag.GENERATED_RANGE_END] ++
    (if hasLine then encodeUnsigned encodedLine else []) ++
    encodeUnsigned encodedColumn))

mutual
/-- `Encoder.#encodeGeneratedRange`. -/
def encodeGeneratedRangeTree (flatScopes : List OrigScope) (st : EncoderState) :
    GenRange → Except String EncoderState
  | .mk s e o f h cs v c => do
    let range : GenRange := .mk s e o f h cs v c
    let st ← encodeGeneratedRangeStart st range
    let st ← encodeGeneratedRangeBindings flatScopes st range
    let st ← encodeGeneratedRangeCallSite st range
    let st ← encodeGeneratedRangeChildren flatScopes st c
    encodeGeneratedRangeEnd st range

def encodeGeneratedRangeChildren (flatScopes : List OrigScope) (st : EncoderState) :
    List GenRange → Except String EncoderState
  | [] => .ok st
  | child :: rest => do
    let st ← encodeGeneratedRangeTree flatScopes st child
    encodeGeneratedRangeChildren flatScopes st rest
end

/-- `Encoder.encode()`: encode all scope trees (resetting the scope state
before each top-level tree), then all range trees (resetting the range
state), and join the items with commas.  Returns the encoded code units
together with the final (mutated) `names` array. -/
def encoderEncode (info : ScopeInfo) (names : List String) :
    Except String (List Nat × List String) := do
  let init : EncoderState :=
    { names := names
      namesToIndex := names.enum.foldl (fun m p => (p.2, p.1) :: m) []
      scopeState := E_DEFAULT_SCOPE_STATE
      rangeState := E_DEFAULT_RANGE_STATE
      encodedItems := []
      scopeCounter := 0 }
  let flatScopes := preorderForest info.scopes
  let st ← info.scopes.foldlM
    (fun st scope => encodeOriginalScope { st with scopeState := E_DEFAULT_SCOPE_STATE } scope)
    init
  let st ← info.ranges.foldlM
    (fun st range =>
      encodeGeneratedRangeTree flatScopes { st with rangeState := E_DEFAULT_RANGE_STATE } range)
    st
  .ok (List.intercalate [commaCode] st.encodedItems, st.names)

/-- The exported `encode(scopesInfo, inputSourceMap?)` of
`src/encode/encode.ts`: synthesize a minimal map when none is given, ensure
`names`, check the `sources` length, and write `names`/`scopes`. -/
def encode (scopesInfo : ScopeInfo) (inputSourceMap : Option SourceMapJson) :
    Except String SourceMapJson := do
  let map := match inputSourceMap with
    | some m => m
    | none =>
        { version := 3
          sources := List.replicate scopesInfo.scopes.length none
          mappings := ""
          names := none
          scopes := none }
  let map := { map with names := some (map.names.getD []) }
  if map.sources.length ≠ scopesInfo.scopes.length then
    .error "SourceMapJson.sources.length must match ScopesInfo.scopes!"
  else do
    let (encoded, finalNames) ← encoderEncode scopesInfo (map.names.getD [])
    .ok { map with names := some finalNames, scopes := some encoded }

/-! ### Names interning: the encoder only appends (C7) -/

/-- Invariant tying a `names` array and the `namesToIndex` map during an
encoder run that started from `names0`: the array only grows at the tail
with fresh strings, every present string is interned, and the map is
exact. -/
def EncNamesInvP (names0 names : List String) (m : List (String × Nat)) : Prop :=
  (∃ app, names = names0 ++ app ∧ app.Nodup ∧ ∀ s ∈ app, s ∉ names0) ∧
  (∀ s, s ∈ names → mapGet m s ≠ none) ∧
  (∀ s i, mapGet m s = some i → names.get? i = some s)

/-- The invariant, read off an encoder state. -/
def EncNamesInv (names0 : List String) (st : EncoderState) : Prop :=
  EncNamesInvP names0 st.names st.namesToIndex

theorem resolveNamesIdx_names_inv {names0 : List String} {st : EncoderState}
    (hinv : EncNamesInvP names0 st.names st.namesToIndex) (nm : String) :
    EncNamesInvP names0 (resolveNamesIdx st nm).1.names (resolveNamesIdx st nm).1.namesToIndex ∧
      st.names <+: (resolveNamesIdx st nm).1.names ∧
      (resolveNamesIdx st nm).1.names.get? (resolveNamesIdx st nm).2 = some nm := by
  obtain ⟨⟨app, happ, hnd, hfresh⟩, hcomplete, hexact⟩ := hinv
  unfold resolveNamesIdx
  cases hm : mapGet st.namesToIndex nm with
  | some index =>
    dsimp only
    exact ⟨⟨⟨app, happ, hnd, hfresh⟩, hcomplete, hexact⟩, List.prefix_refl _, hexact nm index hm⟩
  | none =>
    dsimp only
    have hnotmem : nm ∉ st.names := fun hmem => hcomplete nm hmem hm
    refine ⟨⟨⟨app ++ [nm], by rw [happ, List.append_assoc], ?_, ?_⟩, ?_, ?_⟩, ⟨[nm], rfl⟩, ?_⟩
    · refine List.Nodup.append hnd (List.nodup_singleton nm) ?_
      intro x hx hx2
      simp only [List.mem_singleton] at hx2
      subst hx2
      exact hnotmem (happ ▸ List.mem_append_right names0 hx)
    · intro s hs
      rcases List.mem_append.1 hs with hs | hs
      · exact hfresh s hs
      · simp only [List.mem_singleton] at hs
        subst hs
        exact fun hc => hnotmem (happ ▸ List.mem_append_left app hc)
    · intro s hs
      rcases List.mem_append.1 hs with hs | hs
      · have := hcomplete s hs
        unfold mapGet at this ⊢
        by_cases hsnm : (nm == s) = true
        · rw [List.find?_cons_of_pos _ (by exact hsnm)]
          simp
        · rw [List.find?_cons_of_neg _ (by simpa using hsnm)]
          exact this
      · simp only [List.mem_singleton] at hs
        subst hs
        unfold mapGet
        rw [List.find?_cons_of_pos _ (by simp)]
        simp
    · intro s i h
      unfold mapGet at h
      by_cases hsnm : (nm == s) = true
      · rw [List.find?_cons_of_pos _ (by exact hsnm)] at h
        simp only [Option.map_some', Option.some.injEq] at h
        have hseq : nm = s := by simpa using hsnm
        subst hseq
        rw [← h]
        rw [List.get?_eq_getElem?, List.getElem?_append_right (Nat.le_refl _)]
        simp
      · rw [List.find?_cons_of_neg _ (by simpa using hsnm)] at h
        have := hexact s i h
        have hlt : i < st.names.length := (List.get?_eq_some.1 this).1
        rw [List.get?_eq_getElem?, List.getElem?_append_left hlt, ← List.get?_eq_getElem?]
        exact this
    · rw [List.get?_eq_getElem?, List.getElem?_append_right (Nat.le_refl _)]
      simp

theorem foldl_cons_rev {α β : Type} (g : α → β) :
    ∀ (l : List α) (acc : List β),
      l.foldl (fun m p => g p :: m) acc = (l.map g).reverse ++ acc := by
  intro l
  induction l with
  | nil => intro acc; rfl
  | cons x xs ih =>
    intro acc
    rw [List.foldl_cons, ih, List.map_cons, List.reverse_cons, List.append_assoc]
    rfl

/-- The invariant holds for the map the `Encoder` constructor builds. -/
theorem encNamesInvP_init (names0 : List String) :
    EncNamesInvP names0 names0 (names0.enum.foldl (fun m p => (p.2, p.1) :: m) []) := by
  have hmap : names0.enum.foldl (fun m p => (p.2, p.1) :: m) [] =
      (names0.enum.map (fun p => (p.2, p.1))).reverse ++ [] :=
    foldl_cons_rev _ names0.enum []
  refine ⟨⟨[], by simp, List.nodup_nil, by simp⟩, ?_, ?_⟩
  · intro s hs
    unfold mapGet
    rw [Option.ne_none_iff_isSome, Option.isSome_map']
    rw [Option.isSome_iff_ne_none, Ne, List.find?_eq_none]
    push_neg
    obtain ⟨i, hi, hget⟩ := List.mem_iff_getElem.1 hs
    refine ⟨(s, i), ?_, by simp⟩
    rw [hmap]
    simp only [List.append_nil, List.mem_reverse, List.mem_map]
    refine ⟨(i, s), ?_, rfl⟩
    rw [List.mem_enum_iff_getElem?]
    simp only [List.getElem?_eq_getElem hi, hget]
  · intro s i h
    unfold mapGet at h
    cases hf : (names0.enum.foldl (fun m p => (p.2, p.1) :: m) []).find? (fun p => p.1 == s) with
    | none => rw [hf] at h; exact absurd h (by simp)
    | some q =>
      rw [hf] at h
      simp only [Option.map_some', Option.some.injEq] at h
      have hqmem := List.mem_of_find?_eq_some hf
      have hqpred := List.find?_some hf
      rw [hmap] at hqmem
      simp only [List.append_nil, List.mem_reverse, List.mem_map] at hqmem
      obtain ⟨⟨j, t⟩, hjt, hq⟩ := hqmem
      rw [List.mem_enum_iff_getElem?] at hjt
      subst hq
      dsimp only at hqpred h
      have hts : t = s := by simpa using hqpred
      subst hts
      subst h
      rw [List.get?_eq_getElem?]
      exact hjt

/-- Conclusion of the per-operation interning lemmas: the invariant is kept
and `names` only grows at the tail. -/
def NamesExtending (names0 : List String) (st st' : EncoderState) : Prop :=
  EncNamesInvP names0 st'.names st'.namesToIndex ∧ st.names <+: st'.names

theorem namesExtending_trans {names0 : List String} {s1 s2 s3 : EncoderState}
    (h1 : NamesExtending names0 s1 s2) (h2 : NamesExtending names0 s2 s3) :
    NamesExtending names0 s1 s3 :=
  ⟨h2.1, h1.2.trans h2.2⟩

theorem resolveNamesIdx_extending {names0 : List String} {st : EncoderState}
    (hinv : EncNamesInvP names0 st.names st.namesToIndex) (nm : String) :
    NamesExtending names0 st (resolveNamesIdx st nm).1 :=
  ⟨(resolveNamesIdx_names_inv hinv nm).1, (resolveNamesIdx_names_inv hinv nm).2.1⟩

theorem encodeOriginalScopeStart_names {names0 : List String}
    {st st' : EncoderState} {scope : OrigScope}
    (h : encodeOriginalScopeStart st scope = .ok st')
    (hinv : EncNamesInv names0 st) : NamesExtending names0 st st' := by
  unfold encodeOriginalScopeStart at h
  simp only [exceptBind_ok] at h
  obtain ⟨u, hv, h⟩ := h
  have hinvA : EncNamesInvP names0 st.names st.namesToIndex := hinv
  set stA : EncoderState := { st with scopeState :=
    { st.scopeState with line := scope.start.line, column := scope.start.column } } with hstA
  cases hn : scope.name with
  | none =>
    cases hk : scope.kind with
    | none =>
      rw [hn, hk] at h
      dsimp only [pushItem] at h
      simp only [Except.ok.injEq] at h
      subst h
      exact ⟨hinvA, List.prefix_refl _⟩
    | some kd =>
      rw [hn, hk] at h
      dsimp only [pushItem] at h
      simp only [Except.ok.injEq] at h
      subst h
      exact @resolveNamesIdx_extending names0 stA hinvA kd
  | some nm =>
    have h1 := @resolveNamesIdx_names_inv names0 stA hinvA nm
    set stB : EncoderState := { (resolveNamesIdx stA nm).1 with scopeState :=
      { (resolveNamesIdx stA nm).1.scopeState with name := (resolveNamesIdx stA nm).2 } } with hstB
    cases hk : scope.kind with
    | none =>
      rw [hn, hk] at h
      dsimp only [pushItem] at h
      simp only [Except.ok.injEq] at h
      subst h
      exact ⟨h1.1, h1.2.1⟩
    | some kd =>
      rw [hn, hk] at h
      dsimp only [pushItem] at h
      simp only [Except.ok.injEq] at h
      subst h
      have h2 := @resolveNamesIdx_names_inv names0 stB h1.1 kd
      exact ⟨h2.1, h1.2.1.trans h2.2.1⟩

theorem encodeVarsFold_names {names0 : List String} :
    ∀ (l : List String) (st : EncoderState) (item : List Nat),
      EncNamesInvP names0 st.names st.namesToIndex →
      NamesExtending names0 st
        (l.foldl (fun (acc : EncoderState × List Nat) variable_ =>
          let (st, item) := acc
          let (st, idx) := resolveNamesIdx st variable_
          let delta : Int := (idx : Int) - (st.scopeState.variable_ : Int)
          ({ st with scopeState := { st.scopeState with variable_ := idx } },
           item ++ encodeSigned delta)) (st, item)).1 := by
  intro l
  induction l with
  | nil =>
    intro st item h
    exact ⟨h, List.prefix_refl _⟩
  | cons v vs ih =>
    intro st item h
    rw [List.foldl_cons]
    dsimp only
    have h1 := @resolveNamesIdx_names_inv names0 st h v
    set stC : EncoderState := { (resolveNamesIdx st v).1 with scopeState :=
      { (resolveNamesIdx st v).1.scopeState with variable_ := (resolveNamesIdx st v).2 } } with hstC
    have h2 := ih stC (item ++ encodeSigned (((resolveNamesIdx st v).2 : Int) -
      ((resolveNamesIdx st v).1.scopeState.variable_ : Int))) h1.1
    exact ⟨h2.1, h1.2.1.trans h2.2⟩

theorem encodeOriginalScopeVariables_names {names0 : List String}
    {st st' : EncoderState} {scope : OrigScope}
    (h : encodeOriginalScopeVariables st scope = .ok st')
    (hinv : EncNamesInv names0 st) : NamesExtending names0 st st' := by
  unfold encodeOriginalScopeVariables at h
  split at h
  · simp only [Except.ok.injEq] at h
    subst h
    exact ⟨hinv, List.prefix_refl _⟩
  · dsimp only [pushItem] at h
    simp only [Except.ok.injEq] at h
    subst h
    have := encodeVarsFold_names scope.variables_ st [EncodedTag.ORIGINAL_SCOPE_VARIABLES] hinv
    exact ⟨this.1, this.2⟩

theorem encodeOriginalScopeEnd_names {names0 : List String}
    {st st' : EncoderState} {scope : OrigScope}
    (h : encodeOriginalScopeEnd st scope = .ok st')
    (hinv : EncNamesInv names0 st) : NamesExtending names0 st st' := by
  unfold encodeOriginalScopeEnd at h
  simp only [exceptBind_ok] at h
  obtain ⟨u, hv, h⟩ := h
  dsimp only [pushItem] at h
  simp only [Except.ok.injEq] at h
  subst h
  exact ⟨hinv, List.prefix_refl _⟩

mutual
theorem encodeOriginalScopeTree_names {names0 : List String} :
    ∀ (scope : OrigScope) {st st' : EncoderState},
      encodeOriginalScopeTree st scope = .ok st' → EncNamesInv names0 st →
      NamesExtending names0 st st'
  | .mk s e n k f v c, st, st' => fun h hinv => by
    unfold encodeOriginalScopeTree at h
    simp only [exceptBind_ok] at h
    obtain ⟨st1, h1, h⟩ := h
    obtain ⟨st2, h2, h⟩ := h
    obtain ⟨st3, h3, h⟩ := h
    have e1 := encodeOriginalScopeStart_names h1 hinv
    have e2 := encodeOriginalScopeVariables_names h2 e1.1
    have e3 := encodeOriginalScopeChildren_names c h3 e2.1
    have e4 := encodeOriginalScopeEnd_names h e3.1
    exact namesExtending_trans (namesExtending_trans (namesExtending_trans e1 e2) e3) e4

theorem encodeOriginalScopeChildren_names {names0 : List String} :
    ∀ (l : List OrigScope) {st st' : EncoderState},
      encodeOriginalScopeChildren st l = .ok st' → EncNamesInv names0 st →
      NamesExtending names0 st st'
  | [], st, st' => fun h hinv => by
    unfold encodeOriginalScopeChildren at h
    simp only [Except.ok.injEq] at h
    subst h
    exact ⟨hinv, List.prefix_refl _⟩
  | child :: rest, st, st' => fun h hinv => by
    unfold encodeOriginalScopeChildren at h
    simp only [exceptBind_ok] at h
    obtain ⟨st1, h1, h⟩ := h
    have e1 := encodeOriginalScopeTree_names child h1 hinv
    have e2 := encodeOriginalScopeChildren_names rest h e1.1
    exact namesExtending_trans e1 e2
end

theorem encodeOriginalScope_names {names0 : List String}
    {st st' : EncoderState} {scope : Option OrigScope}
    (h : encodeOriginalScope st scope = .ok st')
    (hinv : EncNamesInv names0 st) : NamesExtending names0 st st' := by
  cases scope with
  | none =>
    unfold encodeOriginalScope at h
    dsimp only [pushItem] at h
    simp only [Except.ok.injEq] at h
    subst h
    exact ⟨hinv, List.prefix_refl _⟩
  | some t => exact encodeOriginalScopeTree_names t h hinv

theorem encodeGeneratedRangeStart_names {names0 : List String}
    {st st' : EncoderState} {range : GenRange}
    (h : encodeGeneratedRangeStart st range = .ok st')
    (hinv : EncNamesInv names0 st) : NamesExtending names0 st st' := by
  unfold encodeGeneratedRangeStart at h
  simp only [exceptBind_ok] at h
  obtain ⟨u, hv, h⟩ := h
  cases ho : range.originalScope with
  | none =>
    rw [ho] at h
    simp only [pure, Except.pure, bind, Except.bind, pushItem, Except.ok.injEq] at h
    subst h
    exact ⟨hinv, List.prefix_refl _⟩
  | some r =>
    rw [ho] at h
    dsimp only at h
    split at h
    · simp only [pure, Except.pure, bind, Except.bind, pushItem, Except.ok.injEq] at h
      subst h
      exact ⟨hinv, List.prefix_refl _⟩
    · simp only [bind, Except.bind] at h
      exact absurd h (by simp)

theorem encodeBindingsFold_names {names0 : List String} :
    ∀ (l : List BindVal) (flatScopes : List OrigScope) (st : EncoderState) (item : List Nat)
      (res : EncoderState × List Nat),
      EncNamesInvP names0 st.names st.namesToIndex →
      (l.foldlM (fun (acc : EncoderState × List Nat) val => do
          let (st, item) := acc
          match val with
          | BindVal.nullv => pure (st, item ++ encodeSigned (-1))
          | BindVal.undef => pure (st, item ++ encodeSigned (-1))
          | BindVal.str s =>
              let (st, idx) := resolveNamesIdx st s
              pure (st, item ++ encodeSigned (idx : Int))
          | BindVal.subs _ => .error "Sub-range bindings not implemented yet!")
        (st, item) : Except String (EncoderState × List Nat)) = .ok res →
      NamesExtending names0 st res.1 := by
  intro l
  induction l with
  | nil =>
    intro flatScopes st item res hinv h
    simp only [List.foldlM_nil, pure, Except.pure, Except.ok.injEq] at h
    subst h
    exact ⟨hinv, List.prefix_refl _⟩
  | cons val vs ih =>
    intro flatScopes st item res hinv h
    rw [List.foldlM_cons] at h
    simp only [exceptBind_ok] at h
    obtain ⟨⟨st1, item1⟩, h1, h⟩ := h
    cases val with
    | nullv =>
      dsimp only at h1
      simp only [pure, Except.pure, Except.ok.injEq, Prod.mk.injEq] at h1
      obtain ⟨hs, hi⟩ := h1
      subst hs
      exact ih flatScopes st item1 res hinv h
    | undef =>
      dsimp only at h1
      simp only [pure, Except.pure, Except.ok.injEq, Prod.mk.injEq] at h1
      obtain ⟨hs, hi⟩ := h1
      subst hs
      exact ih flatScopes st item1 res hinv h
    | str s =>
      dsimp only at h1
      simp only [pure, Except.pure, Except.ok.injEq, Prod.mk.injEq] at h1
      have hr := @resolveNamesIdx_names_inv names0 st hinv s
      obtain ⟨hs, hi⟩ := h1
      have h2 := ih flatScopes (resolveNamesIdx st s).1 item1 res (hs ▸ hr.1) (hs ▸ h)
      exact ⟨h2.1, hr.2.1.trans (hs ▸ h2.2)⟩
    | subs l2 =>
      dsimp only at h1
      exact absurd h1 (by simp)

theorem encodeGeneratedRangeBindings_names {names0 : List String}
    {flatScopes : List OrigScope} {st st' : EncoderState} {range : GenRange}
    (h : encodeGeneratedRangeBindings flatScopes st range = .ok st')
    (hinv : EncNamesInv names0 st) : NamesExtending names0 st st' := by
  unfold encodeGeneratedRangeBindings at h
  split at h
  · simp only [Except.ok.injEq] at h
    subst h
    exact ⟨hinv, List.prefix_refl _⟩
  · cases ho : range.originalScope with
    | none =>
      rw [ho] at h
      exact absurd h (by simp)
    | some r =>
      rw [ho] at h
      dsimp only at h
      split at h
      · exact absurd h (by simp)
      · simp only [exceptBind_ok] at h
        obtain ⟨⟨st1, item1⟩, h1, h⟩ := h
        dsimp only [pushItem] at h
        simp only [Except.ok.injEq] at h
        subst h
        have := encodeBindingsFold_names range.values flatScopes st
          [EncodedTag.GENERATED_RANGE_BINDINGS] (st1, item1) hinv h1
        exact ⟨this.1, this.2⟩

theorem encodeGeneratedRangeCallSite_names {names0 : List String}
    {st st' : EncoderState} {range : GenRange}
    (h : encodeGeneratedRangeCallSite st range = .ok st')
    (hinv : EncNamesInv names0 st) : NamesExtending names0 st st' := by
  unfold encodeGeneratedRangeCallSite at h
  cases hcs : range.callSite with
  | none =>
    rw [hcs] at h
    simp only [Except.ok.injEq] at h
    subst h
    exact ⟨hinv, List.prefix_refl _⟩
  | some cs =>
    rw [hcs] at h
    dsimp only [pushItem] at h
    simp only [Except.ok.injEq] at h
    subst h
    exact ⟨hinv, List.prefix_refl _⟩

theorem encodeGeneratedRangeEnd_names {names0 : List String}
    {st st' : EncoderState} {range : GenRange}
    (h : encodeGeneratedRangeEnd st range = .ok st')
    (hinv : EncNamesInv names0 st) : NamesExtending names0 st st' := by
  unfold encodeGeneratedRangeEnd at h
  simp only [exceptBind_ok] at h
  obtain ⟨u, hv, h⟩ := h
  dsimp only [pushItem] at h
  simp only [Except.ok.injEq] at h
  subst h
  exact ⟨hinv, List.prefix_refl _⟩

mutual
theorem encodeGeneratedRangeTree_names {names0 : List String} :
    ∀ (range : GenRange) (flatScopes : List OrigScope) {st st' : EncoderState},
      encodeGeneratedRangeTree flatScopes st range = .ok st' → EncNamesInv names0 st →
      NamesExtending names0 st st'
  | .mk s e o f hd cs v c, flatScopes, st, st' => fun h hinv => by
    unfold encodeGeneratedRangeTree at h
    simp only [exceptBind_ok] at h
    obtain ⟨st1, h1, h⟩ := h
    obtain ⟨st2, h2, h⟩ := h
    obtain ⟨st3, h3, h⟩ := h
    obtain ⟨st4, h4, h⟩ := h
    have e1 := encodeGeneratedRangeStart_names h1 hinv
    have e2 := encodeGeneratedRangeBindings_names h2 e1.1
    have e3 := encodeGeneratedRangeCallSite_names h3 e2.1
    have e4 := encodeGeneratedRangeChildren_names c flatScopes h4 e3.1
    have e5 := encodeGeneratedRangeEnd_names h e4.1
    exact namesExtending_trans (namesExtending_trans
      (namesExtending_trans (namesExtending_trans e1 e2) e3) e4) e5

theorem encodeGeneratedRangeChildren_names {names0 : List String} :
    ∀ (l : List GenRange) (flatScopes : List OrigScope) {st st' : EncoderState},
      encodeGeneratedRangeChildren flatScopes st l = .ok st' → EncNamesInv names0 st →
      NamesExtending names0 st st'
  | [], flatScopes, st, st' => fun h hinv => by
    unfold encodeGeneratedRangeChildren at h
    simp only [Except.ok.injEq] at h
    subst h
    exact ⟨hinv, List.prefix_refl _⟩
  | child :: rest, flatScopes, st, st' => fun h hinv => by
    unfold encodeGeneratedRangeChildren at h
    simp only [exceptBind_ok] at h
    obtain ⟨st1, h1, h⟩ := h
    have e1 := encodeGeneratedRangeTree_names child flatScopes h1 hinv
    have e2 := encodeGeneratedRangeChildren_names rest flatScopes h e1.1
    exact namesExtending_trans e1 e2
end

theorem encodeScopesFold_names {names0 : List String} :
    ∀ (l : List (Option OrigScope)) (st st' : EncoderState),
      EncNamesInv names0 st →
      (l.foldlM (fun st scope =>
          encodeOriginalScope { st with scopeState := E_DEFAULT_SCOPE_STATE } scope) st
        = .ok st') →
      NamesExtending names0 st st' := by
  intro l
  induction l with
  | nil =>
    intro st st' hinv h
    simp only [List.foldlM_nil, pure, Except.pure, Except.ok.injEq] at h
    subst h
    exact ⟨hinv, List.prefix_refl _⟩
  | cons scope rest ih =>
    intro st st' hinv h
    rw [List.foldlM_cons] at h
    simp only [exceptBind_ok] at h
    obtain ⟨st1, h1, h⟩ := h
    have e1' : NamesExtending names0 { st with scopeState := E_DEFAULT_SCOPE_STATE } st1 :=
      encodeOriginalScope_names h1 hinv
    have e1 : NamesExtending names0 st st1 := ⟨e1'.1, e1'.2⟩
    exact namesExtending_trans e1 (ih st1 st' e1.1 h)

theorem encodeRangesFold_names {names0 : List String} :
    ∀ (l : List GenRange) (flatScopes : List OrigScope) (st st' : EncoderState),
      EncNamesInv names0 st →
      (l.foldlM (fun st range =>
          encodeGeneratedRangeTree flatScopes
            { st with rangeState := E_DEFAULT_RANGE_STATE } range) st
        = .ok st') →
      NamesExtending names0 st st' := by
  intro l
  induction l with
  | nil =>
    intro flatScopes st st' hinv h
    simp only [List.foldlM_nil, pure, Except.pure, Except.ok.injEq] at h
    subst h
    exact ⟨hinv, List.prefix_refl _⟩
  | cons range rest ih =>
    intro flatScopes st st' hinv h
    rw [List.foldlM_cons] at h
    simp only [exceptBind_ok] at h
    obtain ⟨st1, h1, h⟩ := h
    have e1' : NamesExtending names0 { st with rangeState := E_DEFAULT_RANGE_STATE } st1 :=
      encodeGeneratedRangeTree_names range flatScopes h1 hinv
    have e1 : NamesExtending names0 st st1 := ⟨e1'.1, e1'.2⟩
    exact namesExtending_trans e1 (ih flatScopes st1 st' e1.1 h)

theorem encoderEncode_names {names : List String} {info : ScopeInfo}
    {res : List Nat × List String}
    (h : encoderEncode info names = .ok res) :
    ∃ app, res.2 = names ++ app ∧ app.Nodup ∧ ∀ s ∈ app, s ∉ names := by
  unfold encoderEncode at h
  simp only [exceptBind_ok] at h
  obtain ⟨st1, h1, h⟩ := h
  obtain ⟨st2, h2, h⟩ := h
  simp only [Except.ok.injEq] at h
  have hinit : EncNamesInv names
      { names := names
        namesToIndex := names.enum.foldl (fun m p => (p.2, p.1) :: m) []
        scopeState := E_DEFAULT_SCOPE_STATE
        rangeState := E_DEFAULT_RANGE_STATE
        encodedItems := []
        scopeCounter := 0 } := encNamesInvP_init names
  have e1 := encodeScopesFold_names info.scopes _ st1 hinit h1
  have e2 := encodeRangesFold_names info.ranges (preorderForest info.scopes) st1 st2 e1.1 h2
  obtain ⟨app, happ, hnd, hfresh⟩ := e2.1.1
  refine ⟨app, ?_, hnd, hfresh⟩
  rw [← h]
  exact happ

/-- **C7**: a successful `encode(info, inputMap)` returns the input map with
`version`, `sources` and `mappings` unchanged, `scopes` set to the encoded
string, and `names` changed only by appending strings not already present,
so every pre-existing entry of `names` keeps its value and index. -/
theorem encode_frame_c7 (info : ScopeInfo) (m m' : SourceMapJson)
    (h : encode info (some m) = .ok m') :
    m'.version = m.version ∧ m'.sources = m.sources ∧ m'.mappings = m.mappings ∧
    (∃ enc, m'.scopes = some enc) ∧
    ∃ app, m'.names = some (m.names.getD [] ++ app) ∧ app.Nodup ∧
      ∀ s ∈ app, s ∉ m.names.getD [] := by
  unfold encode at h
  dsimp only at h
  split at h
  · exact absurd h (by simp)
  · simp only [exceptBind_ok] at h
    obtain ⟨⟨encoded, finalNames⟩, h1, h⟩ := h
    simp only [Except.ok.injEq] at h
    subst h
    obtain ⟨app, happ, hnd, hfresh⟩ := encoderEncode_names h1
    dsimp only at happ
    simp only [Option.getD_some] at happ hfresh
    exact ⟨rfl, rfl, rfl, ⟨encoded, rfl⟩, app, by rw [happ], hnd, hfresh⟩

/-- Witness for C7: a map whose `names` already contains `bar` and `x`;
the scope name `foo` is appended while the interned variable `x` keeps
index 1. -/
theorem encode_frame_c7_witness :
    let info : ScopeInfo :=
      { scopes := [some (OrigScope.mk ⟨0,0⟩ ⟨1,0⟩ (some "foo") none false ["x"] [])]
        ranges := [] }
    let m : SourceMapJson :=
      { version := 3, sources := [none], mappings := "m",
        names := some ["bar", "x"], scopes := none }
    let m' : SourceMapJson :=
      { version := 3, sources := [none], mappings := "m",
        names := some ["bar", "x", "foo"],
        scopes := some [66, 66, 65, 65, 69, 44, 68, 67, 44, 67, 66, 65] }
    m'.version = m.version ∧ m'.sources = m.sources ∧ m'.mappings = m.mappings ∧
    (∃ enc, m'.scopes = some enc) ∧
    ∃ app, m'.names = some (m.names.getD [] ++ app) ∧ app.Nodup ∧
      ∀ s ∈ app, s ∉ m.names.getD [] :=
  encode_frame_c7
    { scopes := [some (OrigScope.mk ⟨0,0⟩ ⟨1,0⟩ (some "foo") none false ["x"] [])]
      ranges := [] } _ _ (by with_unfolding_all rfl)

/-- **C6 counterexample**: `encode` does not throw *exactly* when the
`sources` length differs: here `inputMap.sources.length` (1) matches
`info.scopes.length` (1), yet `encode` still throws, because the single
scope starts after it ends and the encoder rejects unsorted positions. -/
theorem encode_c6_counterexample :
    encode { scopes := [some (OrigScope.mk ⟨0,1⟩ ⟨0,0⟩ none none false [] [])], ranges := [] }
      (some { version := 3, sources := [none], mappings := "", names := none, scopes := none }) =
    .error "Attempting to encode scope item that precedes the last encoded scope item" := rfl

/-- **C6** (amended): `encode(info, inputMap)` throws the length-mismatch
error when `inputMap.sources.length ≠ info.scopes.length`; with matching
lengths it returns the input map with `names`/`scopes` rewritten exactly
when the `Encoder` succeeds (and propagates the encoder error otherwise);
with `inputMap` omitted it behaves like the encoder on an empty `names`
array, wrapping a successful result in the synthesized map with `version`
3, empty `mappings` and `info.scopes.length` null `sources`. -/
theorem encode_behavior_c6 (info : ScopeInfo) (m : SourceMapJson) :
    (m.sources.length ≠ info.scopes.length →
      encode info (some m) =
        .error "SourceMapJson.sources.length must match ScopesInfo.scopes!") ∧
    (m.sources.length = info.scopes.length →
      encode info (some m) = (encoderEncode info (m.names.getD [])).map
        (fun p => { version := m.version, sources := m.sources, mappings := m.mappings,
                    names := some p.2, scopes := some p.1 })) ∧
    encode info none = (encoderEncode info []).map
      (fun p => { version := 3, sources := List.replicate info.scopes.length none,
                  mappings := "", names := some p.2, scopes := some p.1 }) := by
  refine ⟨?_, ?_, ?_⟩
  · intro h
    unfold encode
    dsimp only
    rw [if_pos h]
  · intro h
    unfold encode
    dsimp only
    rw [if_neg (by simpa using h)]
    simp only [Option.getD_some]
    cases he : encoderEncode info (m.names.getD []) with
    | ok p => rfl
    | error e => rfl
  · unfold encode
    dsimp only
    rw [if_neg (by simp)]
    simp only [Option.getD_some, Option.getD_none]
    cases he : encoderEncode info [] with
    | ok p => rfl
    | error e => rfl

/-- Witness for C6: both implications fired at concrete inputs — a map with
one `sources` entry against an empty `ScopeInfo` throws the mismatch error,
and with matching (empty) lengths `encode` returns the rewritten map. -/
theorem encode_behavior_c6_witness :
    encode { scopes := [], ranges := [] }
      (some { version := 7, sources := [none], mappings := "x", names := none, scopes := none }) =
      .error "SourceMapJson.sources.length must match ScopesInfo.scopes!" ∧
    encode { scopes := [], ranges := [] }
      (some { version := 7, sources := [], mappings := "x", names := some ["n"], scopes := none }) =
      (encoderEncode { scopes := [], ranges := [] } ["n"]).map
        (fun p => { version := 7, sources := [], mappings := "x",
                    names := some p.2, scopes := some p.1 }) ∧
    encode { scopes := [], ranges := [] } none =
      (encoderEncode { scopes := [], ranges := [] } []).map
        (fun p => { version := 3, sources := List.replicate 0 none,
                    mappings := "", names := some p.2, scopes := some p.1 }) :=
  ⟨(encode_behavior_c6 { scopes := [], ranges := [] }
      { version := 7, sources := [none], mappings := "x", names := none, scopes := none }).1
      (by decide),
   (encode_behavior_c6 { scopes := [], ranges := [] }
      { version := 7, sources := [], mappings := "x", names := some ["n"], scopes := none }).2.1
      rfl,
   (encode_behavior_c6 { scopes := [], ranges := [] }
      { version := 7, sources := [], mappings := "x", names := some ["n"], scopes := none }).2.2⟩

/-! ### The scope builder: `builder.ts` / `safe_builder.ts` (C8, C1) -/

/-- Modelled from the spec: `comparePositions` from `util.ts` (the file is
not present in the source tree) compares positions lexicographically, line
first, returning a negative, zero or positive number. -/
def comparePositions (a b : Pos) : Int :=
  if a.line < b.line then -1
  else if b.line < a.line then 1
  else (a.column : Int) - (b.column : Int)

/-- Rebuild a scope with a new end position (`scope.end = {line, column}`). -/
def OrigScope.setEnd : OrigScope → Pos → OrigScope
  | .mk s _ n k f v c, e => .mk s e n k f v c

def OrigScope.setName : OrigScope → String → OrigScope
  | .mk s e _ k f v c, n => .mk s e (some n) k f v c

def OrigScope.setKind : OrigScope → String → OrigScope
  | .mk s e n _ f v c, k => .mk s e n (some k) f v c

def OrigScope.setStackFrame : OrigScope → Bool → OrigScope
  | .mk s e n k _ v c, f => .mk s e n k f v c

def OrigScope.setVariables : OrigScope → List String → OrigScope
  | .mk s e n k f _ c, v => .mk s e n k f v c

/-- `parent.children.push(child)`. -/
def OrigScope.addChild : OrigScope → OrigScope → OrigScope
  | .mk s e n k f v c, child => .mk s e n k f v (c ++ [child])

def GenRange.setEnd : GenRange → Pos → GenRange
  | .mk s _ o f h cs v c, e => .mk s e o f h cs v c

def GenRange.setDefScope : GenRange → Option Nat → GenRange
  | .mk s e _ f h cs v c, o => .mk s e o f h cs v c

def GenRange.setStackFrame : GenRange → Bool → GenRange
  | .mk s e o _ h cs v c, f => .mk s e o f h cs v c

def GenRange.setHidden : GenRange → Bool → GenRange
  | .mk s e o f _ cs v c, h => .mk s e o f h cs v c

def GenRange.addChild : GenRange → GenRange → GenRange
  | .mk s e o f h cs v c, child => .mk s e o f h cs v (c ++ [child])

/-- The mutable fields of `ScopeInfoBuilder`.  The two stacks keep their
top at the head of the list (the JavaScript arrays push and pop at the
tail); open scopes and ranges are held as node values whose `children`
accumulate as the builder closes their children, and the chronological
scope numbering of `#scopeToCount`/`#countToScope` is represented by
`scopeCounter`, a number `n` being a valid reference iff `n <
scopeCounter`.  `build()` resets `scopes`, `ranges` and the counter but
leaves the stacks and `lastScope` alone, exactly like the source. -/
structure BuilderState where
  scopes : List (Option OrigScope)
  ranges : List GenRange
  scopeStack : List OrigScope
  rangeStack : List GenRange
  scopeCounter : Nat
  lastScope : Option OrigScope
deriving Repr

def initBuilder : BuilderState :=
  { scopes := [], ranges := [], scopeStack := [], rangeStack := [],
    scopeCounter := 0, lastScope := none }

/-- One call of the builder API.  `startRange`/`setRangeDefinitionScope`
take the definition scope as its chronological number (the
`OriginalScope`-object overload resolves to the same reference). -/
inductive BOp where
  | addNullScope
  | startScope (line column : Nat) (name kind : Option String)
      (isStackFrame : Bool) (variables_ : List String)
  | setScopeName (name : String)
  | setScopeKind (kind : String)
  | setScopeStackFrame (b : Bool)
  | setScopeVariables (v : List String)
  | endScope (line column : Nat)
  | startRange (line column : Nat) (scope : Option Nat) (isStackFrame isHidden : Bool)
  | setRangeDefinitionScope (scope : Nat)
  | setRangeStackFrame (b : Bool)
  | setRangeHidden (b : Bool)
  | endRange (line column : Nat)
  | build
deriving Repr

/-- One step of the permissive `ScopeInfoBuilder`: never throws, `end*`
and `set*` calls without a matching open node are silent no-ops. -/
def permStep (st : BuilderState) : BOp → BuilderState
  | .addNullScope => { st with scopes := st.scopes ++ [none] }
  | .startScope l c n k f v =>
      { st with
        scopeStack := OrigScope.mk ⟨l, c⟩ ⟨l, c⟩ n k f v [] :: st.scopeStack,
        scopeCounter := st.scopeCounter + 1 }
  | .setScopeName n =>
      match st.scopeStack with
      | [] => st
      | top :: rest => { st with scopeStack := top.setName n :: rest }
  | .setScopeKind k =>
      match st.scopeStack with
      | [] => st
      | top :: rest => { st with scopeStack := top.setKind k :: rest }
  | .setScopeStackFrame b =>
      match st.scopeStack with
      | [] => st
      | top :: rest => { st with scopeStack := top.setStackFrame b :: rest }
  | .setScopeVariables v =>
      match st.scopeStack with
      | [] => st
      | top :: rest => { st with scopeStack := top.setVariables v :: rest }
  | .endScope l c =>
      match st.scopeStack with
      | [] => st
      | top :: rest =>
          let scope := top.setEnd ⟨l, c⟩
          match rest with
          | [] => { st with scopeStack := [],
                            scopes := st.scopes ++ [some scope],
                            lastScope := some scope }
          | parent :: rest2 =>
              { st with scopeStack := parent.addChild scope :: rest2,
                        lastScope := some scope }
  | .startRange l c sc f h =>
      let defScope := match sc with
        | some n => if n < st.scopeCounter then some n else none
        | none => none
      { st with rangeStack :=
          GenRange.mk ⟨l, c⟩ ⟨l, c⟩ defScope f h none [] [] :: st.rangeStack }
  | .setRangeDefinitionScope n =>
      match st.rangeStack with
      | [] => st
      | top :: rest =>
          { st with rangeStack :=
              top.setDefScope (if n < st.scopeCounter then some n else none) :: rest }
  | .setRangeStackFrame b =>
      match st.rangeStack with
      | [] => st
      | top :: rest => { st with rangeStack := top.setStackFrame b :: rest }
  | .setRangeHidden b =>
      match st.rangeStack with
      | [] => st
      | top :: rest => { st with rangeStack := top.setHidden b :: rest }
  | .endRange l c =>
      match st.rangeStack with
      | [] => st
      | top :: rest =>
          let range := top.setEnd ⟨l, c⟩
          match rest with
          | [] => { st with rangeStack := [], ranges := st.ranges ++ [range] }
          | parent :: rest2 =>
              { st with rangeStack := parent.addChild range :: rest2 }
  | .build => { st with scopes := [], ranges := [], scopeCounter := 0 }

/-- The `ScopeInfo` that `build()` returns (read off before the reset). -/
def buildInfo (st : BuilderState) : ScopeInfo :=
  { scopes := st.scopes, ranges := st.ranges }

def verifyEmptyScopeStack (st : BuilderState) (op : String) : Except String Unit :=
  if st.scopeStack.length > 0 then
    .error ("Cant " ++ op ++ " while a OriginalScope is unclosed.")
  else .ok ()

def verifyEmptyRangeStack (st : BuilderState) (op : String) : Except String Unit :=
  if st.rangeStack.length > 0 then
    .error ("Cant " ++ op ++ " while a GeneratedRange is unclosed.")
  else .ok ()

def verifyScopePresent (st : BuilderState) (op : String) : Except String Unit :=
  if st.scopeStack.length = 0 then
    .error ("Cant " ++ op ++ " while no OriginalScope is on the stack.")
  else .ok ()

def verifyRangePresent (st : BuilderState) (op : String) : Except String Unit :=
  if st.rangeStack.length = 0 then
    .error ("Cant " ++ op ++ " while no GeneratedRange is on the stack.")
  else .ok ()

/-- One step of the `SafeScopeInfoBuilder`: run the overridden method's
checks in source order, then fall through to the permissive step. -/
def safeStep (st : BuilderState) (op : BOp) : Except String BuilderState := do
  match op with
  | .addNullScope =>
      verifyEmptyScopeStack st "add null scope"
      verifyEmptyRangeStack st "add null scope"
      .ok (permStep st op)
  | .startScope l c _ _ _ _ =>
      verifyEmptyRangeStack st "start scope"
      match st.scopeStack with
      | parent :: _ =>
          if 0 < comparePositions parent.start ⟨l, c⟩ then
            .error "Scope start must not precede parent start"
          else
            match parent.children.getLast? with
            | some precedingSibling =>
                if 0 < comparePositions precedingSibling.end_ ⟨l, c⟩ then
                  .error "Scope start must not precede preceding siblings end"
                else .ok (permStep st op)
            | none => .ok (permStep st op)
      | [] => .ok (permStep st op)
  | .setScopeName _ =>
      verifyScopePresent st "setScopeName"
      verifyEmptyRangeStack st "setScopeName"
      .ok (permStep st op)
  | .setScopeKind _ =>
      verifyScopePresent st "setScopeKind"
      verifyEmptyRangeStack st "setScopeKind"
      .ok (permStep st op)
  | .setScopeStackFrame _ =>
      verifyScopePresent st "setScopeStackFrame"
      verifyEmptyRangeStack st "setScopeStackFrame"
      .ok (permStep st op)
  | .setScopeVariables _ =>
      verifyScopePresent st "setScopeVariables"
      verifyEmptyRangeStack st "setScopeVariables"
      .ok (permStep st op)
  | .endScope l c =>
      verifyEmptyRangeStack st "end scope"
      match st.scopeStack with
      | [] => .error "No scope to end"
      | scope :: _ =>
          if 0 < comparePositions scope.start ⟨l, c⟩ then
            .error "Scope end must not precede scope start"
          else .ok (permStep st op)
  | .startRange l c sc _ _ =>
      verifyEmptyScopeStack st "starRange"
      match st.rangeStack with
      | parent :: _ =>
          if 0 < comparePositions parent.start ⟨l, c⟩ then
            .error "Range start must not precede parent start"
          else
            match parent.children.getLast? with
            | some precedingSibling =>
                if 0 < comparePositions precedingSibling.end_ ⟨l, c⟩ then
                  .error "Range start must not precede preceding siblings end"
                else
                  match sc with
                  | some n =>
                      if n < st.scopeCounter then .ok (permStep st op)
                      else .error "does not reference a valid OriginalScope"
                  | none => .ok (permStep st op)
            | none =>
                match sc with
                | some n =>
                    if n < st.scopeCounter then .ok (permStep st op)
                    else .error "does not reference a valid OriginalScope"
                | none => .ok (permStep st op)
      | [] =>
          match sc with
          | some n =>
              if n < st.scopeCounter then .ok (permStep st op)
              else .error "does not reference a valid OriginalScope"
          | none => .ok (permStep st op)
  | .setRangeDefinitionScope n =>
      verifyEmptyScopeStack st "setRangeDefinitionScope"
      verifyRangePresent st "setRangeDefinitionScope"
      if n < st.scopeCounter then .ok (permStep st op)
      else .error "does not reference a valid OriginalScope"
  | .setRangeStackFrame _ =>
      verifyEmptyScopeStack st "setRangeStackFrame"
      verifyRangePresent st "setRangeStackFrame"
      .ok (permStep st op)
  | .setRangeHidden _ =>
      verifyEmptyScopeStack st "setRangeHidden"
      verifyRangePresent st "setRangeHidden"
      .ok (permStep st op)
  | .endRange l c =>
      verifyEmptyScopeStack st "endRange"
      match st.rangeStack with
      | [] => .error "No range to end"
      | range :: _ =>
          if 0 < comparePositions range.start ⟨l, c⟩ then
            .error "Range end must not precede range start"
          else .ok (permStep st op)
  | .build =>
      if 0 < st.scopeStack.length then
        .error "Cant build ScopeInfo while an OriginalScope is unclosed."
      else do
        verifyEmptyRangeStack st "build ScopeInfo"
        .ok (permStep st op)

/-- Run a list of builder calls against the `SafeScopeInfoBuilder`,
starting from a fresh builder. -/
def safeRun (ops : List BOp) : Except String BuilderState :=
  ops.foldlM safeStep initBuilder

/-- States reachable through the safe builder API. -/
def Reachable (st : BuilderState) : Prop := ∃ ops, safeRun ops = .ok st

/-- At most one of the two stacks is ever non-empty. -/
def StacksExclusive (st : BuilderState) : Prop :=
  st.scopeStack = [] ∨ st.rangeStack = []

theorem verifyEmptyScopeStack_ok {st : BuilderState} {s : String} {u : Unit}
    (h : verifyEmptyScopeStack st s = .ok u) : st.scopeStack = [] := by
  unfold verifyEmptyScopeStack at h
  split at h
  · exact absurd h (by simp)
  · exact List.length_eq_zero.mp (by omega)

theorem verifyEmptyRangeStack_ok {st : BuilderState} {s : String} {u : Unit}
    (h : verifyEmptyRangeStack st s = .ok u) : st.rangeStack = [] := by
  unfold verifyEmptyRangeStack at h
  split at h
  · exact absurd h (by simp)
  · exact List.length_eq_zero.mp (by omega)

/-- A successful safe step performs exactly the permissive step. -/
theorem safeStep_ok_eq {st : BuilderState} {op : BOp} {st' : BuilderState}
    (h : safeStep st op = .ok st') : st' = permStep st op := by
  cases op with
  | addNullScope =>
    simp only [safeStep, exceptBind_ok] at h
    obtain ⟨u, hu, v, hv, h⟩ := h
    simp only [Except.ok.injEq] at h
    exact h.symm
  | startScope l c n k f v =>
    simp only [safeStep, exceptBind_ok] at h
    obtain ⟨u, hu, h⟩ := h
    split at h
    · split at h
      · exact absurd h (by simp)
      · split at h
        · split at h
          · exact absurd h (by simp)
          · simp only [Except.ok.injEq] at h
            exact h.symm
        · simp only [Except.ok.injEq] at h
          exact h.symm
    · simp only [Except.ok.injEq] at h
      exact h.symm
  | setScopeName n =>
    simp only [safeStep, exceptBind_ok] at h
    obtain ⟨u, hu, v, hv, h⟩ := h
    simp only [Except.ok.injEq] at h
    exact h.symm
  | setScopeKind k =>
    simp only [safeStep, exceptBind_ok] at h
    obtain ⟨u, hu, v, hv, h⟩ := h
    simp only [Except.ok.injEq] at h
    exact h.symm
  | setScopeStackFrame b =>
    simp only [safeStep, exceptBind_ok] at h
    obtain ⟨u, hu, v, hv, h⟩ := h
    simp only [Except.ok.injEq] at h
    exact h.symm
  | setScopeVariables v =>
    simp only [safeStep, exceptBind_ok] at h
    obtain ⟨u, hu, v2, hv, h⟩ := h
    simp only [Except.ok.injEq] at h
    exact h.symm
  | endScope l c =>
    simp only [safeStep, exceptBind_ok] at h
    obtain ⟨u, hu, h⟩ := h
    split at h
    · exact absurd h (by simp)
    · split at h
      · exact absurd h (by simp)
      · simp only [Except.ok.injEq] at h
        exact h.symm
  | startRange l c sc f hd =>
    simp only [safeStep, exceptBind_ok] at h
    obtain ⟨u, hu, h⟩ := h
    split at h
    · split at h
      · exact absurd h (by simp)
      · split at h
        · split at h
          · exact absurd h (by simp)
          · split at h
            · split at h
              · simp only [Except.ok.injEq] at h
                exact h.symm
              · exact absurd h (by simp)
            · simp only [Except.ok.injEq] at h
              exact h.symm
        · split at h
          · split at h
            · simp only [Except.ok.injEq] at h
              exact h.symm
            · exact absurd h (by simp)
          · simp only [Except.ok.injEq] at h
            exact h.symm
    · split at h
      · split at h
        · simp only [Except.ok.injEq] at h
          exact h.symm
        · exact absurd h (by simp)
      · simp only [Except.ok.injEq] at h
        exact h.symm
  | setRangeDefinitionScope n =>
    simp only [safeStep, exceptBind_ok] at h
    obtain ⟨u, hu, v, hv, h⟩ := h
    split at h
    · simp only [Except.ok.injEq] at h
      exact h.symm
    · exact absurd h (by simp)
  | setRangeStackFrame b =>
    simp only [safeStep, exceptBind_ok] at h
    obtain ⟨u, hu, v, hv, h⟩ := h
    simp only [Except.ok.injEq] at h
    exact h.symm
  | setRangeHidden b =>
    simp only [safeStep, exceptBind_ok] at h
    obtain ⟨u, hu, v, hv, h⟩ := h
    simp only [Except.ok.injEq] at h
    exact h.symm
  | endRange l c =>
    simp only [safeStep, exceptBind_ok] at h
    obtain ⟨u, hu, h⟩ := h
    split at h
    · exact absurd h (by simp)
    · split at h
      · exact absurd h (by simp)
      · simp only [Except.ok.injEq] at h
        exact h.symm
  | build =>
    simp only [safeStep] at h
    split at h
    · exact absurd h (by simp)
    · simp only [exceptBind_ok] at h
      obtain ⟨u, hu, h⟩ := h
      simp only [Except.ok.injEq] at h
      exact h.symm

/-- Every state a successful safe step produces keeps at most one stack
non-empty: the overridden methods guard the mutation of one stack with the
emptiness of the other. -/
theorem safeStep_stacksExclusive {st : BuilderState} {op : BOp} {st' : BuilderState}
    (h : safeStep st op = .ok st') : StacksExclusive st' := by
  have he := safeStep_ok_eq h
  subst he
  cases op with
  | addNullScope =>
    simp only [safeStep, exceptBind_ok] at h
    obtain ⟨u, hu, v, hv, h2⟩ := h
    exact Or.inr (verifyEmptyRangeStack_ok hv)
  | startScope l c n k f v =>
    simp only [safeStep, exceptBind_ok] at h
    obtain ⟨u, hu, h2⟩ := h
    exact Or.inr (verifyEmptyRangeStack_ok hu)
  | setScopeName n =>
    simp only [safeStep, exceptBind_ok] at h
    obtain ⟨u, hu, v, hv, h2⟩ := h
    have hr := verifyEmptyRangeStack_ok hv
    right
    show (permStep st (.setScopeName n)).rangeStack = []
    unfold permStep
    cases hs : st.scopeStack with
    | nil => exact hr
    | cons top rest => exact hr
  | setScopeKind k =>
    simp only [safeStep, exceptBind_ok] at h
    obtain ⟨u, hu, v, hv, h2⟩ := h
    have hr := verifyEmptyRangeStack_ok hv
    right
    show (permStep st (.setScopeKind k)).rangeStack = []
    unfold permStep
    cases hs : st.scopeStack with
    | nil => exact hr
    | cons top rest => exact hr
  | setScopeStackFrame b =>
    simp only [safeStep, exceptBind_ok] at h
    obtain ⟨u, hu, v, hv, h2⟩ := h
    have hr := verifyEmptyRangeStack_ok hv
    right
    show (permStep st (.setScopeStackFrame b)).rangeStack = []
    unfold permStep
    cases hs : st.scopeStack with
    | nil => exact hr
    | cons top rest => exact hr
  | setScopeVariables v =>
    simp only [safeStep, exceptBind_ok] at h
    obtain ⟨u, hu, v2, hv, h2⟩ := h
    have hr := verifyEmptyRangeStack_ok hv
    right
    show (permStep st (.setScopeVariables v)).rangeStack = []
    unfold permStep
    cases hs : st.scopeStack with
    | nil => exact hr
    | cons top rest => exact hr
  | endScope l c =>
    simp only [safeStep, exceptBind_ok] at h
    obtain ⟨u, hu, h2⟩ := h
    have hr := verifyEmptyRangeStack_ok hu
    right
    show (permStep st (.endScope l c)).rangeStack = []
    unfold permStep
    cases hs : st.scopeStack with
    | nil => exact hr
    | cons top rest =>
      cases rest with
      | nil => exact hr
      | cons parent rest2 => exact hr
  | startRange l c sc f hd =>
    simp only [safeStep, exceptBind_ok] at h
    obtain ⟨u, hu, h2⟩ := h
    exact Or.inl (verifyEmptyScopeStack_ok hu)
  | setRangeDefinitionScope n =>
    simp only [safeStep, exceptBind_ok] at h
    obtain ⟨u, hu, v, hv, h2⟩ := h
    have hs := verifyEmptyScopeStack_ok hu
    left
    show (permStep st (.setRangeDefinitionScope n)).scopeStack = []
    unfold permStep
    cases hr : st.rangeStack with
    | nil => exact hs
    | cons top rest => exact hs
  | setRangeStackFrame b =>
    simp only [safeStep, exceptBind_ok] at h
    obtain ⟨u, hu, v, hv, h2⟩ := h
    have hs := verifyEmptyScopeStack_ok hu
    left
    show (permStep st (.setRangeStackFrame b)).scopeStack = []
    unfold permStep
    cases hr : st.rangeStack with
    | nil => exact hs
    | cons top rest => exact hs
  | setRangeHidden b =>
    simp only [safeStep, exceptBind_ok] at h
    obtain ⟨u, hu, v, hv, h2⟩ := h
    have hs := verifyEmptyScopeStack_ok hu
    left
    show (permStep st (.setRangeHidden b)).scopeStack = []
    unfold permStep
    cases hr : st.rangeStack with
    | nil => exact hs
    | cons top rest => exact hs
  | endRange l c =>
    simp only [safeStep, exceptBind_ok] at h
    obtain ⟨u, hu, h2⟩ := h
    have hs := verifyEmptyScopeStack_ok hu
    left
    show (permStep st (.endRange l c)).scopeStack = []
    unfold permStep
    cases hr : st.rangeStack with
    | nil => exact hs
    | cons top rest =>
      cases rest with
      | nil => exact hs
      | cons parent rest2 => exact hs
  | build =>
    simp only [safeStep] at h
    split at h
    · exact absurd h (by simp)
    · simp only [exceptBind_ok] at h
      obtain ⟨u, hu, h2⟩ := h
      exact Or.inr (verifyEmptyRangeStack_ok hu)

/-- Every reachable safe-builder state keeps at most one stack non-empty. -/
theorem reachable_stacksExclusive {st : BuilderState} (h : Reachable st) :
    StacksExclusive st := by
  obtain ⟨ops, hops⟩ := h
  unfold safeRun at hops
  have main : ∀ (l : List BOp) (s0 s1 : BuilderState), StacksExclusive s0 →
      l.foldlM safeStep s0 = .ok s1 → StacksExclusive s1 := by
    intro l
    induction l with
    | nil =>
      intro s0 s1 h0 hfold
      simp only [List.foldlM_nil, pure, Except.pure, Except.ok.injEq] at hfold
      exact hfold ▸ h0
    | cons op rest ih =>
      intro s0 s1 h0 hfold
      rw [List.foldlM_cons] at hfold
      simp only [exceptBind_ok] at hfold
      obtain ⟨s2, hstep, hfold⟩ := hfold
      exact ih s2 s1 (safeStep_stacksExclusive hstep) hfold
  exact main ops initBuilder st (Or.inl rfl) hops

/-- **C8**: in every state reachable through the safe builder API,
`endScope(line, column)` throws exactly when the scope stack is empty or
the given end position precedes the open scope's start (the reachability
invariant rules out the additional unclosed-range throw while a scope is
open); the permissive builder's `endScope` never throws — `permStep` is a
total function — and is a silent no-op on an empty scope stack. -/
theorem endScope_behavior_c8 (st : BuilderState) (line column : Nat)
    (hreach : Reachable st) :
    ((∃ e, safeStep st (.endScope line column) = .error e) ↔
      st.scopeStack = [] ∨
        ∃ top rest, st.scopeStack = top :: rest ∧
          0 < comparePositions top.start ⟨line, column⟩) ∧
    (st.scopeStack = [] → permStep st (.endScope line column) = st) := by
  have hexcl := reachable_stacksExclusive hreach
  refine ⟨⟨?_, ?_⟩, ?_⟩
  · rintro ⟨e, he⟩
    simp only [safeStep] at he
    cases hs : st.scopeStack with
    | nil => exact Or.inl rfl
    | cons top rest =>
      have hr : st.rangeStack = [] := by
        cases hexcl with
        | inl h2 => rw [hs] at h2; exact absurd h2 (by simp)
        | inr h2 => exact h2
      refine Or.inr ⟨top, rest, rfl, ?_⟩
      rw [hs] at he
      simp only [verifyEmptyRangeStack, hr, List.length_nil, gt_iff_lt,
        Nat.lt_irrefl, if_false, bind, Except.bind] at he
      split at he
      · assumption
      · exact absurd he (by simp)
  · intro hcond
    cases hcond with
    | inl hempty =>
      cases hr : st.rangeStack with
      | nil =>
        refine ⟨"No scope to end", ?_⟩
        simp only [safeStep, verifyEmptyRangeStack, hr, List.length_nil, gt_iff_lt,
          Nat.lt_irrefl, if_false, bind, Except.bind, hempty]
      | cons rtop rrest =>
        refine ⟨"Cant end scope while a GeneratedRange is unclosed.", ?_⟩
        simp only [safeStep, verifyEmptyRangeStack, hr]
        simp [bind, Except.bind]
    | inr hex =>
      obtain ⟨top, rest, hs, hlt⟩ := hex
      have hr : st.rangeStack = [] := by
        cases hexcl with
        | inl h2 => rw [hs] at h2; exact absurd h2 (by simp)
        | inr h2 => exact h2
      refine ⟨"Scope end must not precede scope start", ?_⟩
      simp only [safeStep, verifyEmptyRangeStack, hr, List.length_nil, gt_iff_lt,
        Nat.lt_irrefl, if_false, bind, Except.bind, hs, if_pos hlt]
  · intro hempty
    simp only [permStep, hempty]

/-- Witness for C8 at a concrete reachable state: after `startScope (1, 5)`
the scope stack holds one open scope starting at `(1, 5)`, and the
characterization applies to `endScope (1, 4)`, whose end precedes that
start. -/
theorem endScope_behavior_c8_witness :
    ((∃ e, safeStep
        { scopes := [], ranges := [],
          scopeStack := [OrigScope.mk ⟨1, 5⟩ ⟨1, 5⟩ none none false [] []],
          rangeStack := [], scopeCounter := 1, lastScope := none }
        (.endScope 1 4) = .error e) ↔
      ([OrigScope.mk ⟨1, 5⟩ ⟨1, 5⟩ none none false [] []] : List OrigScope) = [] ∨
        ∃ top rest,
          ([OrigScope.mk ⟨1, 5⟩ ⟨1, 5⟩ none none false [] []] : List OrigScope) =
            top :: rest ∧ 0 < comparePositions top.start ⟨1, 4⟩) ∧
    (([OrigScope.mk ⟨1, 5⟩ ⟨1, 5⟩ none none false [] []] : List OrigScope) = [] →
      permStep
        { scopes := [], ranges := [],
          scopeStack := [OrigScope.mk ⟨1, 5⟩ ⟨1, 5⟩ none none false [] []],
          rangeStack := [], scopeCounter := 1, lastScope := none }
        (.endScope 1 4) =
        { scopes := [], ranges := [],
          scopeStack := [OrigScope.mk ⟨1, 5⟩ ⟨1, 5⟩ none none false [] []],
          rangeStack := [], scopeCounter := 1, lastScope := none }) :=
  endScope_behavior_c8
    { scopes := [], ranges := [],
      scopeStack := [OrigScope.mk ⟨1, 5⟩ ⟨1, 5⟩ none none false [] []],
      rangeStack := [], scopeCounter := 1, lastScope := none }
    1 4 ⟨[BOp.startScope 1 5 none none false []], rfl⟩

/-! ### Tree-link consistency of decoded forests (C10) -/

/-- The attachment skeleton of a decoded forest: the list of top-level
node ids, each node's list of child ids, each node's parent link, and the
ids of the still-open nodes (the decoder stack). -/
structure Skel where
  tops : List Nat
  kids : List (List Nat)
  pars : List (Option Nat)
  stack : List Nat

/-- All attachment occurrences: top-level entries plus every child entry. -/
def Skel.attach (k : Skel) : List Nat := k.tops ++ k.kids.flatten

/-- Consistency of an attachment skeleton: parent links and children
arrays agree, every node is attached at most once, top-level nodes and
still-open nodes have no parent, and open nodes are unattached. -/
structure SkelInv (k : Skel) : Prop where
  len_eq : k.pars.length = k.kids.length
  attach_lt : ∀ i ∈ k.attach, i < k.kids.length
  attach_nodup : k.attach.Nodup
  tops_parent : ∀ i ∈ k.tops, k.pars.get? i = some none
  kids_parent : ∀ p c, c ∈ (k.kids.get? p).getD [] → k.pars.get? c = some (some p)
  stack_free : ∀ i ∈ k.stack, i ∉ k.attach ∧ i < k.kids.length ∧ k.pars.get? i = some none
  stack_nodup : k.stack.Nodup

theorem set_get?_self {α : Type} {l : List α} {i : Nat} {a : α}
    (h : l.get? i = some a) : l.set i a = l := by
  apply List.ext_get?
  intro j
  rw [List.get?_set]
  split
  · rename_i hij
    subst hij
    rw [h]
    rfl
  · rfl

theorem map_set_getD_eq {α β : Type} (f : α → β) (l : List α) (i : Nat) (d : α)
    (g : α → α) (hg : ∀ x, f (g x) = f x) :
    (l.set i (g ((l.get? i).getD d))).map f = l.map f := by
  rw [List.map_set]
  by_cases hi : i < l.length
  · rw [List.get?_eq_get hi, Option.getD_some]
    apply set_get?_self
    rw [List.get?_map, List.get?_eq_get hi]
    simp [hg]
  · apply List.set_eq_of_length_le
    simpa using Nat.le_of_not_lt hi

theorem skelInv_push {t : List Nat} {k : List (List Nat)} {p : List (Option Nat)}
    {s : List Nat} (h : SkelInv ⟨t, k, p, s⟩) :
    SkelInv ⟨t, k ++ [[]], p ++ [none], k.length :: s⟩ := by
  have hat : (Skel.attach ⟨t, k ++ [[]], p ++ [none], k.length :: s⟩) =
      Skel.attach ⟨t, k, p, s⟩ := by
    simp [Skel.attach, List.flatten_append]
  refine ⟨?_, ?_, ?_, ?_, ?_, ?_, ?_⟩
  · simp [h.len_eq]
  · intro i hi
    rw [hat] at hi
    have h2 : i < k.length := h.attach_lt i hi
    simp only [List.length_append, List.length_cons, List.length_nil]
    omega
  · rw [hat]
    exact h.attach_nodup
  · intro i hi
    have hlt : i < p.length := by
      rw [h.len_eq]
      exact h.attach_lt i (List.mem_append_left _ hi)
    rw [List.get?_append hlt]
    exact h.tops_parent i hi
  · intro q c hc
    by_cases hq : q < k.length
    · rw [List.get?_append hq] at hc
      have hcp := h.kids_parent q c hc
      have hclt : c < p.length := by
        rw [h.len_eq]
        refine h.attach_lt c (List.mem_append_right _ ?_)
        rw [List.mem_flatten]
        cases hg : k.get? q with
        | none => rw [hg] at hc; simp at hc
        | some w =>
            rw [hg] at hc
            exact ⟨w, List.get?_mem hg, by simpa using hc⟩
      rw [List.get?_append hclt]
      exact hcp
    · rw [List.get?_append_right (Nat.le_of_not_lt hq)] at hc
      cases hql : q - k.length with
      | zero => rw [hql] at hc; simp at hc
      | succ m => rw [hql] at hc; simp at hc
  · intro i hi
    cases hi with
    | head =>
      refine ⟨?_, by simp, ?_⟩
      · rw [hat]
        intro hmem
        exact absurd (h.attach_lt _ hmem) (Nat.lt_irrefl _)
      · rw [List.get?_append_right (Nat.le_of_eq h.len_eq)]
        rw [h.len_eq]
        simp
    | tail _ hi =>
      obtain ⟨hna, hlt, hp⟩ := h.stack_free i hi
      have hlt2 : i < k.length := hlt
      refine ⟨?_, ?_, ?_⟩
      · rw [hat]; exact hna
      · simp only [List.length_append, List.length_cons, List.length_nil]; omega
      · rw [List.get?_append (h.len_eq ▸ hlt)]
        exact hp
  · rw [List.nodup_cons]
    refine ⟨?_, h.stack_nodup⟩
    intro hmem
    exact absurd (h.stack_free _ hmem).2.1 (Nat.lt_irrefl _)

theorem skelInv_closeTop {t : List Nat} {k : List (List Nat)} {p : List (Option Nat)}
    {id : Nat} (h : SkelInv ⟨t, k, p, [id]⟩) : SkelInv ⟨t ++ [id], k, p, []⟩ := by
  obtain ⟨hna, hid, hp⟩ := h.stack_free id (by simp)
  have hid2 : id < k.length := hid
  have hperm : (Skel.attach ⟨t ++ [id], k, p, []⟩).Perm
      (Skel.attach ⟨t, k, p, [id]⟩ ++ [id]) := by
    simp only [Skel.attach]
    rw [List.append_assoc, List.append_assoc]
    exact List.Perm.append_left t List.perm_append_comm
  refine ⟨h.len_eq, ?_, ?_, ?_, h.kids_parent, ?_, List.nodup_nil⟩
  · intro i hi
    rw [hperm.mem_iff, List.mem_append] at hi
    cases hi with
    | inl hi => exact h.attach_lt i hi
    | inr hi =>
        have : i = id := by simpa using hi
        subst this
        exact hid2
  · rw [hperm.nodup_iff, List.nodup_append]
    refine ⟨h.attach_nodup, by simp, ?_⟩
    intro a ha hb
    have : a = id := by simpa using hb
    subst this
    exact hna ha
  · intro i hi
    rw [List.mem_append] at hi
    cases hi with
    | inl hi => exact h.tops_parent i hi
    | inr hi =>
        have : i = id := by simpa using hi
        subst this
        exact hp
  · intro i hi
    simp at hi

theorem skelInv_closeChild {t : List Nat} {k : List (List Nat)} {p : List (Option Nat)}
    {id pid : Nat} {rest : List Nat} (h : SkelInv ⟨t, k, p, id :: pid :: rest⟩) :
    SkelInv ⟨t, k.set pid ((k.get? pid).getD [] ++ [id]),
             p.set id (some pid), pid :: rest⟩ := by
  obtain ⟨hidna, hidlt, hidp⟩ := h.stack_free id (by simp)
  obtain ⟨hpidna, hpidlt, hpidp⟩ := h.stack_free pid (by simp)
  have hidlt2 : id < k.length := hidlt
  have hpidlt2 : pid < k.length := hpidlt
  have hplen : p.length = k.length := h.len_eq
  have hnodup := h.stack_nodup
  rw [List.nodup_cons] at hnodup
  have hne : id ≠ pid := fun he => hnodup.1 (he ▸ List.mem_cons_self _ _)
  have hidrest : id ∉ pid :: rest := hnodup.1
  have hw : k.get? pid = some (k.get ⟨pid, hpidlt2⟩) := List.get?_eq_get hpidlt2
  have hperm : (Skel.attach ⟨t, k.set pid ((k.get? pid).getD [] ++ [id]),
      p.set id (some pid), pid :: rest⟩).Perm
      (Skel.attach ⟨t, k, p, id :: pid :: rest⟩ ++ [id]) := by
    simp only [Skel.attach]
    rw [hw, Option.getD_some, List.set_eq_take_cons_drop _ hpidlt2]
    conv_rhs => rw [show k = k.take pid ++ k.get ⟨pid, hpidlt2⟩ :: k.drop (pid + 1) by
      conv_lhs => rw [← List.take_append_drop pid k]
      rw [List.drop_eq_get_cons hpidlt2]]
    simp only [List.flatten_append, List.flatten_cons]
    have hstep : ((k.get ⟨pid, hpidlt2⟩ ++ [id]) ++ (k.drop (pid + 1)).flatten).Perm
        ((k.get ⟨pid, hpidlt2⟩ ++ (k.drop (pid + 1)).flatten) ++ [id]) := by
      rw [List.append_assoc, List.append_assoc]
      exact List.Perm.append_left _ List.perm_append_comm
    have h3 := ((hstep.append_left ((k.take pid).flatten)).append_left t)
    have he : t ++ ((k.take pid).flatten ++
        ((k.get ⟨pid, hpidlt2⟩ ++ (k.drop (pid + 1)).flatten) ++ [id])) =
        (t ++ ((k.take pid).flatten ++
          (k.get ⟨pid, hpidlt2⟩ ++ (k.drop (pid + 1)).flatten))) ++ [id] := by
      simp [List.append_assoc]
    exact he ▸ h3
  have hwmem : ∀ c ∈ k.get ⟨pid, hpidlt2⟩, c ∈ Skel.attach ⟨t, k, p, id :: pid :: rest⟩ := by
    intro c hc
    refine List.mem_append_right _ ?_
    rw [List.mem_flatten]
    exact ⟨_, List.get?_mem hw, hc⟩
  refine ⟨?_, ?_, ?_, ?_, ?_, ?_, hnodup.2⟩
  · simp [List.length_set, hplen]
  · intro i hi
    rw [hperm.mem_iff, List.mem_append] at hi
    rw [List.length_set]
    cases hi with
    | inl hi => exact h.attach_lt i hi
    | inr hi =>
        have : i = id := by simpa using hi
        subst this
        exact hidlt2
  · rw [hperm.nodup_iff, List.nodup_append]
    refine ⟨h.attach_nodup, by simp, ?_⟩
    intro a ha hb
    have : a = id := by simpa using hb
    subst this
    exact hidna ha
  · intro i hi
    have hine : id ≠ i := fun he => hidna (he ▸ List.mem_append_left _ hi)
    rw [List.get?_set, if_neg hine]
    exact h.tops_parent i hi
  · intro q c hc
    rw [List.get?_set] at hc
    by_cases hq : pid = q
    · subst hq
      rw [if_pos rfl, hw] at hc
      simp only [Option.map_eq_map, Option.map_some', Option.getD_some,
        List.mem_append] at hc
      cases hc with
      | inl hc =>
          have hcp := h.kids_parent pid c (by rw [hw, Option.getD_some]; exact hc)
          have hcne : id ≠ c := fun he => hidna (he ▸ hwmem c hc)
          rw [List.get?_set, if_neg hcne]
          exact hcp
      | inr hc =>
          have : c = id := by simpa using hc
          subst this
          rw [List.get?_set, if_pos rfl, hidp]
          rfl
    · rw [if_neg hq] at hc
      have hcp := h.kids_parent q c hc
      have hcmem : c ∈ Skel.attach ⟨t, k, p, id :: pid :: rest⟩ := by
        refine List.mem_append_right _ ?_
        rw [List.mem_flatten]
        cases hg : k.get? q with
        | none => rw [hg] at hc; simp at hc
        | some wq => exact ⟨wq, List.get?_mem hg, by rw [hg] at hc; simpa using hc⟩
      have hcne : id ≠ c := fun he => hidna (he ▸ hcmem)
      rw [List.get?_set, if_neg hcne]
      exact hcp
  · intro i hi
    have hine : id ≠ i := fun he => hidrest (he ▸ hi)
    have hifacts : i ∉ Skel.attach ⟨t, k, p, id :: pid :: rest⟩ ∧ i < k.length ∧
        p.get? i = some none := by
      cases hi with
      | head => exact ⟨hpidna, hpidlt2, hpidp⟩
      | tail _ hi =>
          exact h.stack_free i (List.mem_cons_of_mem _ (List.mem_cons_of_mem _ hi))
    refine ⟨?_, ?_, ?_⟩
    · rw [hperm.mem_iff, List.mem_append]
      rintro (hmem | hmem)
      · exact hifacts.1 hmem
      · have hmi : i = id := by simpa using hmem
        exact hine hmi.symm
    · rw [List.length_set]
      exact hifacts.2.1
    · rw [List.get?_set, if_neg hine]
      exact hifacts.2.2

/-- The scope-side skeleton of a decoder state. -/
def sSkel (st : DecState) : Skel :=
  ⟨st.scopes.filterMap id, st.scopeArena.map DecScope.children,
   st.scopeArena.map DecScope.parent, st.scopeStack⟩

/-- The range-side skeleton of a decoder state. -/
def rSkel (st : DecState) : Skel :=
  ⟨st.ranges, st.rangeArena.map DecRange.children,
   st.rangeArena.map DecRange.parent, st.rangeStack⟩

/-- Both forests under construction are consistent. -/
def DecInv (st : DecState) : Prop := SkelInv (sSkel st) ∧ SkelInv (rSkel st)

theorem skelInv_push' {k : Skel} (h : SkelInv k) :
    SkelInv ⟨k.tops, k.kids ++ [[]], k.pars ++ [none], k.kids.length :: k.stack⟩ := by
  obtain ⟨t, ki, p, s⟩ := k
  exact skelInv_push h

theorem skelInv_closeTop' {k : Skel} {id : Nat} (h : SkelInv k) (hs : k.stack = [id]) :
    SkelInv ⟨k.tops ++ [id], k.kids, k.pars, []⟩ := by
  obtain ⟨t, ki, p, s⟩ := k
  dsimp only at hs
  subst hs
  exact skelInv_closeTop h

theorem skelInv_closeChild' {k : Skel} {id pid : Nat} {rest : List Nat}
    (h : SkelInv k) (hs : k.stack = id :: pid :: rest) :
    SkelInv ⟨k.tops, k.kids.set pid ((k.kids.get? pid).getD [] ++ [id]),
             k.pars.set id (some pid), pid :: rest⟩ := by
  obtain ⟨t, ki, p, s⟩ := k
  dsimp only at hs
  subst hs
  exact skelInv_closeChild h

theorem children_getD_map {l : List DecScope} {i : Nat} :
    ((l.get? i).getD default).children = ((l.map DecScope.children).get? i).getD [] := by
  rw [List.get?_map]
  cases l.get? i <;> rfl

theorem rchildren_getD_map {l : List DecRange} {i : Nat} :
    ((l.get? i).getD default).children = ((l.map DecRange.children).get? i).getD [] := by
  rw [List.get?_map]
  cases l.get? i <;> rfl

theorem handleOriginalScopeStartItem_shape {mode : DecodeMode} {names : List String}
    {st : DecState} {flags line column : Int} {nameIdx kindIdx : Option Int}
    {st' : DecState}
    (h : handleOriginalScopeStartItem mode names st flags line column nameIdx kindIdx
      = .ok st') :
    ∃ sSt scope, scope.children = [] ∧ scope.parent = none ∧
      st' = { st with scopeState := sSt,
                      scopeStack := st.scopeArena.length :: st.scopeStack,
                      scopeArena := st.scopeArena ++ [scope] } := by
  unfold handleOriginalScopeStartItem at h
  cases nameIdx with
  | none =>
    cases kindIdx with
    | none =>
      simp only [pure, Except.pure, bind, Except.bind, Except.ok.injEq] at h
      exact ⟨_, _, rfl, rfl, h.symm⟩
    | some d =>
      simp only [pure, Except.pure, bind, Except.bind] at h
      cases hr : resolveName mode names
          ({ st.scopeState with line := st.scopeState.line + line, kind := st.scopeState.kind + d }).kind with
      | error e => rw [hr] at h; exact absurd h (by simp)
      | ok s =>
        rw [hr] at h
        simp only [Except.ok.injEq] at h
        exact ⟨_, _, rfl, rfl, h.symm⟩
  | some d =>
    cases kindIdx with
    | none =>
      simp only [pure, Except.pure, bind, Except.bind] at h
      cases hr : resolveName mode names
          ({ st.scopeState with line := st.scopeState.line + line, name := st.scopeState.name + d }).name with
      | error e => rw [hr] at h; exact absurd h (by simp)
      | ok s =>
        rw [hr] at h
        simp only [Except.ok.injEq] at h
        exact ⟨_, _, rfl, rfl, h.symm⟩
    | some d2 =>
      simp only [pure, Except.pure, bind, Except.bind] at h
      cases hr : resolveName mode names
          ({ st.scopeState with line := st.scopeState.line + line, name := st.scopeState.name + d }).name with
      | error e => rw [hr] at h; exact absurd h (by simp)
      | ok s =>
        rw [hr] at h
        dsimp only at h
        cases hr2 : resolveName mode names (st.scopeState.kind + d2) with
        | error e => rw [hr2] at h; exact absurd h (by simp)
        | ok s2 =>
          rw [hr2] at h
          simp only [Except.ok.injEq] at h
          exact ⟨_, _, rfl, rfl, h.symm⟩

theorem handleOriginalScopeStartItem_inv {mode : DecodeMode} {names : List String}
    {st : DecState} {flags line column : Int} {nameIdx kindIdx : Option Int}
    {st' : DecState}
    (h : handleOriginalScopeStartItem mode names st flags line column nameIdx kindIdx
      = .ok st')
    (hinv : DecInv st) : DecInv st' := by
  obtain ⟨sSt, scope, hc, hp, he⟩ := handleOriginalScopeStartItem_shape h
  subst he
  constructor
  · simp only [sSkel, List.map_append, List.map_cons, List.map_nil, hc, hp]
    have hp2 := skelInv_push' hinv.1
    simp only [sSkel, List.length_map] at hp2
    exact hp2
  · exact hinv.2

theorem sSkel_eq_of {st st' : DecState}
    (h1 : st'.scopes = st.scopes)
    (h2 : st'.scopeArena.map DecScope.children = st.scopeArena.map DecScope.children)
    (h3 : st'.scopeArena.map DecScope.parent = st.scopeArena.map DecScope.parent)
    (h4 : st'.scopeStack = st.scopeStack) : sSkel st' = sSkel st := by
  simp only [sSkel, h1, h2, h3, h4]

theorem rSkel_eq_of {st st' : DecState}
    (h1 : st'.ranges = st.ranges)
    (h2 : st'.rangeArena.map DecRange.children = st.rangeArena.map DecRange.children)
    (h3 : st'.rangeArena.map DecRange.parent = st.rangeArena.map DecRange.parent)
    (h4 : st'.rangeStack = st.rangeStack) : rSkel st' = rSkel st := by
  simp only [rSkel, h1, h2, h3, h4]

theorem decInv_of_eq {st st' : DecState} (h1 : sSkel st' = sSkel st)
    (h2 : rSkel st' = rSkel st) (hinv : DecInv st) : DecInv st' :=
  ⟨h1 ▸ hinv.1, h2 ▸ hinv.2⟩

theorem pushVariable_inv {mode : DecodeMode} {names : List String} {topId : Nat}
    {st : DecState} {variableIdx : Int} {st' : DecState}
    (h : pushVariable mode names topId st variableIdx = .ok st')
    (hinv : DecInv st) : DecInv st' := by
  unfold pushVariable at h
  simp only [exceptBind_ok] at h
  obtain ⟨v, hv, h⟩ := h
  simp only [Except.ok.injEq] at h
  subst h
  have e1 : (st.scopeArena.set topId
      { (st.scopeArena.get? topId).getD default with
        variables_ := ((st.scopeArena.get? topId).getD default).variables_ ++ [v] }).map
        DecScope.children = st.scopeArena.map DecScope.children :=
    map_set_getD_eq DecScope.children st.scopeArena topId default
      (fun x => { x with variables_ := x.variables_ ++ [v] }) (fun x => rfl)
  have e2 : (st.scopeArena.set topId
      { (st.scopeArena.get? topId).getD default with
        variables_ := ((st.scopeArena.get? topId).getD default).variables_ ++ [v] }).map
        DecScope.parent = st.scopeArena.map DecScope.parent :=
    map_set_getD_eq DecScope.parent st.scopeArena topId default
      (fun x => { x with variables_ := x.variables_ ++ [v] }) (fun x => rfl)
  constructor
  · simp only [sSkel]
    rw [e1, e2]
    exact hinv.1
  · exact hinv.2

theorem pushVariableFold_inv {mode : DecodeMode} {names : List String} {topId : Nat} :
    ∀ {variableIdxs : List Int} {st st' : DecState},
      List.foldlM (pushVariable mode names topId) st variableIdxs = .ok st' →
      DecInv st → DecInv st' := by
  intro l
  induction l with
  | nil =>
    intro st st' h hinv
    simp only [List.foldlM_nil, pure, Except.pure, Except.ok.injEq] at h
    subst h
    exact hinv
  | cons vi vis ih =>
    intro st st' h hinv
    rw [List.foldlM_cons] at h
    simp only [exceptBind_ok] at h
    obtain ⟨st1, h1, h⟩ := h
    exact ih h (pushVariable_inv h1 hinv)

theorem handleOriginalScopeVariablesItem_inv {mode : DecodeMode} {names : List String}
    {st : DecState} {variableIdxs : List Int} {st' : DecState}
    (h : handleOriginalScopeVariablesItem mode names st variableIdxs = .ok st')
    (hinv : DecInv st) : DecInv st' := by
  unfold handleOriginalScopeVariablesItem at h
  split at h
  · simp only [bind, Except.bind, throwInStrictMode] at h
    split at h
    · exact absurd h (by simp)
    · simp only [pure, Except.pure, Except.ok.injEq] at h
      subst h
      exact hinv
  · exact pushVariableFold_inv h hinv

theorem map_set_getD_proj {α β : Type} (f : α → β) (l : List α) (i : Nat) (d : α) :
    (l.map f).set i (f ((l.get? i).getD d)) = l.map f := by
  by_cases hi : i < l.length
  · rw [List.get?_eq_get hi, Option.getD_some]
    apply set_get?_self
    rw [List.get?_map, List.get?_eq_get hi]
    rfl
  · exact List.set_eq_of_length_le (by simpa using Nat.le_of_not_lt hi)

theorem close_arena_children {A A1 : List DecScope} {id parentId : Nat} {e0 : DPos}
    (h1 : A1 = A.set id
      { (A.get? id).getD default with end_ := e0, parent := some parentId }) :
    (A1.set parentId { (A1.get? parentId).getD default with
        children := ((A1.get? parentId).getD default).children ++ [id] }).map
        DecScope.children
      = (A.map DecScope.children).set parentId
          (((A.map DecScope.children).get? parentId).getD [] ++ [id]) := by
  have ek1 : A1.map DecScope.children = A.map DecScope.children := by
    rw [h1]
    exact map_set_getD_eq DecScope.children A id default
      (fun x => { x with end_ := e0, parent := some parentId }) (fun x => rfl)
  rw [List.map_set, children_getD_map, ek1]

theorem close_arena_parent {A A1 : List DecScope} {id parentId : Nat} {e0 : DPos}
    (h1 : A1 = A.set id
      { (A.get? id).getD default with end_ := e0, parent := some parentId }) :
    (A1.set parentId { (A1.get? parentId).getD default with
        children := ((A1.get? parentId).getD default).children ++ [id] }).map
        DecScope.parent
      = (A.map DecScope.parent).set id (some parentId) := by
  have ep1 : A1.map DecScope.parent = (A.map DecScope.parent).set id (some parentId) := by
    rw [h1, List.map_set]
  rw [List.map_set]
  rw [show DecScope.parent { (A1.get? parentId).getD default with
      children := ((A1.get? parentId).getD default).children ++ [id] }
    = DecScope.parent ((A1.get? parentId).getD default) from rfl]
  rw [map_set_getD_proj]
  exact ep1

theorem close_arena_end_children {A : List DecScope} {id : Nat} {e0 : DPos} :
    (A.set id { (A.get? id).getD default with end_ := e0 }).map DecScope.children
      = A.map DecScope.children :=
  map_set_getD_eq DecScope.children A id default
    (fun x => { x with end_ := e0 }) (fun x => rfl)

theorem close_arena_end_parent {A : List DecScope} {id : Nat} {e0 : DPos} :
    (A.set id { (A.get? id).getD default with end_ := e0 }).map DecScope.parent
      = A.map DecScope.parent :=
  map_set_getD_eq DecScope.parent A id default
    (fun x => { x with end_ := e0 }) (fun x => rfl)

theorem handleOriginalScopeEndItem_inv {mode : DecodeMode} {st : DecState}
    {line column : Int} {st' : DecState}
    (h : handleOriginalScopeEndItem mode st line column = .ok st')
    (hinv : DecInv st) : DecInv st' := by
  unfold handleOriginalScopeEndItem at h
  split at h
  · simp only [bind, Except.bind, throwInStrictMode] at h
    split at h
    · exact absurd h (by simp)
    · simp only [pure, Except.pure, Except.ok.injEq] at h
      subst h
      exact hinv
  · split at h
    · rename_i x id stack parentId tail heq
      simp only [Except.ok.injEq] at h
      subst h
      constructor
      · simp only [sSkel]
        rw [close_arena_children rfl, close_arena_parent rfl]
        exact skelInv_closeChild' hinv.1 heq
      · exact hinv.2
    · rename_i x id stack heq
      simp only [Except.ok.injEq] at h
      subst h
      constructor
      · simp only [sSkel, List.filterMap_append]
        rw [close_arena_end_children, close_arena_end_parent]
        exact skelInv_closeTop' hinv.1 heq
      · exact hinv.2

theorem close_rarena_children {A A1 : List DecRange} {id parentId : Nat} {e0 : DPos}
    (h1 : A1 = A.set id
      { (A.get? id).getD default with end_ := e0, parent := some parentId }) :
    (A1.set parentId { (A1.get? parentId).getD default with
        children := ((A1.get? parentId).getD default).children ++ [id] }).map
        DecRange.children
      = (A.map DecRange.children).set parentId
          (((A.map DecRange.children).get? parentId).getD [] ++ [id]) := by
  have ek1 : A1.map DecRange.children = A.map DecRange.children := by
    rw [h1]
    exact map_set_getD_eq DecRange.children A id default
      (fun x => { x with end_ := e0, parent := some parentId }) (fun x => rfl)
  rw [List.map_set, rchildren_getD_map, ek1]

theorem close_rarena_parent {A A1 : List DecRange} {id parentId : Nat} {e0 : DPos}
    (h1 : A1 = A.set id
      { (A.get? id).getD default with end_ := e0, parent := some parentId }) :
    (A1.set parentId { (A1.get? parentId).getD default with
        children := ((A1.get? parentId).getD default).children ++ [id] }).map
        DecRange.parent
      = (A.map DecRange.parent).set id (some parentId) := by
  have ep1 : A1.map DecRange.parent = (A.map DecRange.parent).set id (some parentId) := by
    rw [h1, List.map_set]
  rw [List.map_set]
  rw [show DecRange.parent { (A1.get? parentId).getD default with
      children := ((A1.get? parentId).getD default).children ++ [id] }
    = DecRange.parent ((A1.get? parentId).getD default) from rfl]
  rw [map_set_getD_proj]
  exact ep1

theorem close_rarena_end_children {A : List DecRange} {id : Nat} {e0 : DPos} :
    (A.set id { (A.get? id).getD default with end_ := e0 }).map DecRange.children
      = A.map DecRange.children :=
  map_set_getD_eq DecRange.children A id default
    (fun x => { x with end_ := e0 }) (fun x => rfl)

theorem close_rarena_end_parent {A : List DecRange} {id : Nat} {e0 : DPos} :
    (A.set id { (A.get? id).getD default with end_ := e0 }).map DecRange.parent
      = A.map DecRange.parent :=
  map_set_getD_eq DecRange.parent A id default
    (fun x => { x with end_ := e0 }) (fun x => rfl)

theorem handleGeneratedRangeStartItem_inv {st : DecState} {flags : Int}
    {line : Option Int} {column : Int} {definitionIdx : Option Int} {st' : DecState}
    (h : handleGeneratedRangeStartItem st flags line column definitionIdx = .ok st')
    (hinv : DecInv st) : DecInv st' := by
  unfold handleGeneratedRangeStartItem at h
  cases definitionIdx with
  | none =>
    simp only [pure, Except.pure, bind, Except.bind, Except.ok.injEq] at h
    subst h
    constructor
    · exact hinv.1
    · simp only [rSkel, List.map_append, List.map_cons, List.map_nil]
      have hp2 := skelInv_push' hinv.2
      simp only [rSkel, List.length_map] at hp2
      exact hp2
  | some d =>
    simp only [pure, Except.pure, bind, Except.bind, Except.ok.injEq] at h
    subst h
    constructor
    · exact hinv.1
    · simp only [rSkel, List.map_append, List.map_cons, List.map_nil]
      have hp2 := skelInv_push' hinv.2
      simp only [rSkel, List.length_map] at hp2
      exact hp2

theorem handleGeneratedRangeBindingsItem_inv {mode : DecodeMode} {names : List String}
    {st : DecState} {valueIdxs : List Int} {st' : DecState}
    (h : handleGeneratedRangeBindingsItem mode names st valueIdxs = .ok st')
    (hinv : DecInv st) : DecInv st' := by
  unfold handleGeneratedRangeBindingsItem at h
  split at h
  · simp only [bind, Except.bind, throwInStrictMode] at h
    split at h
    · exact absurd h (by simp)
    · simp only [pure, Except.pure, Except.ok.injEq] at h
      subst h
      exact hinv
  · rename_i x topId tail heq
    simp only [Except.ok.injEq] at h
    subst h
    constructor
    · exact hinv.1
    · simp only [rSkel]
      rw [map_set_getD_eq DecRange.children st.rangeArena topId default
          (fun x => { x with values := x.values ++ (valueIdxs.map fun valueIdx =>
            if valueIdx = -1 then BindVal.nullv
            else if _h : 0 ≤ valueIdx ∧ valueIdx < (names.length : Int) then
              BindVal.str (names.getD valueIdx.toNat "")
            else BindVal.undef) }) (fun x => rfl),
        map_set_getD_eq DecRange.parent st.rangeArena topId default
          (fun x => { x with values := x.values ++ (valueIdxs.map fun valueIdx =>
            if valueIdx = -1 then BindVal.nullv
            else if _h : 0 ≤ valueIdx ∧ valueIdx < (names.length : Int) then
              BindVal.str (names.getD valueIdx.toNat "")
            else BindVal.undef) }) (fun x => rfl)]
      exact hinv.2

theorem handleGeneratedRangeEndItem_inv {mode : DecodeMode} {st : DecState}
    {line column : Int} {st' : DecState}
    (h : handleGeneratedRangeEndItem mode st line column = .ok st')
    (hinv : DecInv st) : DecInv st' := by
  unfold handleGeneratedRangeEndItem at h
  by_cases hl : line ≠ 0
  · rw [if_pos hl] at h
    split at h
    · simp only [bind, Except.bind, throwInStrictMode] at h
      split at h
      · exact absurd h (by simp)
      · simp only [pure, Except.pure, Except.ok.injEq] at h
        subst h
        exact hinv
    · split at h
      · rename_i x id stack parentId tail heq
        simp only [Except.ok.injEq] at h
        subst h
        constructor
        · exact hinv.1
        · simp only [rSkel]
          rw [close_rarena_children rfl, close_rarena_parent rfl]
          exact skelInv_closeChild' hinv.2 heq
      · rename_i x id stack heq
        simp only [Except.ok.injEq] at h
        subst h
        constructor
        · exact hinv.1
        · simp only [rSkel]
          rw [close_rarena_end_children, close_rarena_end_parent]
          exact skelInv_closeTop' hinv.2 heq
  · rw [if_neg hl] at h
    split at h
    · simp only [bind, Except.bind, throwInStrictMode] at h
      split at h
      · exact absurd h (by simp)
      · simp only [pure, Except.pure, Except.ok.injEq] at h
        subst h
        exact hinv
    · split at h
      · rename_i x id stack parentId tail heq
        simp only [Except.ok.injEq] at h
        subst h
        constructor
        · exact hinv.1
        · simp only [rSkel]
          rw [close_rarena_children rfl, close_rarena_parent rfl]
          exact skelInv_closeChild' hinv.2 heq
      · rename_i x id stack heq
        simp only [Except.ok.injEq] at h
        subst h
        constructor
        · exact hinv.1
        · simp only [rSkel]
          rw [close_rarena_end_children, close_rarena_end_parent]
          exact skelInv_closeTop' hinv.2 heq

theorem processTagItem_inv {mode : DecodeMode} {names : List String}
    {st st' : DecState} {tag : Int} {it it' : TokenIterator}
    (h : processTagItem mode names st tag it = .ok (st', it'))
    (hinv : DecInv st) : DecInv st' := by
  unfold processTagItem at h
  split at h
  · simp only [exceptBind_ok] at h
    obtain ⟨⟨flags, it1⟩, h1, h⟩ := h
    dsimp only at h
    obtain ⟨⟨line, it2⟩, h2, h⟩ := h
    dsimp only at h
    obtain ⟨⟨column, it3⟩, h3, h⟩ := h
    dsimp only at h
    obtain ⟨⟨nameIdx, it4⟩, h4, h⟩ := h
    dsimp only at h
    obtain ⟨⟨kindIdx, it5⟩, h5, h⟩ := h
    dsimp only at h
    obtain ⟨st1, h6, h⟩ := h
    simp only [pure, Except.pure, Except.ok.injEq, Prod.mk.injEq] at h
    rw [← h.1]
    exact handleOriginalScopeStartItem_inv h6 hinv
  · split at h
    · simp only [exceptBind_ok] at h
      obtain ⟨⟨vs, it1⟩, h1, h⟩ := h
      dsimp only at h
      obtain ⟨st1, h2, h⟩ := h
      simp only [pure, Except.pure, Except.ok.injEq, Prod.mk.injEq] at h
      rw [← h.1]
      exact handleOriginalScopeVariablesItem_inv h2 hinv
    · split at h
      · simp only [exceptBind_ok] at h
        obtain ⟨⟨line, it1⟩, h1, h⟩ := h
        dsimp only at h
        obtain ⟨⟨column, it2⟩, h2, h⟩ := h
        dsimp only at h
        obtain ⟨st1, h3, h⟩ := h
        simp only [pure, Except.pure, Except.ok.injEq, Prod.mk.injEq] at h
        rw [← h.1]
        exact handleOriginalScopeEndItem_inv h3 hinv
      · split at h
        · simp only [exceptBind_ok] at h
          obtain ⟨⟨flags, it1⟩, h1, h⟩ := h
          dsimp only at h
          obtain ⟨⟨line, it2⟩, h2, h⟩ := h
          dsimp only at h
          obtain ⟨⟨column, it3⟩, h3, h⟩ := h
          dsimp only at h
          obtain ⟨⟨defIdx, it4⟩, h4, h⟩ := h
          dsimp only at h
          obtain ⟨st1, h5, h⟩ := h
          simp only [pure, Except.pure, Except.ok.injEq, Prod.mk.injEq] at h
          rw [← h.1]
          exact handleGeneratedRangeStartItem_inv h5 hinv
        · split at h
          · simp only [exceptBind_ok] at h
            obtain ⟨⟨lineOrColumn, it1⟩, h1, h⟩ := h
            dsimp only at h
            obtain ⟨⟨maybeColumn, it2⟩, h2, h⟩ := h
            dsimp only at h
            cases maybeColumn with
            | some column =>
              simp only [exceptBind_ok] at h
              obtain ⟨st1, h3, h⟩ := h
              simp only [pure, Except.pure, Except.ok.injEq, Prod.mk.injEq] at h
              rw [← h.1]
              exact handleGeneratedRangeEndItem_inv h3 hinv
            | none =>
              simp only [exceptBind_ok] at h
              obtain ⟨st1, h3, h⟩ := h
              simp only [pure, Except.pure, Except.ok.injEq, Prod.mk.injEq] at h
              rw [← h.1]
              exact handleGeneratedRangeEndItem_inv h3 hinv
          · split at h
            · simp only [exceptBind_ok] at h
              obtain ⟨⟨vs, it1⟩, h1, h⟩ := h
              dsimp only at h
              obtain ⟨st1, h2, h⟩ := h
              simp only [pure, Except.pure, Except.ok.injEq, Prod.mk.injEq] at h
              rw [← h.1]
              exact handleGeneratedRangeBindingsItem_inv h2 hinv
            · simp only [pure, Except.pure, Except.ok.injEq, Prod.mk.injEq] at h
              rw [← h.1]
              exact hinv

theorem processItem_inv {mode : DecodeMode} {names : List String}
    {st st' : DecState} {it it' : TokenIterator}
    (h : processItem mode names st it = .ok (st', it'))
    (hinv : DecInv st) : DecInv st' := by
  unfold processItem at h
  split at h
  · simp only [Except.ok.injEq, Prod.mk.injEq] at h
    rw [← h.1]
    constructor
    · have e : sSkel { st with scopes := st.scopes ++ [none] } = sSkel st := by
        simp [sSkel, List.filterMap_append]
      rw [e]
      exact hinv.1
    · exact hinv.2
  · simp only [exceptBind_ok] at h
    obtain ⟨⟨tag, it1⟩, h1, h⟩ := h
    dsimp only at h
    obtain ⟨⟨st1, it2⟩, h2, h⟩ := h
    dsimp only at h
    obtain ⟨it3, h3, h⟩ := h
    simp only [Except.ok.injEq, Prod.mk.injEq] at h
    rw [← h.1]
    exact processTagItem_inv h2 hinv

theorem decodeLoopFuel_inv {mode : DecodeMode} {names : List String} :
    ∀ {fuel : Nat} {st : DecState} {it : TokenIterator} {st' : DecState}
      {it' : TokenIterator},
      decodeLoopFuel mode names fuel st it = .ok (st', it') →
      DecInv st → DecInv st' := by
  intro fuel
  induction fuel with
  | zero =>
    intro st it st' it' h hinv
    simp only [decodeLoopFuel, Except.ok.injEq, Prod.mk.injEq] at h
    rw [← h.1]
    exact hinv
  | succ fuel ih =>
    intro st it st' it' h hinv
    rw [decodeLoopFuel] at h
    split at h
    · simp only [Except.ok.injEq, Prod.mk.injEq] at h
      rw [← h.1]
      exact hinv
    · split at h
      · exact absurd h (by simp)
      · rename_i st1 it1 heq
        exact ih h (processItem_inv heq hinv)

/-- The scope-side skeleton of a decode result (no open nodes remain to
track). -/
def dSkelS (d : DecodedScopeInfo) : Skel :=
  ⟨d.scopes.filterMap id, d.scopeArena.map DecScope.children,
   d.scopeArena.map DecScope.parent, []⟩

/-- The range-side skeleton of a decode result. -/
def dSkelR (d : DecodedScopeInfo) : Skel :=
  ⟨d.ranges, d.rangeArena.map DecRange.children,
   d.rangeArena.map DecRange.parent, []⟩

theorem skelInv_dropStack {k : Skel} (h : SkelInv k) :
    SkelInv ⟨k.tops, k.kids, k.pars, []⟩ :=
  ⟨h.len_eq, h.attach_lt, h.attach_nodup, h.tops_parent, h.kids_parent,
   fun i hi => by simp at hi, List.nodup_nil⟩

theorem skelInv_empty : SkelInv ⟨[], [], [], []⟩ := by
  refine ⟨rfl, ?_, ?_, ?_, ?_, ?_, List.nodup_nil⟩ <;> simp [Skel.attach]

theorem decInv_init : DecInv initDecState := ⟨skelInv_empty, skelInv_empty⟩

theorem decoderDecode_forest {mode : DecodeMode} {names : List String}
    {s : List Nat} {d : DecodedScopeInfo}
    (h : decoderDecode mode names s = .ok d) :
    SkelInv (dSkelS d) ∧ SkelInv (dSkelR d) := by
  unfold decoderDecode at h
  simp only [exceptBind_ok] at h
  obtain ⟨⟨st1, it1⟩, h1, h⟩ := h
  dsimp only at h
  obtain ⟨c, h2, h⟩ := h
  have hst1 := decodeLoopFuel_inv h1 decInv_init
  set st2 := if c = commaCode then { st1 with scopes := st1.scopes ++ [none] } else st1
    with hst2def
  have hst2 : DecInv st2 := by
    rw [hst2def]
    split
    · constructor
      · have e : sSkel { st1 with scopes := st1.scopes ++ [none] } = sSkel st1 := by
          simp [sSkel, List.filterMap_append]
        rw [e]
        exact hst1.1
      · exact hst1.2
    · exact hst1
  split at h
  · simp only [throwInStrictMode, bind, Except.bind, pure, Except.pure] at h
    split at h
    · exact absurd h (by simp)
    · split at h
      · split at h
        · exact absurd h (by simp)
        · simp only [Except.ok.injEq] at h
          rw [← h]
          exact ⟨skelInv_dropStack hst2.1, skelInv_dropStack hst2.2⟩
      · simp only [Except.ok.injEq] at h
        rw [← h]
        exact ⟨skelInv_dropStack hst2.1, skelInv_dropStack hst2.2⟩
  · split at h
    · simp only [throwInStrictMode, bind, Except.bind, pure, Except.pure] at h
      split at h
      · exact absurd h (by simp)
      · simp only [Except.ok.injEq] at h
        rw [← h]
        exact ⟨skelInv_dropStack hst2.1, skelInv_dropStack hst2.2⟩
    · simp only [pure, Except.pure, bind, Except.bind, Except.ok.injEq] at h
      rw [← h]
      exact ⟨skelInv_dropStack hst2.1, skelInv_dropStack hst2.2⟩

/-- **C10** (amended): every `ScopeInfo` that `decode` returns, in either
mode, has consistent tree links over its whole arena: nodes appearing in
the top-level lists have no `parent`; whenever a node id is listed in some
node's `children`, that child's `parent` points back at exactly that node;
and each node is attached at most once overall (top-level lists and all
`children` arrays together contain no duplicate id).  The original claim
additionally requires every node *reachable* from the result to be
attached somewhere; that stronger reading fails (see the counterexample):
in LAX mode an unclosed `ORIGINAL_SCOPE_START` leaves a scope that a
range's `originalScope` still references while it hangs off no tree. -/
theorem decode_forest_c10 (m : SourceMapJson) (mode : DecodeMode)
    (d : DecodedScopeInfo) (h : decode m mode = .ok d) :
    SkelInv (dSkelS d) ∧ SkelInv (dSkelR d) := by
  unfold decode at h
  split at h
  · simp only [Except.ok.injEq] at h
    rw [← h]
    exact ⟨skelInv_empty, skelInv_empty⟩
  · simp only [Except.ok.injEq] at h
    rw [← h]
    exact ⟨skelInv_empty, skelInv_empty⟩
  · simp only [Except.ok.injEq] at h
    rw [← h]
    exact ⟨skelInv_empty, skelInv_empty⟩
  · exact decoderDecode_forest h

/-- Witness for C10 at a concrete decode: the stream `BAAA,CAC` yields one
closed top-level scope and the consistency predicate holds of the result. -/
theorem decode_forest_c10_witness :
    SkelInv (dSkelS
      { scopes := [some 0], ranges := [],
        scopeArena := [{ start := ⟨0, 0⟩, end_ := ⟨2, 0⟩, name := none, kind := none,
                         isStackFrame := false, variables_ := [], children := [],
                         parent := none }],
        rangeArena := [] }) ∧
    SkelInv (dSkelR
      { scopes := [some 0], ranges := [],
        scopeArena := [{ start := ⟨0, 0⟩, end_ := ⟨2, 0⟩, name := none, kind := none,
                         isStackFrame := false, variables_ := [], children := [],
                         parent := none }],
        rangeArena := [] }) :=
  decode_forest_c10
    { version := 3, sources := [], mappings := "",
      names := some [], scopes := some [66, 65, 65, 65, 44, 67, 67, 65] }
    DecodeMode.LAX _ rfl

/-- Range ids reachable from a decode result (top-level ranges and their
children closure). -/
inductive RangeReach (d : DecodedScopeInfo) : Nat → Prop where
  | top {i : Nat} : i ∈ d.ranges → RangeReach d i
  | child {p c : Nat} : RangeReach d p →
      c ∈ ((d.rangeArena.get? p).getD default).children → RangeReach d c

/-- Scope ids reachable from a decode result: top-level scopes, their
children closure, and the `originalScope` references of reachable ranges. -/
inductive ScopeReach (d : DecodedScopeInfo) : Nat → Prop where
  | top {i : Nat} : some i ∈ d.scopes → ScopeReach d i
  | child {p c : Nat} : ScopeReach d p →
      c ∈ ((d.scopeArena.get? p).getD default).children → ScopeReach d c
  | viaRange {r i : Nat} : RangeReach d r →
      ((d.rangeArena.get? r).getD default).originalScope = some i → ScopeReach d i

/-- The tree-link consistency property exactly as the claim states it:
top-level nodes are parentless, and every *other* node reachable from the
result has a `parent` whose `children` array contains it exactly once. -/
def ClaimTreeConsistent (d : DecodedScopeInfo) : Prop :=
  (∀ i, some i ∈ d.scopes → ((d.scopeArena.get? i).getD default).parent = none) ∧
  (∀ i ∈ d.ranges, ((d.rangeArena.get? i).getD default).parent = none) ∧
  (∀ i, ScopeReach d i → some i ∉ d.scopes →
    ∃ p, ((d.scopeArena.get? i).getD default).parent = some p ∧
      (((d.scopeArena.get? p).getD default).children.count i = 1)) ∧
  (∀ i, RangeReach d i → i ∉ d.ranges →
    ∃ p, ((d.rangeArena.get? i).getD default).parent = some p ∧
      (((d.rangeArena.get? p).getD default).children.count i = 1))

/-- The result of decoding `BAAA,FCAA,GA` in LAX mode: one range whose
`originalScope` references the never-closed scope 0. -/
def c10dec : DecodedScopeInfo :=
  { scopes := [], ranges := [0],
    scopeArena := [{ start := ⟨0, 0⟩, end_ := ⟨0, 0⟩, name := none, kind := none,
                     isStackFrame := false, variables_ := [], children := [],
                     parent := none }],
    rangeArena := [{ start := ⟨0, 0⟩, end_ := ⟨0, 0⟩, isStackFrame := false,
                     isHidden := false, originalScope := some 0, values := [],
                     children := [], parent := none }] }

/-- **C10 counterexample**: in LAX mode the stream `BAAA,FCAA,GA` (an
`ORIGINAL_SCOPE_START` that is never closed, then a range whose definition
references that scope) decodes successfully, but the resulting scope 0 is
reachable through the range's `originalScope` while being attached to no
parent and to no top-level list — the claim's link-consistency fails. -/
theorem decode_c10_counterexample :
    decode { version := 3, sources := [], mappings := "",
             names := some [], scopes := some [66, 65, 65, 65, 44, 70, 67, 65, 65, 44, 71, 65] }
        DecodeMode.LAX = .ok c10dec ∧
    ¬ ClaimTreeConsistent c10dec := by
  refine ⟨rfl, ?_⟩
  intro hc
  have hr : RangeReach c10dec 0 := RangeReach.top (by simp [c10dec])
  have hs : ScopeReach c10dec 0 := ScopeReach.viaRange hr (by simp [c10dec])
  obtain ⟨p, hp, hcount⟩ := hc.2.2.1 0 hs (by simp [c10dec])
  simp [c10dec] at hp

/-! ### Forward compatibility of unknown tags (C3) -/

/-- Join encoded items with comma separators (the inverse of the comma
split the decoder loop performs). -/
def joinItems : List (List Nat) → List Nat
  | [] => []
  | [s] => s
  | s :: rest => s ++ commaCode :: joinItems rest

/-- A boundary continuation: either the end of the stream or a comma
followed by the rest of the stream. -/
def Bnd (X : List Nat) : Prop := X = [] ∨ ∃ R, X = commaCode :: R

/-- The iterator position after an item has been fully consumed: at a
boundary the pending comma (if any) has been eaten. -/
def afterBoundary (X : List Nat) (l2 : Option Nat) : TokenIterator :=
  match X with
  | [] => ⟨[], l2⟩
  | _ :: R => ⟨R, some commaCode⟩

theorem joinItems_cons_ne {s : List Nat} {rest : List (List Nat)} (h : rest ≠ []) :
    joinItems (s :: rest) = s ++ commaCode :: joinItems rest := by
  cases rest with
  | nil => exact absurd rfl h
  | cons b r => rfl

open TokenIterator

theorem nextUnsignedVLQGo_comma {R : List Nat} {r : Int} {s : Nat} :
    nextUnsignedVLQGo (commaCode :: R) r s =
      .error "Unexpected char encountered while decoding" := by
  rw [nextUnsignedVLQGo]
  rw [if_pos (by decide)]

theorem nextUnsignedVLQGo_trans {X X' : List Nat} (hX : Bnd X) (hX' : Bnd X') :
    ∀ (A : List Nat) (r : Int) (s : Nat) (v : Int) (it : TokenIterator),
      nextUnsignedVLQGo (A ++ X) r s = .ok (v, it) →
      ∃ B c, B <:+ A ∧ it = ⟨B ++ X, some c⟩ ∧
        nextUnsignedVLQGo (A ++ X') r s = .ok (v, ⟨B ++ X', some c⟩) := by
  intro A
  induction A with
  | nil =>
    intro r s v it h
    simp only [List.nil_append] at h
    cases hX with
    | inl he => rw [he] at h; exact absurd h (by simp [nextUnsignedVLQGo])
    | inr he =>
        obtain ⟨R, hR⟩ := he
        rw [hR, nextUnsignedVLQGo_comma] at h
        exact absurd h (by simp)
  | cons a A ih =>
    intro r s v it h
    rw [List.cons_append, nextUnsignedVLQGo] at h
    dsimp only at h
    split at h
    · exact absurd h (by simp)
    · rename_i hbad
      split at h
      · obtain ⟨B, c, hsuf, hit, hgo⟩ := ih _ _ _ _ h
        refine ⟨B, c, hsuf.trans (List.suffix_cons _ _), hit, ?_⟩
        rw [List.cons_append, nextUnsignedVLQGo]
        dsimp only
        rw [if_neg hbad]
        rename_i hcont
        rw [if_pos hcont]
        exact hgo
      · rename_i hcont
        simp only [Except.ok.injEq, Prod.mk.injEq] at h
        refine ⟨A, a, List.suffix_cons _ _, ?_, ?_⟩
        · exact h.2.symm
        · rw [List.cons_append, nextUnsignedVLQGo]
          dsimp only
          rw [if_neg hbad, if_neg hcont, h.1]

theorem bnd_cond_iff {X X' : List Nat} (hX : Bnd X) (hX' : Bnd X') (A : List Nat)
    (l l' : Option Nat) :
    ((⟨A ++ X, l⟩ : TokenIterator).hasNext = true ∧
      (⟨A ++ X, l⟩ : TokenIterator).peek ≠ some commaCode) ↔
    ((⟨A ++ X', l'⟩ : TokenIterator).hasNext = true ∧
      (⟨A ++ X', l'⟩ : TokenIterator).peek ≠ some commaCode) := by
  cases A with
  | nil =>
    simp only [List.nil_append]
    constructor
    · rintro ⟨h1, h2⟩
      cases hX with
      | inl he => rw [he] at h1; simp [TokenIterator.hasNext] at h1
      | inr he =>
          obtain ⟨R, hR⟩ := he
          rw [hR] at h2
          simp [TokenIterator.peek] at h2
    · rintro ⟨h1, h2⟩
      cases hX' with
      | inl he => rw [he] at h1; simp [TokenIterator.hasNext] at h1
      | inr he =>
          obtain ⟨R, hR⟩ := he
          rw [hR] at h2
          simp [TokenIterator.peek] at h2
  | cons a A =>
    simp [TokenIterator.hasNext, TokenIterator.peek, List.cons_append]

theorem nextUnsignedVLQ_trans {X X' : List Nat} (hX : Bnd X) (hX' : Bnd X')
    {A : List Nat} {l : Option Nat} {v : Int} {it : TokenIterator}
    (h : nextUnsignedVLQ ⟨A ++ X, l⟩ = .ok (v, it)) :
    ∃ B c, B <:+ A ∧ it = ⟨B ++ X, some c⟩ ∧
      ∀ l', nextUnsignedVLQ ⟨A ++ X', l'⟩ = .ok (v, ⟨B ++ X', some c⟩) := by
  obtain ⟨B, c, hsuf, hit, hgo⟩ := nextUnsignedVLQGo_trans hX hX' A 0 0 v it h
  exact ⟨B, c, hsuf, hit, fun l' => hgo⟩

theorem nextSignedVLQ_trans {X X' : List Nat} (hX : Bnd X) (hX' : Bnd X')
    {A : List Nat} {l : Option Nat} {v : Int} {it : TokenIterator}
    (h : nextSignedVLQ ⟨A ++ X, l⟩ = .ok (v, it)) :
    ∃ B c, B <:+ A ∧ it = ⟨B ++ X, some c⟩ ∧
      ∀ l', nextSignedVLQ ⟨A ++ X', l'⟩ = .ok (v, ⟨B ++ X', some c⟩) := by
  unfold nextSignedVLQ at h
  simp only [exceptBind_ok] at h
  obtain ⟨⟨w, it1⟩, h1, h⟩ := h
  dsimp only at h
  simp only [Except.ok.injEq, Prod.mk.injEq] at h
  obtain ⟨B, c, hsuf, hit, hgo⟩ := nextUnsignedVLQ_trans hX hX' h1
  refine ⟨B, c, hsuf, by rw [← h.2, hit], ?_⟩
  intro l'
  unfold nextSignedVLQ
  rw [hgo l']
  simp only [bind, Except.bind, pure, Except.pure]
  rw [h.1]

theorem readOptUnsigned_trans {X X' : List Nat} (hX : Bnd X) (hX' : Bnd X')
    {b : Bool} {A : List Nat} {lst : Option Nat} {v : Option Int} {it : TokenIterator}
    (h : readOptUnsigned b ⟨A ++ X, lst⟩ = .ok (v, it)) :
    ∃ B l2, B <:+ A ∧ it = ⟨B ++ X, l2⟩ ∧
      readOptUnsigned b ⟨A ++ X', lst⟩ = .ok (v, ⟨B ++ X', l2⟩) := by
  unfold readOptUnsigned at h
  split at h
  · simp only [exceptBind_ok] at h
    obtain ⟨⟨w, it1⟩, h1, h⟩ := h
    dsimp only at h
    simp only [Except.ok.injEq, Prod.mk.injEq] at h
    obtain ⟨B, c, hsuf, hit, hgo⟩ := nextUnsignedVLQ_trans hX hX' h1
    refine ⟨B, some c, hsuf, by rw [← h.2, hit], ?_⟩
    unfold readOptUnsigned
    rw [if_pos (by assumption)]
    simp only [bind, Except.bind]
    rw [hgo lst]
    dsimp only
    rw [h.1]
  · simp only [Except.ok.injEq, Prod.mk.injEq] at h
    refine ⟨A, lst, List.suffix_refl _, by rw [← h.2], ?_⟩
    unfold readOptUnsigned
    rw [if_neg (by assumption)]
    rw [h.1]

theorem readOptSigned_trans {X X' : List Nat} (hX : Bnd X) (hX' : Bnd X')
    {b : Bool} {A : List Nat} {lst : Option Nat} {v : Option Int} {it : TokenIterator}
    (h : readOptSigned b ⟨A ++ X, lst⟩ = .ok (v, it)) :
    ∃ B l2, B <:+ A ∧ it = ⟨B ++ X, l2⟩ ∧
      readOptSigned b ⟨A ++ X', lst⟩ = .ok (v, ⟨B ++ X', l2⟩) := by
  unfold readOptSigned at h
  split at h
  · simp only [exceptBind_ok] at h
    obtain ⟨⟨w, it1⟩, h1, h⟩ := h
    dsimp only at h
    simp only [Except.ok.injEq, Prod.mk.injEq] at h
    obtain ⟨B, c, hsuf, hit, hgo⟩ := nextSignedVLQ_trans hX hX' h1
    refine ⟨B, some c, hsuf, by rw [← h.2, hit], ?_⟩
    unfold readOptSigned
    rw [if_pos (by assumption)]
    simp only [bind, Except.bind]
    rw [hgo lst]
    dsimp only
    rw [h.1]
  · simp only [Except.ok.injEq, Prod.mk.injEq] at h
    refine ⟨A, lst, List.suffix_refl _, by rw [← h.2], ?_⟩
    unfold readOptSigned
    rw [if_neg (by assumption)]
    rw [h.1]

theorem readSignedVLQsUntilCommaFuel_trans {X X' : List Nat} (hX : Bnd X) (hX' : Bnd X') :
    ∀ (F : Nat) (A : List Nat) (lst : Option Nat) (vs : List Int) (it : TokenIterator),
      readSignedVLQsUntilCommaFuel F ⟨A ++ X, lst⟩ = .ok (vs, it) →
      ∃ B l2, B <:+ A ∧ it = ⟨B ++ X, l2⟩ ∧
        readSignedVLQsUntilCommaFuel F ⟨A ++ X', lst⟩ = .ok (vs, ⟨B ++ X', l2⟩) := by
  intro F
  induction F with
  | zero =>
    intro A lst vs it h
    simp only [readSignedVLQsUntilCommaFuel, Except.ok.injEq, Prod.mk.injEq] at h
    exact ⟨A, lst, List.suffix_refl _, h.2.symm, by
      simp only [readSignedVLQsUntilCommaFuel, h.1]⟩
  | succ F ih =>
    intro A lst vs it h
    rw [readSignedVLQsUntilCommaFuel] at h
    by_cases hc : (⟨A ++ X, lst⟩ : TokenIterator).hasNext = true ∧
        (⟨A ++ X, lst⟩ : TokenIterator).peek ≠ some commaCode
    · rw [if_pos hc] at h
      cases hp : nextSignedVLQ ⟨A ++ X, lst⟩ with
      | error e => rw [hp] at h; exact absurd h (by simp)
      | ok p =>
        obtain ⟨w, it1⟩ := p
        rw [hp] at h
        dsimp only at h
        simp only [exceptBind_ok] at h
        obtain ⟨⟨ws, it2⟩, h2, h⟩ := h
        dsimp only at h
        simp only [Except.ok.injEq, Prod.mk.injEq] at h
        obtain ⟨B1, c1, hsuf1, hit1, hgo1⟩ := nextSignedVLQ_trans hX hX' hp
        rw [hit1] at h2
        obtain ⟨B, l2, hsuf, hit2, hrec⟩ := ih B1 (some c1) ws it2 h2
        refine ⟨B, l2, hsuf.trans hsuf1, by rw [← h.2, hit2], ?_⟩
        rw [readSignedVLQsUntilCommaFuel]
        rw [if_pos ((bnd_cond_iff hX hX' A lst lst).mp hc)]
        rw [hgo1 lst]
        dsimp only
        simp only [exceptBind_ok]
        exact ⟨(ws, ⟨B ++ X', l2⟩), hrec, by simp [h.1, h.2]⟩
    · rw [if_neg hc] at h
      simp only [Except.ok.injEq, Prod.mk.injEq] at h
      refine ⟨A, lst, List.suffix_refl _, h.2.symm, ?_⟩
      rw [readSignedVLQsUntilCommaFuel]
      rw [if_neg (fun hc2 => hc ((bnd_cond_iff hX' hX A lst lst).mp hc2))]
      rw [h.1]

theorem readSignedVLQsUntilComma_trans {X X' : List Nat} (hX : Bnd X) (hX' : Bnd X')
    {A : List Nat} {lst : Option Nat} {vs : List Int} {it : TokenIterator}
    (h : readSignedVLQsUntilComma ⟨A ++ X, lst⟩ = .ok (vs, it)) :
    ∃ B l2, B <:+ A ∧ it = ⟨B ++ X, l2⟩ ∧
      readSignedVLQsUntilComma ⟨A ++ X', lst⟩ = .ok (vs, ⟨B ++ X', l2⟩) := by
  unfold readSignedVLQsUntilComma at h ⊢
  have hF : readSignedVLQsUntilCommaFuel ((A ++ X).length + (A ++ X').length + 1)
      ⟨A ++ X, lst⟩ = .ok (vs, it) := by
    rw [readSignedVLQsUntilCommaFuel_congr ((A ++ X).length + (A ++ X').length + 1)
      ((⟨A ++ X, lst⟩ : TokenIterator).rest.length + 1) ⟨A ++ X, lst⟩ (by simp; omega)
      (by simp)]
    exact h
  obtain ⟨B, l2, hsuf, hit, hres⟩ :=
    readSignedVLQsUntilCommaFuel_trans hX hX' _ A lst vs it hF
  refine ⟨B, l2, hsuf, hit, ?_⟩
  rw [readSignedVLQsUntilCommaFuel_congr ((⟨A ++ X', lst⟩ : TokenIterator).rest.length + 1)
    ((A ++ X).length + (A ++ X').length + 1) ⟨A ++ X', lst⟩ (by simp) (by simp; omega)]
  exact hres

theorem skipToCommaFuel_trans {X X' : List Nat} (hX : Bnd X) (hX' : Bnd X') :
    ∀ (F : Nat) (A : List Nat) (lst : Option Nat) (it : TokenIterator),
      skipToCommaFuel F ⟨A ++ X, lst⟩ = .ok it →
      ∃ B l2, B <:+ A ∧ it = ⟨B ++ X, l2⟩ ∧
        skipToCommaFuel F ⟨A ++ X', lst⟩ = .ok ⟨B ++ X', l2⟩ := by
  intro F
  induction F with
  | zero =>
    intro A lst it h
    simp only [skipToCommaFuel, Except.ok.injEq] at h
    exact ⟨A, lst, List.suffix_refl _, h.symm, by simp only [skipToCommaFuel]⟩
  | succ F ih =>
    intro A lst it h
    rw [skipToCommaFuel] at h
    by_cases hc : (⟨A ++ X, lst⟩ : TokenIterator).hasNext = true ∧
        (⟨A ++ X, lst⟩ : TokenIterator).peek ≠ some commaCode
    · rw [if_pos hc] at h
      cases hp : nextUnsignedVLQ ⟨A ++ X, lst⟩ with
      | error e => rw [hp] at h; exact absurd h (by simp)
      | ok p =>
        obtain ⟨w, it1⟩ := p
        rw [hp] at h
        dsimp only at h
        obtain ⟨B1, c1, hsuf1, hit1, hgo1⟩ := nextUnsignedVLQ_trans hX hX' hp
        rw [hit1] at h
        obtain ⟨B, l2, hsuf, hit2, hrec⟩ := ih B1 (some c1) it h
        refine ⟨B, l2, hsuf.trans hsuf1, hit2, ?_⟩
        rw [skipToCommaFuel]
        rw [if_pos ((bnd_cond_iff hX hX' A lst lst).mp hc)]
        rw [hgo1 lst]
        exact hrec
    · rw [if_neg hc] at h
      simp only [Except.ok.injEq] at h
      refine ⟨A, lst, List.suffix_refl _, h.symm, ?_⟩
      rw [skipToCommaFuel]
      rw [if_neg (fun hc2 => hc ((bnd_cond_iff hX' hX A lst lst).mp hc2))]

theorem skipToComma_trans {X X' : List Nat} (hX : Bnd X) (hX' : Bnd X')
    {A : List Nat} {lst : Option Nat} {it : TokenIterator}
    (h : skipToComma ⟨A ++ X, lst⟩ = .ok it) :
    ∃ B l2, B <:+ A ∧ it = ⟨B ++ X, l2⟩ ∧
      skipToComma ⟨A ++ X', lst⟩ = .ok ⟨B ++ X', l2⟩ := by
  unfold skipToComma at h ⊢
  have hF : skipToCommaFuel ((A ++ X).length + (A ++ X').length + 1)
      ⟨A ++ X, lst⟩ = .ok it := by
    rw [skipToCommaFuel_congr ((A ++ X).length + (A ++ X').length + 1)
      ((⟨A ++ X, lst⟩ : TokenIterator).rest.length + 1) ⟨A ++ X, lst⟩ (by simp; omega)
      (by simp)]
    exact h
  obtain ⟨B, l2, hsuf, hit, hres⟩ := skipToCommaFuel_trans hX hX' _ A lst it hF
  refine ⟨B, l2, hsuf, hit, ?_⟩
  rw [skipToCommaFuel_congr ((⟨A ++ X', lst⟩ : TokenIterator).rest.length + 1)
    ((A ++ X).length + (A ++ X').length + 1) ⟨A ++ X', lst⟩ (by simp) (by simp; omega)]
  exact hres

theorem skipToCommaFuel_stopped :
    ∀ (F : Nat) (it it2 : TokenIterator), it.rest.length < F →
      skipToCommaFuel F it = .ok it2 →
      it2.rest = [] ∨ it2.peek = some commaCode := by
  intro F
  induction F with
  | zero => intro it it2 hlt; omega
  | succ F ih =>
    intro it it2 hlt h
    rw [skipToCommaFuel] at h
    by_cases hc : it.hasNext = true ∧ it.peek ≠ some commaCode
    · rw [if_pos hc] at h
      cases hp : nextUnsignedVLQ it with
      | error e => rw [hp] at h; exact absurd h (by simp)
      | ok p =>
        obtain ⟨w, it1⟩ := p
        rw [hp] at h
        dsimp only at h
        have := nextUnsignedVLQ_length hp
        exact ih it1 it2 (by omega) h
    · rw [if_neg hc] at h
      simp only [Except.ok.injEq] at h
      rw [← h]
      rcases Decidable.not_and_iff_or_not.mp hc with h1 | h2
      · left
        cases hr : it.rest with
        | nil => rfl
        | cons a b => rw [TokenIterator.hasNext, hr] at h1; simp at h1
      · right
        exact Decidable.not_not.mp h2

theorem skipToComma_stopped {it it2 : TokenIterator}
    (h : skipToComma it = .ok it2) : it2.rest = [] ∨ it2.peek = some commaCode :=
  skipToCommaFuel_stopped _ it it2 (by simp) h

theorem grEnd_cond_eq {X X' : List Nat} (hX : Bnd X) (hX' : Bnd X') (B : List Nat)
    (l l' : Option Nat) :
    ((⟨B ++ X, l⟩ : TokenIterator).hasNext &&
      !((⟨B ++ X, l⟩ : TokenIterator).peek == some commaCode)) =
    ((⟨B ++ X', l'⟩ : TokenIterator).hasNext &&
      !((⟨B ++ X', l'⟩ : TokenIterator).peek == some commaCode)) := by
  cases B with
  | nil =>
    have e : ∀ (Y : List Nat), Bnd Y → ∀ l0 : Option Nat,
        ((⟨[] ++ Y, l0⟩ : TokenIterator).hasNext &&
          !((⟨[] ++ Y, l0⟩ : TokenIterator).peek == some commaCode)) = false := by
      intro Y hY l0
      cases hY with
      | inl he => rw [he]; rfl
      | inr he =>
          obtain ⟨R, hR⟩ := he
          rw [hR]
          simp [TokenIterator.hasNext, TokenIterator.peek]
    rw [e X hX l, e X' hX' l']
  | cons a B =>
    simp [TokenIterator.hasNext, TokenIterator.peek, List.cons_append]

theorem processTagItem_trans {X X' : List Nat} (hX : Bnd X) (hX' : Bnd X')
    {mode : DecodeMode} {names : List String} {st st' : DecState} {tag : Int}
    {A : List Nat} {lst : Option Nat} {it : TokenIterator}
    (h : processTagItem mode names st tag ⟨A ++ X, lst⟩ = .ok (st', it)) :
    ∃ B l2, B <:+ A ∧ it = ⟨B ++ X, l2⟩ ∧
      processTagItem mode names st tag ⟨A ++ X', lst⟩ = .ok (st', ⟨B ++ X', l2⟩) := by
  unfold processTagItem at h ⊢
  split at h
  · simp only [exceptBind_ok] at h
    obtain ⟨⟨flags, it1⟩, h1, h⟩ := h
    dsimp only at h
    obtain ⟨⟨line, it2⟩, h2, h⟩ := h
    dsimp only at h
    obtain ⟨⟨column, it3⟩, h3, h⟩ := h
    dsimp only at h
    obtain ⟨⟨nameIdx, it4⟩, h4, h⟩ := h
    dsimp only at h
    obtain ⟨⟨kindIdx, it5⟩, h5, h⟩ := h
    dsimp only at h
    obtain ⟨st1, h6, h⟩ := h
    simp only [pure, Except.pure, Except.ok.injEq, Prod.mk.injEq] at h
    obtain ⟨B1, c1, hs1, hi1, hg1⟩ := nextUnsignedVLQ_trans hX hX' h1
    rw [hi1] at h2
    obtain ⟨B2, c2, hs2, hi2, hg2⟩ := nextUnsignedVLQ_trans hX hX' h2
    rw [hi2] at h3
    obtain ⟨B3, c3, hs3, hi3, hg3⟩ := nextUnsignedVLQ_trans hX hX' h3
    rw [hi3] at h4
    obtain ⟨B4, l4, hs4, hi4, hg4⟩ := readOptSigned_trans hX hX' h4
    rw [hi4] at h5
    obtain ⟨B5, l5, hs5, hi5, hg5⟩ := readOptSigned_trans hX hX' h5
    refine ⟨B5, l5, (((hs5.trans hs4).trans hs3).trans hs2).trans hs1,
      by rw [← h.2, hi5], ?_⟩
    rw [if_pos (by assumption)]
    simp only [exceptBind_ok]
    exact ⟨(flags, ⟨B1 ++ X', some c1⟩), hg1 lst,
      (line, ⟨B2 ++ X', some c2⟩), hg2 _,
      (column, ⟨B3 ++ X', some c3⟩), hg3 _,
      (nameIdx, ⟨B4 ++ X', l4⟩), hg4,
      (kindIdx, ⟨B5 ++ X', l5⟩), hg5,
      st1, h6, by simp [pure, Except.pure, h.1]⟩
  · split at h
    · simp only [exceptBind_ok] at h
      obtain ⟨⟨vs, it1⟩, h1, h⟩ := h
      dsimp only at h
      obtain ⟨st1, h2, h⟩ := h
      simp only [pure, Except.pure, Except.ok.injEq, Prod.mk.injEq] at h
      obtain ⟨B1, l1, hs1, hi1, hg1⟩ := readSignedVLQsUntilComma_trans hX hX' h1
      refine ⟨B1, l1, hs1, by rw [← h.2, hi1], ?_⟩
      rw [if_neg (by assumption), if_pos (by assumption)]
      simp only [exceptBind_ok]
      exact ⟨(vs, ⟨B1 ++ X', l1⟩), hg1, st1, h2, by simp [pure, Except.pure, h.1]⟩
    · split at h
      · simp only [exceptBind_ok] at h
        obtain ⟨⟨line, it1⟩, h1, h⟩ := h
        dsimp only at h
        obtain ⟨⟨column, it2⟩, h2, h⟩ := h
        dsimp only at h
        obtain ⟨st1, h3, h⟩ := h
        simp only [pure, Except.pure, Except.ok.injEq, Prod.mk.injEq] at h
        obtain ⟨B1, c1, hs1, hi1, hg1⟩ := nextUnsignedVLQ_trans hX hX' h1
        rw [hi1] at h2
        obtain ⟨B2, c2, hs2, hi2, hg2⟩ := nextUnsignedVLQ_trans hX hX' h2
        refine ⟨B2, some c2, hs2.trans hs1, by rw [← h.2, hi2], ?_⟩
        rw [if_neg (by assumption), if_neg (by assumption), if_pos (by assumption)]
        simp only [exceptBind_ok]
        exact ⟨(line, ⟨B1 ++ X', some c1⟩), hg1 lst,
          (column, ⟨B2 ++ X', some c2⟩), hg2 _,
          st1, h3, by simp [pure, Except.pure, h.1]⟩
      · split at h
        · simp only [exceptBind_ok] at h
          obtain ⟨⟨flags, it1⟩, h1, h⟩ := h
          dsimp only at h
          obtain ⟨⟨line, it2⟩, h2, h⟩ := h
          dsimp only at h
          obtain ⟨⟨column, it3⟩, h3, h⟩ := h
          dsimp only at h
          obtain ⟨⟨defIdx, it4⟩, h4, h⟩ := h
          dsimp only at h
          obtain ⟨st1, h5, h⟩ := h
          simp only [pure, Except.pure, Except.ok.injEq, Prod.mk.injEq] at h
          obtain ⟨B1, c1, hs1, hi1, hg1⟩ := nextUnsignedVLQ_trans hX hX' h1
          rw [hi1] at h2
          obtain ⟨B2, l22, hs2, hi2, hg2⟩ := readOptUnsigned_trans hX hX' h2
          rw [hi2] at h3
          obtain ⟨B3, c3, hs3, hi3, hg3⟩ := nextUnsignedVLQ_trans hX hX' h3
          rw [hi3] at h4
          obtain ⟨B4, l44, hs4, hi4, hg4⟩ := readOptSigned_trans hX hX' h4
          refine ⟨B4, l44, ((hs4.trans hs3).trans hs2).trans hs1,
            by rw [← h.2, hi4], ?_⟩
          rw [if_neg (by assumption), if_neg (by assumption), if_neg (by assumption),
            if_pos (by assumption)]
          simp only [exceptBind_ok]
          exact ⟨(flags, ⟨B1 ++ X', some c1⟩), hg1 lst,
            (line, ⟨B2 ++ X', l22⟩), hg2,
            (column, ⟨B3 ++ X', some c3⟩), hg3 _,
            (defIdx, ⟨B4 ++ X', l44⟩), hg4,
            st1, h5, by simp [pure, Except.pure, h.1]⟩
        · split at h
          · simp only [exceptBind_ok] at h
            obtain ⟨⟨lineOrColumn, it1⟩, h1, h⟩ := h
            dsimp only at h
            obtain ⟨⟨maybeColumn, it2⟩, h2, h⟩ := h
            dsimp only at h
            obtain ⟨B1, c1, hs1, hi1, hg1⟩ := nextUnsignedVLQ_trans hX hX' h1
            rw [hi1] at h2
            obtain ⟨B2, l22, hs2, hi2, hg2⟩ := readOptUnsigned_trans hX hX' h2
            have hg2x : readOptUnsigned
                ((⟨B1 ++ X', some c1⟩ : TokenIterator).hasNext &&
                  !((⟨B1 ++ X', some c1⟩ : TokenIterator).peek == some commaCode))
                ⟨B1 ++ X', some c1⟩ = .ok (maybeColumn, ⟨B2 ++ X', l22⟩) := by
              rw [← grEnd_cond_eq hX hX' B1 (some c1) (some c1)]
              exact hg2
            cases maybeColumn with
            | some column =>
              simp only [exceptBind_ok] at h
              obtain ⟨st1, h3, h⟩ := h
              simp only [pure, Except.pure, Except.ok.injEq, Prod.mk.injEq] at h
              refine ⟨B2, l22, hs2.trans hs1, by rw [← h.2, hi2], ?_⟩
              rw [if_neg (by assumption), if_neg (by assumption), if_neg (by assumption),
                if_neg (by assumption), if_pos (by assumption)]
              refine exceptBind_ok.mpr ⟨(lineOrColumn, ⟨B1 ++ X', some c1⟩), hg1 lst, ?_⟩
              dsimp only
              refine exceptBind_ok.mpr ⟨(some column, ⟨B2 ++ X', l22⟩), hg2x, ?_⟩
              dsimp only
              refine exceptBind_ok.mpr ⟨st1, h3, ?_⟩
              simp [pure, Except.pure, h.1]
            | none =>
              simp only [exceptBind_ok] at h
              obtain ⟨st1, h3, h⟩ := h
              simp only [pure, Except.pure, Except.ok.injEq, Prod.mk.injEq] at h
              refine ⟨B2, l22, hs2.trans hs1, by rw [← h.2, hi2], ?_⟩
              rw [if_neg (by assumption), if_neg (by assumption), if_neg (by assumption),
                if_neg (by assumption), if_pos (by assumption)]
              refine exceptBind_ok.mpr ⟨(lineOrColumn, ⟨B1 ++ X', some c1⟩), hg1 lst, ?_⟩
              dsimp only
              refine exceptBind_ok.mpr ⟨(none, ⟨B2 ++ X', l22⟩), hg2x, ?_⟩
              dsimp only
              refine exceptBind_ok.mpr ⟨st1, h3, ?_⟩
              simp [pure, Except.pure, h.1]
          · split at h
            · simp only [exceptBind_ok] at h
              obtain ⟨⟨vs, it1⟩, h1, h⟩ := h
              dsimp only at h
              obtain ⟨st1, h2, h⟩ := h
              simp only [pure, Except.pure, Except.ok.injEq, Prod.mk.injEq] at h
              obtain ⟨B1, l1, hs1, hi1, hg1⟩ := readSignedVLQsUntilComma_trans hX hX' h1
              refine ⟨B1, l1, hs1, by rw [← h.2, hi1], ?_⟩
              rw [if_neg (by assumption), if_neg (by assumption), if_neg (by assumption),
                if_neg (by assumption), if_neg (by assumption), if_pos (by assumption)]
              simp only [exceptBind_ok]
              exact ⟨(vs, ⟨B1 ++ X', l1⟩), hg1, st1, h2, by simp [pure, Except.pure, h.1]⟩
            · simp only [pure, Except.pure, Except.ok.injEq, Prod.mk.injEq] at h
              refine ⟨A, lst, List.suffix_refl _, by rw [← h.2], ?_⟩
              rw [if_neg (by assumption), if_neg (by assumption), if_neg (by assumption),
                if_neg (by assumption), if_neg (by assumption), if_neg (by assumption)]
              rw [h.1]
              rfl

theorem nextUnsignedVLQGo_prov :
    ∀ (L : List Nat) (r : Int) (s : Nat) (v : Int) (it : TokenIterator),
      nextUnsignedVLQGo L r s = .ok (v, it) →
      ∃ c B, it = ⟨B, some c⟩ ∧ c :: B <:+ L := by
  intro L
  induction L with
  | nil => intro r s v it h; exact absurd h (by simp [nextUnsignedVLQGo])
  | cons a A ih =>
    intro r s v it h
    rw [nextUnsignedVLQGo] at h
    dsimp only at h
    split at h
    · exact absurd h (by simp)
    · split at h
      · obtain ⟨c, B, hit, hsuf⟩ := ih _ _ _ _ h
        exact ⟨c, B, hit, hsuf.trans (List.suffix_cons _ _)⟩
      · simp only [Except.ok.injEq, Prod.mk.injEq] at h
        exact ⟨a, A, h.2.symm, List.suffix_refl _⟩

theorem nextUnsignedVLQ_prov {it : TokenIterator} {v : Int} {it2 : TokenIterator}
    (h : nextUnsignedVLQ it = .ok (v, it2)) :
    ∃ c B, it2 = ⟨B, some c⟩ ∧ c :: B <:+ it.rest :=
  nextUnsignedVLQGo_prov it.rest 0 0 v it2 h

theorem nextSignedVLQ_prov {it : TokenIterator} {v : Int} {it2 : TokenIterator}
    (h : nextSignedVLQ it = .ok (v, it2)) :
    ∃ c B, it2 = ⟨B, some c⟩ ∧ c :: B <:+ it.rest := by
  unfold nextSignedVLQ at h
  simp only [exceptBind_ok] at h
  obtain ⟨⟨w, it1⟩, h1, h⟩ := h
  dsimp only at h
  simp only [Except.ok.injEq, Prod.mk.injEq] at h
  obtain ⟨c, B, hit, hsuf⟩ := nextUnsignedVLQ_prov h1
  exact ⟨c, B, h.2 ▸ hit, hsuf⟩

theorem readOptUnsigned_prov {b : Bool} {it : TokenIterator} {v : Option Int}
    {it2 : TokenIterator} (h : readOptUnsigned b it = .ok (v, it2)) :
    it2 = it ∨ ∃ c B, it2 = ⟨B, some c⟩ ∧ c :: B <:+ it.rest := by
  unfold readOptUnsigned at h
  split at h
  · simp only [exceptBind_ok] at h
    obtain ⟨⟨w, it1⟩, h1, h⟩ := h
    dsimp only at h
    simp only [Except.ok.injEq, Prod.mk.injEq] at h
    obtain ⟨c, B, hit, hsuf⟩ := nextUnsignedVLQ_prov h1
    exact Or.inr ⟨c, B, h.2 ▸ hit, hsuf⟩
  · simp only [Except.ok.injEq, Prod.mk.injEq] at h
    exact Or.inl h.2.symm

theorem readOptSigned_prov {b : Bool} {it : TokenIterator} {v : Option Int}
    {it2 : TokenIterator} (h : readOptSigned b it = .ok (v, it2)) :
    it2 = it ∨ ∃ c B, it2 = ⟨B, some c⟩ ∧ c :: B <:+ it.rest := by
  unfold readOptSigned at h
  split at h
  · simp only [exceptBind_ok] at h
    obtain ⟨⟨w, it1⟩, h1, h⟩ := h
    dsimp only at h
    simp only [Except.ok.injEq, Prod.mk.injEq] at h
    obtain ⟨c, B, hit, hsuf⟩ := nextSignedVLQ_prov h1
    exact Or.inr ⟨c, B, h.2 ▸ hit, hsuf⟩
  · simp only [Except.ok.injEq, Prod.mk.injEq] at h
    exact Or.inl h.2.symm

theorem prov_trans {it it1 it2 : TokenIterator}
    (h1 : it1 = it ∨ ∃ c B, it1 = ⟨B, some c⟩ ∧ c :: B <:+ it.rest)
    (h2 : it2 = it1 ∨ ∃ c B, it2 = ⟨B, some c⟩ ∧ c :: B <:+ it1.rest) :
    it2 = it ∨ ∃ c B, it2 = ⟨B, some c⟩ ∧ c :: B <:+ it.rest := by
  cases h2 with
  | inl he => rw [he]; exact h1
  | inr hp =>
    obtain ⟨c, B, hit, hsuf⟩ := hp
    cases h1 with
    | inl he => rw [he] at hsuf; exact Or.inr ⟨c, B, hit, hsuf⟩
    | inr hp1 =>
      obtain ⟨c1, B1, hit1, hsuf1⟩ := hp1
      rw [hit1] at hsuf
      refine Or.inr ⟨c, B, hit, hsuf.trans ?_⟩
      exact (List.suffix_cons c1 B1).trans hsuf1

theorem readSignedVLQsUntilCommaFuel_prov :
    ∀ (F : Nat) (it : TokenIterator) (vs : List Int) (it2 : TokenIterator),
      readSignedVLQsUntilCommaFuel F it = .ok (vs, it2) →
      it2 = it ∨ ∃ c B, it2 = ⟨B, some c⟩ ∧ c :: B <:+ it.rest := by
  intro F
  induction F with
  | zero =>
    intro it vs it2 h
    simp only [readSignedVLQsUntilCommaFuel, Except.ok.injEq, Prod.mk.injEq] at h
    exact Or.inl h.2.symm
  | succ F ih =>
    intro it vs it2 h
    rw [readSignedVLQsUntilCommaFuel] at h
    split at h
    · cases hp : nextSignedVLQ it with
      | error e => rw [hp] at h; exact absurd h (by simp)
      | ok p =>
        obtain ⟨w, it1⟩ := p
        rw [hp] at h
        dsimp only at h
        simp only [exceptBind_ok] at h
        obtain ⟨⟨ws, it3⟩, h2, h⟩ := h
        dsimp only at h
        simp only [Except.ok.injEq, Prod.mk.injEq] at h
        have p1 := nextSignedVLQ_prov hp
        obtain ⟨c, B, hit, hsuf⟩ := p1
        exact prov_trans (Or.inr ⟨c, B, hit, hsuf⟩) (h.2 ▸ ih it1 ws it3 h2)
    · simp only [Except.ok.injEq, Prod.mk.injEq] at h
      exact Or.inl h.2.symm

theorem skipToCommaFuel_prov :
    ∀ (F : Nat) (it it2 : TokenIterator),
      skipToCommaFuel F it = .ok it2 →
      it2 = it ∨ ∃ c B, it2 = ⟨B, some c⟩ ∧ c :: B <:+ it.rest := by
  intro F
  induction F with
  | zero =>
    intro it it2 h
    simp only [skipToCommaFuel, Except.ok.injEq] at h
    exact Or.inl h.symm
  | succ F ih =>
    intro it it2 h
    rw [skipToCommaFuel] at h
    split at h
    · cases hp : nextUnsignedVLQ it with
      | error e => rw [hp] at h; exact absurd h (by simp)
      | ok p =>
        obtain ⟨w, it1⟩ := p
        rw [hp] at h
        dsimp only at h
        obtain ⟨c, B, hit, hsuf⟩ := nextUnsignedVLQ_prov hp
        exact prov_trans (Or.inr ⟨c, B, hit, hsuf⟩) (ih it1 it2 h)
    · simp only [Except.ok.injEq] at h
      exact Or.inl h.symm

theorem processTagItem_prov {mode : DecodeMode} {names : List String}
    {st st' : DecState} {tag : Int} {it it2 : TokenIterator}
    (h : processTagItem mode names st tag it = .ok (st', it2)) :
    it2 = it ∨ ∃ c B, it2 = ⟨B, some c⟩ ∧ c :: B <:+ it.rest := by
  unfold processTagItem at h
  split at h
  · simp only [exceptBind_ok] at h
    obtain ⟨⟨flags, it1⟩, h1, h⟩ := h
    dsimp only at h
    obtain ⟨⟨line, itb⟩, h2, h⟩ := h
    dsimp only at h
    obtain ⟨⟨column, itc⟩, h3, h⟩ := h
    dsimp only at h
    obtain ⟨⟨nameIdx, itd⟩, h4, h⟩ := h
    dsimp only at h
    obtain ⟨⟨kindIdx, ite⟩, h5, h⟩ := h
    dsimp only at h
    obtain ⟨st1, h6, h⟩ := h
    simp only [pure, Except.pure, Except.ok.injEq, Prod.mk.injEq] at h
    exact h.2 ▸ prov_trans (prov_trans (prov_trans (prov_trans
      (Or.inr (nextUnsignedVLQ_prov h1))
      (Or.inr (nextUnsignedVLQ_prov h2)))
      (Or.inr (nextUnsignedVLQ_prov h3)))
      (readOptSigned_prov h4)) (readOptSigned_prov h5)
  · split at h
    · simp only [exceptBind_ok] at h
      obtain ⟨⟨vs, it1⟩, h1, h⟩ := h
      dsimp only at h
      obtain ⟨st1, h2, h⟩ := h
      simp only [pure, Except.pure, Except.ok.injEq, Prod.mk.injEq] at h
      exact h.2 ▸ readSignedVLQsUntilCommaFuel_prov _ _ _ _ h1
    · split at h
      · simp only [exceptBind_ok] at h
        obtain ⟨⟨line, it1⟩, h1, h⟩ := h
        dsimp only at h
        obtain ⟨⟨column, itb⟩, h2, h⟩ := h
        dsimp only at h
        obtain ⟨st1, h3, h⟩ := h
        simp only [pure, Except.pure, Except.ok.injEq, Prod.mk.injEq] at h
        exact h.2 ▸ prov_trans (Or.inr (nextUnsignedVLQ_prov h1))
          (Or.inr (nextUnsignedVLQ_prov h2))
      · split at h
        · simp only [exceptBind_ok] at h
          obtain ⟨⟨flags, it1⟩, h1, h⟩ := h
          dsimp only at h
          obtain ⟨⟨line, itb⟩, h2, h⟩ := h
          dsimp only at h
          obtain ⟨⟨column, itc⟩, h3, h⟩ := h
          dsimp only at h
          obtain ⟨⟨defIdx, itd⟩, h4, h⟩ := h
          dsimp only at h
          obtain ⟨st1, h5, h⟩ := h
          simp only [pure, Except.pure, Except.ok.injEq, Prod.mk.injEq] at h
          exact h.2 ▸ prov_trans (prov_trans (prov_trans
            (Or.inr (nextUnsignedVLQ_prov h1))
            (readOptUnsigned_prov h2))
            (Or.inr (nextUnsignedVLQ_prov h3)))
            (readOptSigned_prov h4)
        · split at h
          · simp only [exceptBind_ok] at h
            obtain ⟨⟨lineOrColumn, it1⟩, h1, h⟩ := h
            dsimp only at h
            obtain ⟨⟨maybeColumn, itb⟩, h2, h⟩ := h
            dsimp only at h
            cases maybeColumn with
            | some column =>
              simp only [exceptBind_ok] at h
              obtain ⟨st1, h3, h⟩ := h
              simp only [pure, Except.pure, Except.ok.injEq, Prod.mk.injEq] at h
              exact h.2 ▸ prov_trans (Or.inr (nextUnsignedVLQ_prov h1))
                (readOptUnsigned_prov h2)
            | none =>
              simp only [exceptBind_ok] at h
              obtain ⟨st1, h3, h⟩ := h
              simp only [pure, Except.pure, Except.ok.injEq, Prod.mk.injEq] at h
              exact h.2 ▸ prov_trans (Or.inr (nextUnsignedVLQ_prov h1))
                (readOptUnsigned_prov h2)
          · split at h
            · simp only [exceptBind_ok] at h
              obtain ⟨⟨vs, it1⟩, h1, h⟩ := h
              dsimp only at h
              obtain ⟨st1, h2, h⟩ := h
              simp only [pure, Except.pure, Except.ok.injEq, Prod.mk.injEq] at h
              exact h.2 ▸ readSignedVLQsUntilCommaFuel_prov _ _ _ _ h1
            · simp only [pure, Except.pure, Except.ok.injEq, Prod.mk.injEq] at h
              exact Or.inl h.2.symm

theorem processItem_prov {mode : DecodeMode} {names : List String}
    {st st' : DecState} {it it2 : TokenIterator}
    (h : processItem mode names st it = .ok (st', it2)) (hne : it.rest ≠ []) :
    ∃ c B, it2 = ⟨B, some c⟩ ∧ c :: B <:+ it.rest := by
  unfold processItem at h
  split at h
  · simp only [Except.ok.injEq, Prod.mk.injEq] at h
    cases hr : it.rest with
    | nil => exact absurd hr hne
    | cons a b =>
      refine ⟨a, b, ?_, by simp [hr]⟩
      rw [← h.2]
      unfold TokenIterator.nextChar
      rw [hr]
  · simp only [exceptBind_ok] at h
    obtain ⟨⟨tag, it1⟩, h1, h⟩ := h
    dsimp only at h
    obtain ⟨⟨st1, itb⟩, h2, h⟩ := h
    dsimp only at h
    obtain ⟨it3, h3, h⟩ := h
    simp only [Except.ok.injEq, Prod.mk.injEq] at h
    obtain ⟨c1, B1, hi1, hs1⟩ := nextUnsignedVLQ_prov h1
    have pskip : it3 = itb ∨ ∃ c B, it3 = ⟨B, some c⟩ ∧ c :: B <:+ itb.rest := by
      unfold skipToComma at h3
      exact skipToCommaFuel_prov _ _ _ h3
    have pall : it3 = it1 ∨ ∃ c B, it3 = ⟨B, some c⟩ ∧ c :: B <:+ it1.rest :=
      prov_trans (processTagItem_prov h2) pskip
    have pfin : it2 = it3 ∨ ∃ c B, it2 = ⟨B, some c⟩ ∧ c :: B <:+ it3.rest := by
      rw [← h.2]
      obtain ⟨r3, l3⟩ := it3
      cases r3 with
      | nil => exact Or.inl (by rfl)
      | cons a b =>
          rw [if_pos (by rw [TokenIterator.hasNext]; rfl)]
          exact Or.inr ⟨a, b, rfl, List.suffix_refl _⟩
    have pmid := prov_trans pall pfin
    cases pmid with
    | inl he => exact ⟨c1, B1, he ▸ hi1, hs1⟩
    | inr hp =>
        obtain ⟨c, B, heq, hsuf⟩ := hp
        rw [hi1] at hsuf
        exact ⟨c, B, heq, hsuf.trans ((List.suffix_cons c1 B1).trans hs1)⟩

/-- An item iterator with nothing left always fails: the leading tag VLQ
hits the end of the input. -/
theorem processItem_empty (mode : DecodeMode) (names : List String)
    (st : DecState) (l : Option Nat) :
    processItem mode names st ⟨[], l⟩ =
      .error "Unexpected end of input while decodling VLQ number!" := by
  unfold processItem
  rw [if_neg (by simp [TokenIterator.peek])]
  rfl

/-- Transport of one full `processItem` step across a boundary
continuation: consuming a comma-free item segment lands exactly at the
item boundary (with the pending comma eaten), and does so identically
whatever comes after the boundary. -/
theorem processItem_trans {X X' : List Nat} (hX : Bnd X) (hX' : Bnd X')
    {mode : DecodeMode} {names : List String} {st st' : DecState}
    {seg : List Nat} {l l' : Option Nat} {it2 : TokenIterator}
    (hseg : commaCode ∉ seg) (hne : seg = [] → X' ≠ [])
    (h : processItem mode names st ⟨seg ++ X, l⟩ = .ok (st', it2)) :
    ∃ l2, it2 = afterBoundary X l2 ∧
      processItem mode names st ⟨seg ++ X', l'⟩ = .ok (st', afterBoundary X' l2) := by
  cases seg with
  | nil =>
    simp only [List.nil_append] at h ⊢
    cases hX with
    | inl he =>
      rw [he, processItem_empty] at h
      exact absurd h (by simp)
    | inr he =>
      obtain ⟨R, hR⟩ := he
      subst hR
      unfold processItem at h
      rw [if_pos (by simp [TokenIterator.peek])] at h
      have hnc : (⟨commaCode :: R, l⟩ : TokenIterator).nextChar
          = ⟨R, some commaCode⟩ := rfl
      rw [hnc] at h
      simp only [Except.ok.injEq, Prod.mk.injEq] at h
      cases hX' with
      | inl he' => exact absurd he' (hne rfl)
      | inr he' =>
        obtain ⟨R', hR'⟩ := he'
        subst hR'
        refine ⟨l, by rw [← h.2]; rfl, ?_⟩
        unfold processItem
        rw [if_pos (by simp [TokenIterator.peek])]
        rw [h.1]
        rfl
  | cons a s =>
    have ha : a ≠ commaCode := fun hc => hseg (hc ▸ List.mem_cons_self a s)
    unfold processItem at h ⊢
    rw [if_neg (by
      simp only [TokenIterator.peek, List.cons_append, List.head?_cons,
        Option.some.injEq]
      exact ha)] at h
    rw [if_neg (by
      simp only [TokenIterator.peek, List.cons_append, List.head?_cons,
        Option.some.injEq]
      exact ha)]
    simp only [exceptBind_ok] at h
    obtain ⟨⟨tag, it1⟩, h1, h⟩ := h
    dsimp only at h
    obtain ⟨⟨st1, itb⟩, h2, h⟩ := h
    dsimp only at h
    obtain ⟨it3, h3, h⟩ := h
    simp only [Except.ok.injEq, Prod.mk.injEq] at h
    obtain ⟨B1, c1, hsuf1, hit1, hgo1⟩ := nextUnsignedVLQ_trans hX hX' h1
    rw [hit1] at h2
    obtain ⟨B2, l2', hsuf2, hit2, htag⟩ := processTagItem_trans hX hX' h2
    rw [hit2] at h3
    obtain ⟨B3, l3, hsuf3, hit3, hskip⟩ := skipToComma_trans hX hX' h3
    have hstop := skipToComma_stopped h3
    have hB3 : B3 = [] := by
      cases hB : B3 with
      | nil => rfl
      | cons b B' =>
        exfalso
        have hsub : B3 <:+ (a :: s) := (hsuf3.trans hsuf2).trans hsuf1
        rw [hB] at hsub
        have hbmem : b ∈ a :: s := hsub.subset (List.mem_cons_self b B')
        have hb : b ≠ commaCode := fun hc => hseg (hc ▸ hbmem)
        rw [hit3, hB] at hstop
        cases hstop with
        | inl h0 => simp at h0
        | inr h0 =>
          simp only [TokenIterator.peek, List.cons_append, List.head?_cons,
            Option.some.injEq] at h0
          exact hb h0
    subst hB3
    simp only [List.nil_append] at hit3 hskip
    rw [hit3] at h
    refine ⟨l3, ?_, ?_⟩
    · rw [← h.2]
      cases hX with
      | inl he => subst he; rfl
      | inr he =>
        obtain ⟨R, hR⟩ := he
        subst hR
        rfl
    · refine exceptBind_ok.mpr ⟨(tag, ⟨B1 ++ X', some c1⟩), hgo1 l', ?_⟩
      dsimp only
      refine exceptBind_ok.mpr ⟨(st1, ⟨B2 ++ X', l2'⟩), htag, ?_⟩
      dsimp only
      refine exceptBind_ok.mpr ⟨⟨X', l3⟩, hskip, ?_⟩
      dsimp only
      rw [h.1]
      cases hX' with
      | inl he' => subst he'; rfl
      | inr he' =>
        obtain ⟨R', hR'⟩ := he'
        subst hR'
        rfl

/-- A tag value that matches no `case` of the decoder's `switch`. -/
def UnknownTag (t : Int) : Prop :=
  t ≠ Tag.ORIGINAL_SCOPE_START ∧ t ≠ Tag.ORIGINAL_SCOPE_VARIABLES ∧
  t ≠ Tag.ORIGINAL_SCOPE_END ∧ t ≠ Tag.GENERATED_RANGE_START ∧
  t ≠ Tag.GENERATED_RANGE_END ∧ t ≠ Tag.GENERATED_RANGE_BINDINGS

theorem processTagItem_unknown (mode : DecodeMode) (names : List String)
    (st : DecState) {tag : Int} (it : TokenIterator) (h : UnknownTag tag) :
    processTagItem mode names st tag it = .ok (st, it) := by
  obtain ⟨h1, h2, h3, h4, h5, h6⟩ := h
  unfold processTagItem
  rw [if_neg h1, if_neg h2, if_neg h3, if_neg h4, if_neg h5, if_neg h6]
  rfl

/-- A well-formed item carrying an unknown tag: non-empty, comma-free, the
leading tag VLQ parses within the item to an unrecognised tag, and the
remaining payload is a sequence of VLQs the forward-compatibility skip
walks over without error. -/
def UnknownItem (u : List Nat) : Prop :=
  u ≠ [] ∧ commaCode ∉ u ∧
  ∃ t it1 it2, nextUnsignedVLQGo u 0 0 = .ok (t, it1) ∧ UnknownTag t ∧
    skipToComma it1 = .ok it2

/-- Processing an unknown item at any boundary leaves the decoder state
untouched and lands just past the boundary. -/
theorem unknownItem_skip {u : List Nat} (hu : UnknownItem u)
    {X' : List Nat} (hX' : Bnd X') (mode : DecodeMode) (names : List String)
    (st : DecState) (l' : Option Nat) :
    ∃ l2, processItem mode names st ⟨u ++ X', l'⟩ = .ok (st, afterBoundary X' l2) := by
  obtain ⟨hne, hcf, t, it1, it2, hgo, htag, hskip⟩ := hu
  cases u with
  | nil => exact absurd rfl hne
  | cons a s =>
    have ha : a ≠ commaCode := fun hc => hcf (hc ▸ List.mem_cons_self a s)
    have hgo' : nextUnsignedVLQGo ((a :: s) ++ []) 0 0 = .ok (t, it1) := by
      simpa using hgo
    obtain ⟨B, c, hsufB, hitB, hgoX'⟩ :=
      nextUnsignedVLQGo_trans (Or.inl rfl) hX' (a :: s) 0 0 t it1 hgo'
    rw [hitB] at hskip
    obtain ⟨B4, l4, hsuf4, hit4, hskipX'⟩ := skipToComma_trans (Or.inl rfl) hX' hskip
    have hstop := skipToComma_stopped hskip
    have hB4 : B4 = [] := by
      cases hB : B4 with
      | nil => rfl
      | cons b B' =>
        exfalso
        have hsub : B4 <:+ (a :: s) := hsuf4.trans hsufB
        rw [hB] at hsub
        have hbmem : b ∈ a :: s := hsub.subset (List.mem_cons_self b B')
        have hb : b ≠ commaCode := fun hc => hcf (hc ▸ hbmem)
        rw [hit4, hB] at hstop
        cases hstop with
        | inl h0 => simp at h0
        | inr h0 =>
          simp only [TokenIterator.peek, List.append_nil, List.cons_append,
            List.head?_cons, Option.some.injEq] at h0
          exact hb h0
    subst hB4
    simp only [List.nil_append] at hskipX'
    refine ⟨l4, ?_⟩
    unfold processItem
    rw [if_neg (by
      simp only [TokenIterator.peek, List.cons_append, List.head?_cons,
        Option.some.injEq]
      exact ha)]
    refine exceptBind_ok.mpr ⟨(t, ⟨B ++ X', some c⟩), hgoX', ?_⟩
    dsimp only
    refine exceptBind_ok.mpr
      ⟨(st, ⟨B ++ X', some c⟩), processTagItem_unknown mode names st _ htag, ?_⟩
    dsimp only
    refine exceptBind_ok.mpr ⟨⟨X', l4⟩, hskipX', ?_⟩
    dsimp only
    cases hX' with
    | inl he' => subst he'; rfl
    | inr he' =>
      obtain ⟨R', hR'⟩ := he'
      subst hR'
      rfl

/-- A non-empty item list other than `[[]]` joins to a non-empty stream. -/
theorem joinItems_ne_nil {L : List (List Nat)} (h1 : L ≠ []) (h2 : L ≠ [[]]) :
    joinItems L ≠ [] := by
  cases L with
  | nil => exact absurd rfl h1
  | cons s rest =>
    cases rest with
    | nil =>
      cases s with
      | nil => exact absurd rfl h2
      | cons a r => simp [joinItems]
    | cons b r2 => simp [joinItems]

/-- The trailing-comma accounting of `Decoder.decode`: a final pending comma
stands for one last empty item, i.e. one more `null` scope. -/
def finishScopes (st : DecState) (l : Option Nat) : DecState :=
  if l = some commaCode then { st with scopes := st.scopes ++ [none] } else st

/-- When a comma-free non-empty item is the whole remaining input, the
processed iterator's final `last` is a consumed non-comma code unit. -/
theorem processItem_final_some {mode : DecodeMode} {names : List String}
    {st st' : DecState} {seg : List Nat} {l : Option Nat} {it2 : TokenIterator}
    (hseg : commaCode ∉ seg) (hsne : seg ≠ [])
    (hp : processItem mode names st ⟨seg, l⟩ = .ok (st', it2)) {l2 : Option Nat}
    (hit : it2 = ⟨[], l2⟩) :
    ∃ c, l2 = some c ∧ c ≠ commaCode := by
  obtain ⟨c, B, hi, hsuf⟩ := processItem_prov hp hsne
  rw [hit] at hi
  simp only [TokenIterator.mk.injEq] at hi
  have hmem : c ∈ seg := hsuf.subset (List.mem_cons_self c B)
  exact ⟨c, hi.2, fun hc => hseg (hc ▸ hmem)⟩

/-- The decode loop over a comma-free item stream does not depend on the
incoming `last` marker: it reaches the same state, and — as soon as at
least one code unit exists — the same final `last`. -/
theorem decodeLoop_join_same (mode : DecodeMode) (names : List String) :
    ∀ (M : List (List Nat)) (st st' : DecState) (l l1 : Option Nat)
      (itf : TokenIterator),
      (∀ s ∈ M, commaCode ∉ s) →
      decodeLoop mode names st ⟨joinItems M, l⟩ = .ok (st', itf) →
      ∃ lf, itf = ⟨[], lf⟩ ∧
        (joinItems M = [] → lf = l ∧
          decodeLoop mode names st ⟨joinItems M, l1⟩ = .ok (st', ⟨[], l1⟩)) ∧
        (joinItems M ≠ [] → ∃ c, lf = some c ∧
          decodeLoop mode names st ⟨joinItems M, l1⟩ = .ok (st', ⟨[], some c⟩)) := by
  intro M
  induction M with
  | nil =>
    intro st st' l l1 itf hfree h
    rw [decodeLoop_eq, if_pos (by rfl)] at h
    simp only [Except.ok.injEq, Prod.mk.injEq] at h
    refine ⟨l, h.2.symm, fun _ => ⟨rfl, ?_⟩, fun hj => absurd rfl hj⟩
    rw [decodeLoop_eq, if_pos (by rfl), h.1]
    rfl
  | cons s M' ih =>
    intro st st' l l1 itf hfree h
    have hsfree : commaCode ∉ s := hfree s (List.mem_cons_self s M')
    by_cases hM' : M' = []
    · subst hM'
      have hJ : joinItems [s] = s := rfl
      rw [hJ] at h ⊢
      by_cases hs : s = []
      · subst hs
        rw [decodeLoop_eq, if_pos (by rfl)] at h
        simp only [Except.ok.injEq, Prod.mk.injEq] at h
        refine ⟨l, h.2.symm, fun _ => ⟨rfl, ?_⟩, fun hj => absurd rfl hj⟩
        rw [decodeLoop_eq, if_pos (by rfl), h.1]
      · rw [decodeLoop_eq, if_neg (by exact hs)] at h
        cases hp : processItem mode names st ⟨s, l⟩ with
        | error e => rw [hp] at h; exact absurd h (by simp)
        | ok p =>
          obtain ⟨st1, it2⟩ := p
          rw [hp] at h
          dsimp only at h
          have hp' : processItem mode names st ⟨s ++ [], l⟩ = .ok (st1, it2) := by
            simpa using hp
          obtain ⟨l2, hit2, hpN⟩ := @processItem_trans [] [] (Or.inl rfl) (Or.inl rfl)
            mode names st st1 s l l1 it2 hsfree (fun h0 => absurd h0 hs) hp'
          have hit2' : it2 = ⟨[], l2⟩ := hit2
          have hpN' : processItem mode names st ⟨s, l1⟩ = .ok (st1, ⟨[], l2⟩) := by
            simpa using hpN
          obtain ⟨c, hl2, hcne⟩ := processItem_final_some hsfree hs hp hit2'
          rw [hit2', decodeLoop_eq, if_pos (by rfl)] at h
          simp only [Except.ok.injEq, Prod.mk.injEq] at h
          refine ⟨l2, h.2.symm, fun hj => absurd hj hs, fun _ => ⟨c, hl2, ?_⟩⟩
          rw [decodeLoop_eq, if_neg (by exact hs), hpN']
          dsimp only
          rw [decodeLoop_eq, if_pos (by rfl), h.1, hl2]
    · rw [joinItems_cons_ne hM'] at h ⊢
      have hne0 : s ++ commaCode :: joinItems M' ≠ [] := by simp
      rw [decodeLoop_eq, if_neg (by exact hne0)] at h
      cases hp : processItem mode names st ⟨s ++ commaCode :: joinItems M', l⟩ with
      | error e => rw [hp] at h; exact absurd h (by simp)
      | ok p =>
        obtain ⟨st1, it2⟩ := p
        rw [hp] at h
        dsimp only at h
        obtain ⟨l2, hit2, hpN⟩ := @processItem_trans
          (commaCode :: joinItems M') (commaCode :: joinItems M')
          (Or.inr ⟨_, rfl⟩) (Or.inr ⟨_, rfl⟩)
          mode names st st1 s l l1 it2 hsfree (fun _ => by simp) hp
        have hit2' : it2 = ⟨joinItems M', some commaCode⟩ := hit2
        have hpN' : processItem mode names st ⟨s ++ commaCode :: joinItems M', l1⟩ =
            .ok (st1, ⟨joinItems M', some commaCode⟩) := hpN
        rw [hit2'] at h
        obtain ⟨lf, hitf, hnil, hnonnil⟩ := ih st1 st' (some commaCode) (some commaCode)
          itf (fun x hx => hfree x (List.mem_cons_of_mem _ hx)) h
        refine ⟨lf, hitf, fun hj => absurd hj hne0, fun _ => ?_⟩
        by_cases hj' : joinItems M' = []
        · obtain ⟨hlf, hloop⟩ := hnil hj'
          refine ⟨commaCode, hlf, ?_⟩
          rw [decodeLoop_eq, if_neg (by exact hne0), hpN']
          dsimp only
          exact hloop
        · obtain ⟨c, hlf, hloop⟩ := hnonnil hj'
          refine ⟨c, hlf, ?_⟩
          rw [decodeLoop_eq, if_neg (by exact hne0), hpN']
          dsimp only
          exact hloop

/-- Inserting an unknown item between two halves of a comma-free item list
does not change the decode loop's outcome, up to the trailing-comma
accounting the decoder performs after the loop. -/
theorem decodeLoop_insert (mode : DecodeMode) (names : List String) {u : List Nat}
    (hu : UnknownItem u) :
    ∀ (L1 L2 : List (List Nat)) (st st' : DecState) (l l' : Option Nat)
      (itf : TokenIterator),
      (∀ s ∈ L1 ++ L2, commaCode ∉ s) →
      L1 ++ L2 ≠ [] →
      (joinItems (L1 ++ L2) = [] → l = some commaCode) →
      decodeLoop mode names st ⟨joinItems (L1 ++ L2), l⟩ = .ok (st', itf) →
      ∃ st'' lf c', itf = ⟨[], lf⟩ ∧
        decodeLoop mode names st ⟨joinItems (L1 ++ u :: L2), l'⟩ =
          .ok (st'', ⟨[], some c'⟩) ∧
        finishScopes st' lf = finishScopes st'' (some c') := by
  intro L1
  induction L1 with
  | nil =>
    intro L2 st st' l l' itf hfree hne hjl h
    simp only [List.nil_append] at hfree hne hjl h ⊢
    have hune : u ++ commaCode :: joinItems L2 ≠ [] := by simp
    obtain ⟨l2u, hpu⟩ := @unknownItem_skip u hu (commaCode :: joinItems L2)
      (Or.inr ⟨_, rfl⟩) mode names st l'
    have hpu' : processItem mode names st ⟨u ++ commaCode :: joinItems L2, l'⟩ =
        .ok (st, ⟨joinItems L2, some commaCode⟩) := hpu
    obtain ⟨lf, hitf, hnil, hnonnil⟩ :=
      decodeLoop_join_same mode names L2 st st' l (some commaCode) itf hfree h
    by_cases hj : joinItems L2 = []
    · obtain ⟨hlf, hloop⟩ := hnil hj
      refine ⟨st', lf, commaCode, hitf, ?_, ?_⟩
      · rw [joinItems_cons_ne hne, decodeLoop_eq, if_neg (by exact hune), hpu']
        dsimp only
        exact hloop
      · rw [hlf, hjl hj]
    · obtain ⟨c, hlf, hloop⟩ := hnonnil hj
      refine ⟨st', lf, c, hitf, ?_, by rw [hlf]⟩
      rw [joinItems_cons_ne hne, decodeLoop_eq, if_neg (by exact hune), hpu']
      dsimp only
      exact hloop
  | cons s L1' ih =>
    intro L2 st st' l l' itf hfree hne hjl h
    simp only [List.cons_append] at hfree hne hjl h ⊢
    have hsfree : commaCode ∉ s := hfree s (List.mem_cons_self s _)
    by_cases hT : L1' ++ L2 = []
    · obtain ⟨hL1', hL2⟩ := List.append_eq_nil.mp hT
      subst hL1'
      subst hL2
      by_cases hs : s = []
      · subst hs
        have hl : l = some commaCode := hjl rfl
        rw [decodeLoop_eq, if_pos (by rfl)] at h
        simp only [Except.ok.injEq, Prod.mk.injEq] at h
        have hp1 : processItem mode names st ⟨commaCode :: u, l'⟩ =
            .ok ({ st with scopes := st.scopes ++ [none] }, ⟨u, some commaCode⟩) := by
          unfold processItem
          rw [if_pos (by rfl)]
          rfl
        obtain ⟨l4, hpu⟩ := @unknownItem_skip u hu [] (Or.inl rfl) mode names
          { st with scopes := st.scopes ++ [none] } (some commaCode)
        have hpu' : processItem mode names { st with scopes := st.scopes ++ [none] }
            ⟨u, some commaCode⟩ =
            .ok ({ st with scopes := st.scopes ++ [none] }, ⟨[], l4⟩) := by
          simpa using hpu
        obtain ⟨c', hl4, hc'⟩ := processItem_final_some hu.2.1 hu.1 hpu' rfl
        refine ⟨{ st with scopes := st.scopes ++ [none] }, l, c', h.2.symm, ?_, ?_⟩
        · have hJN : joinItems (([] : List Nat) :: ([] ++ u :: [])) = commaCode :: u := rfl
          rw [hJN, decodeLoop_eq, if_neg (by simp), hp1]
          dsimp only
          rw [decodeLoop_eq, if_neg (by exact hu.1), hpu']
          dsimp only
          rw [decodeLoop_eq, if_pos (by rfl), hl4]
        · rw [hl, ← h.1]
          rw [finishScopes, finishScopes, if_pos rfl,
            if_neg (by simp only [Option.some.injEq]; exact hc')]
      · have hJO : joinItems (s :: (([] : List (List Nat)) ++ [])) = s := rfl
        rw [hJO] at h
        rw [decodeLoop_eq, if_neg (by exact hs)] at h
        cases hp : processItem mode names st ⟨s, l⟩ with
        | error e => rw [hp] at h; exact absurd h (by simp)
        | ok p =>
          obtain ⟨st1, it2⟩ := p
          rw [hp] at h
          dsimp only at h
          have hp' : processItem mode names st ⟨s ++ [], l⟩ = .ok (st1, it2) := by
            simpa using hp
          obtain ⟨l2, hit2, hpN⟩ := @processItem_trans [] (commaCode :: u)
            (Or.inl rfl) (Or.inr ⟨_, rfl⟩)
            mode names st st1 s l l' it2 hsfree (fun h0 => absurd h0 hs) hp'
          have hit2' : it2 = ⟨[], l2⟩ := hit2
          have hpN' : processItem mode names st ⟨s ++ commaCode :: u, l'⟩ =
              .ok (st1, ⟨u, some commaCode⟩) := hpN
          obtain ⟨c, hl2, hcne⟩ := processItem_final_some hsfree hs hp hit2'
          rw [hit2', decodeLoop_eq, if_pos (by rfl)] at h
          simp only [Except.ok.injEq, Prod.mk.injEq] at h
          obtain ⟨l4, hpu⟩ := @unknownItem_skip u hu [] (Or.inl rfl) mode names
            st1 (some commaCode)
          have hpu' : processItem mode names st1 ⟨u, some commaCode⟩ =
              .ok (st1, ⟨[], l4⟩) := by simpa using hpu
          obtain ⟨c', hl4, hc'⟩ := processItem_final_some hu.2.1 hu.1 hpu' rfl
          refine ⟨st1, l2, c', h.2.symm, ?_, ?_⟩
          · have hJN : joinItems (s :: (([] : List (List Nat)) ++ u :: [])) =
                s ++ commaCode :: u := rfl
            rw [hJN, decodeLoop_eq, if_neg (by simp), hpN']
            dsimp only
            rw [decodeLoop_eq, if_neg (by exact hu.1), hpu']
            dsimp only
            rw [decodeLoop_eq, if_pos (by rfl), hl4]
          · rw [← h.1, hl2]
            rw [finishScopes, finishScopes,
              if_neg (by simp only [Option.some.injEq]; exact hcne),
              if_neg (by simp only [Option.some.injEq]; exact hc')]
    · rw [joinItems_cons_ne hT] at h
      have hne0 : s ++ commaCode :: joinItems (L1' ++ L2) ≠ [] := by simp
      rw [decodeLoop_eq, if_neg (by exact hne0)] at h
      cases hp : processItem mode names st ⟨s ++ commaCode :: joinItems (L1' ++ L2), l⟩ with
      | error e => rw [hp] at h; exact absurd h (by simp)
      | ok p =>
        obtain ⟨st1, it2⟩ := p
        rw [hp] at h
        dsimp only at h
        obtain ⟨l2, hit2, hpN⟩ := @processItem_trans
          (commaCode :: joinItems (L1' ++ L2)) (commaCode :: joinItems (L1' ++ u :: L2))
          (Or.inr ⟨_, rfl⟩) (Or.inr ⟨_, rfl⟩)
          mode names st st1 s l l' it2 hsfree (fun _ => by simp) hp
        have hit2' : it2 = ⟨joinItems (L1' ++ L2), some commaCode⟩ := hit2
        have hpN' : processItem mode names st
            ⟨s ++ commaCode :: joinItems (L1' ++ u :: L2), l'⟩ =
            .ok (st1, ⟨joinItems (L1' ++ u :: L2), some commaCode⟩) := hpN
        rw [hit2'] at h
        obtain ⟨st'', lf, c', hitf, hN, hfin⟩ := ih L2 st1 st' (some commaCode)
          (some commaCode) itf (fun x hx => hfree x (List.mem_cons_of_mem _ hx))
          hT (fun _ => rfl) h
        refine ⟨st'', lf, c', hitf, ?_, hfin⟩
        rw [joinItems_cons_ne (by simp), decodeLoop_eq, if_neg (by simp), hpN']
        dsimp only
        exact hN

/-- The tail of `Decoder.decode` after the loop and the trailing-comma
accounting: the unclosed-stack checks and the final `ScopeInfo`. -/
def decodeFinish (mode : DecodeMode) (st : DecState) :
    Except String DecodedScopeInfo := do
  if st.scopeStack ≠ [] then
    throwInStrictMode mode "Encountered ORIGINAL_SCOPE_START without matching END!"
  if st.rangeStack ≠ [] then
    throwInStrictMode mode "Encountered GENERATED_RANGE_START without matching END!"
  .ok ⟨st.scopes, st.ranges, st.scopeArena, st.rangeArena⟩

theorem decoderDecode_eq (mode : DecodeMode) (names : List String) (s : List Nat) :
    decoderDecode mode names s =
      (do
        let (st, it) ← decodeLoop mode names initDecState ⟨s, none⟩
        let c ← it.currentChar
        decodeFinish mode
          (if c = commaCode then { st with scopes := st.scopes ++ [none] } else st)) :=
  rfl

theorem finishScopes_some (st : DecState) (c : Nat) :
    (if c = commaCode then { st with scopes := st.scopes ++ [none] } else st) =
      finishScopes st (some c) := by
  rw [finishScopes]
  by_cases hc : c = commaCode
  · rw [if_pos hc, if_pos (by rw [hc])]
  · rw [if_neg hc, if_neg (by simp only [Option.some.injEq]; exact hc)]

theorem decode_eq_decoderDecode (version : Int) (sources : List (Option String))
    (mappings : String) (names : List String) {s : List Nat} (hs : s ≠ [])
    (mode : DecodeMode) :
    decode ⟨version, sources, mappings, some names, some s⟩ mode =
      decoderDecode mode names s := by
  cases s with
  | nil => exact absurd rfl hs
  | cons a r => rfl

/-- **C3**: forward compatibility of unknown tags.  A scopes stream is the
comma-join of its items (each item comma-free); for any item `u` whose
leading VLQ parses inside `u` to a tag outside the grammar's tag table and
whose remaining payload is VLQs the decoder can skip, inserting `u` before,
between, or after the known items leaves every successful `decode` result
unchanged.  (The item list `[[]]` is excluded: it denotes the same empty
stream as the empty item list, which is covered.) -/
theorem decode_unknown_tag_c3 {L1 L2 : List (List Nat)} {u : List Nat}
    (version : Int) (sources : List (Option String)) (mappings : String)
    (names : List String) (mode : DecodeMode) (d : DecodedScopeInfo)
    (hfree : ∀ s ∈ L1 ++ L2, commaCode ∉ s) (hu : UnknownItem u)
    (hne : L1 ++ L2 ≠ [[]])
    (h : decode ⟨version, sources, mappings, some names,
        some (joinItems (L1 ++ L2))⟩ mode = .ok d) :
    decode ⟨version, sources, mappings, some names,
        some (joinItems (L1 ++ u :: L2))⟩ mode = .ok d := by
  have hNne2 : L1 ++ u :: L2 ≠ [[]] := by
    cases L1 with
    | nil =>
      intro hc
      simp only [List.nil_append, List.cons.injEq] at hc
      exact hu.1 hc.1
    | cons a b =>
      intro hc
      simp at hc
  have hJN : joinItems (L1 ++ u :: L2) ≠ [] :=
    joinItems_ne_nil (by simp) hNne2
  by_cases h0 : L1 ++ L2 = []
  · obtain ⟨hL1, hL2⟩ := List.append_eq_nil.mp h0
    subst hL1
    subst hL2
    rw [show joinItems (([] : List (List Nat)) ++ []) = [] from rfl] at h
    rw [show decode ⟨version, sources, mappings, some names, some []⟩ mode =
      .ok ⟨[], [], [], []⟩ from rfl] at h
    simp only [Except.ok.injEq] at h
    rw [decode_eq_decoderDecode version sources mappings names hJN mode]
    rw [show joinItems (([] : List (List Nat)) ++ u :: []) = u from rfl]
    obtain ⟨l4, hpu⟩ := @unknownItem_skip u hu [] (Or.inl rfl) mode names
      initDecState none
    have hpu' : processItem mode names initDecState ⟨u, none⟩ =
        .ok (initDecState, ⟨[], l4⟩) := by simpa using hpu
    obtain ⟨c', hl4, hc'⟩ := processItem_final_some hu.2.1 hu.1 hpu' rfl
    have hloopu : decodeLoop mode names initDecState ⟨u, none⟩ =
        .ok (initDecState, ⟨[], l4⟩) := by
      rw [decodeLoop_eq, if_neg (by exact hu.1), hpu']
      dsimp only
      rw [decodeLoop_eq, if_pos (by rfl)]
    rw [decoderDecode_eq]
    refine exceptBind_ok.mpr ⟨(initDecState, ⟨[], l4⟩), hloopu, ?_⟩
    dsimp only
    refine exceptBind_ok.mpr ⟨c', by rw [hl4]; rfl, ?_⟩
    rw [if_neg hc', ← h]
    rfl
  · have hJO : joinItems (L1 ++ L2) ≠ [] := joinItems_ne_nil h0 hne
    rw [decode_eq_decoderDecode version sources mappings names hJO mode,
      decoderDecode_eq] at h
    rw [decode_eq_decoderDecode version sources mappings names hJN mode,
      decoderDecode_eq]
    simp only [exceptBind_ok] at h
    obtain ⟨⟨st1, it1⟩, h1, h⟩ := h
    dsimp only at h
    obtain ⟨c, h2, h⟩ := h
    obtain ⟨st'', lf, c', hitf, hN, hfin⟩ := decodeLoop_insert mode names hu
      L1 L2 initDecState st1 none none it1 hfree h0 (fun hj => absurd hj hJO) h1
    rw [hitf] at h2
    cases lf with
    | none => exact absurd h2 (by simp [TokenIterator.currentChar])
    | some c0 =>
      have hc0 : c0 = c := by
        simpa [TokenIterator.currentChar] using h2
      rw [hc0] at hfin
      rw [finishScopes_some] at h
      refine exceptBind_ok.mpr ⟨(st'', ⟨[], some c'⟩), hN, ?_⟩
      dsimp only
      refine exceptBind_ok.mpr ⟨c', rfl, ?_⟩
      rw [finishScopes_some, ← hfin]
      exact h

theorem decode_unknown_tag_c3_witness :
    decode
      { version := 3, sources := [], mappings := "", names := some [],
        scopes := some (joinItems ([[66, 65, 65, 65]] ++ [73, 65] :: [[67, 67, 65]])) }
      DecodeMode.LAX =
      .ok
        { scopes := [some 0], ranges := [],
          scopeArena := [{ start := ⟨0, 0⟩, end_ := ⟨2, 0⟩, name := none, kind := none,
                           isStackFrame := false, variables_ := [], children := [],
                           parent := none }],
          rangeArena := [] } :=
  decode_unknown_tag_c3 3 [] "" [] DecodeMode.LAX _
    (by decide)
    ⟨by decide, by decide, 8, ⟨[65], some 73⟩, ⟨[], some 65⟩, rfl,
      ⟨by decide, by decide, by decide, by decide, by decide, by decide⟩, rfl⟩
    (by decide)
    rfl

/-! ### C1: round trip.  Item-level view of the decoder. -/

/-- The decode loop at item granularity: one `processItem` per non-empty
item, one appended `null` scope per empty item. -/
def runItems (mode : DecodeMode) (names : List String) :
    DecState → List (List Nat) → Except String DecState
  | st, [] => .ok st
  | st, item :: rest =>
    if item = [] then
      runItems mode names { st with scopes := st.scopes ++ [none] } rest
    else do
      let (st', _) ← processItem mode names st ⟨item, none⟩
      runItems mode names st' rest

theorem runItems_append (mode : DecodeMode) (names : List String) :
    ∀ (A B : List (List Nat)) (st : DecState),
      runItems mode names st (A ++ B) =
        (runItems mode names st A) >>= fun st' => runItems mode names st' B := by
  intro A
  induction A with
  | nil =>
    intro B st
    simp [runItems, Bind.bind, Except.bind]
  | cons a A ih =>
    intro B st
    rw [List.cons_append, runItems, runItems]
    by_cases ha : a = []
    · rw [if_pos ha, if_pos ha]
      exact ih B _
    · rw [if_neg ha, if_neg ha]
      cases hp : processItem mode names st ⟨a, none⟩ with
      | error e => simp [Bind.bind, Except.bind]
      | ok p =>
        obtain ⟨st1, it1⟩ := p
        simp only [Bind.bind, Except.bind]
        exact ih B st1

/-- `Encoder.encode` joins items exactly as `joinItems` does. -/
theorem intercalate_comma_eq_joinItems :
    ∀ M : List (List Nat), List.intercalate [commaCode] M = joinItems M := by
  intro M
  induction M with
  | nil => rfl
  | cons s rest ih =>
    cases rest with
    | nil => simp [List.intercalate, joinItems]
    | cons b r2 =>
      rw [joinItems_cons_ne (by simp)]
      rw [← ih]
      simp [List.intercalate, List.intersperse]

/-- An item-level success builds the corresponding loop run. -/
theorem runItems_loop (mode : DecodeMode) (names : List String) :
    ∀ (M : List (List Nat)) (st ds : DecState) (l : Option Nat),
      (∀ s ∈ M, commaCode ∉ s) →
      (joinItems M = [] → M ≠ [] → l = some commaCode) →
      runItems mode names st M = .ok ds →
      ∃ ds' lf, decodeLoop mode names st ⟨joinItems M, l⟩ = .ok (ds', ⟨[], lf⟩) ∧
        ((M = [] ∧ ds' = ds ∧ lf = l) ∨
         (M ≠ [] ∧ ∃ c, lf = some c ∧ finishScopes ds' (some c) = ds)) := by
  intro M
  induction M with
  | nil =>
    intro st ds l hfree hjl h
    rw [runItems] at h
    simp only [Except.ok.injEq] at h
    refine ⟨ds, l, ?_, Or.inl ⟨rfl, rfl, rfl⟩⟩
    rw [decodeLoop_eq, if_pos (by rfl), h]
    rfl
  | cons s M' ih =>
    intro st ds l hfree hjl h
    rw [runItems] at h
    by_cases hM' : M' = []
    · subst hM'
      by_cases hs : s = []
      · subst hs
        rw [if_pos rfl] at h
        rw [runItems] at h
        simp only [Except.ok.injEq] at h
        have hl : l = some commaCode := hjl rfl (by simp)
        refine ⟨st, l, ?_, Or.inr ⟨by simp, commaCode, hl, ?_⟩⟩
        · rw [decodeLoop_eq, if_pos (by rfl)]
          rfl
        · rw [← h, finishScopes, if_pos rfl]
      · rw [if_neg hs] at h
        simp only [exceptBind_ok] at h
        obtain ⟨⟨st1, it1⟩, hp, h⟩ := h
        dsimp only at h
        rw [runItems] at h
        simp only [Except.ok.injEq] at h
        have hsfree : commaCode ∉ s := hfree s (List.mem_cons_self s _)
        have hp' : processItem mode names st ⟨s ++ [], none⟩ = .ok (st1, it1) := by
          simpa using hp
        obtain ⟨l2, hit2, hpX⟩ := @processItem_trans [] [] (Or.inl rfl) (Or.inl rfl)
          mode names st st1 s none l it1 hsfree (fun h0 => absurd h0 hs) hp'
        have hpX' : processItem mode names st ⟨s, l⟩ = .ok (st1, ⟨[], l2⟩) := by
          simpa using hpX
        obtain ⟨c, hl2, hcne⟩ := processItem_final_some hsfree hs
          (by simpa using hp : processItem mode names st ⟨s, none⟩ = .ok (st1, it1)) hit2
        have hJ : joinItems [s] = s := rfl
        refine ⟨st1, l2, ?_, Or.inr ⟨by simp, c, hl2, ?_⟩⟩
        · rw [hJ, decodeLoop_eq, if_neg (by exact hs), hpX']
          dsimp only
          rw [decodeLoop_eq, if_pos (by rfl)]
        · rw [← h]
          rw [finishScopes, if_neg (by simp only [Option.some.injEq]; exact hcne)]
    · rw [joinItems_cons_ne hM']
      by_cases hs : s = []
      · subst hs
        rw [if_pos rfl] at h
        obtain ⟨ds', lf, hloop, hdisj⟩ := ih { st with scopes := st.scopes ++ [none] } ds
          (some commaCode) (fun x hx => hfree x (List.mem_cons_of_mem _ hx))
          (fun _ _ => rfl) h
        refine ⟨ds', lf, ?_, ?_⟩
        · rw [decodeLoop_eq, if_neg (by simp)]
          have hp1 : processItem mode names st ⟨[] ++ commaCode :: joinItems M', l⟩ =
              .ok ({ st with scopes := st.scopes ++ [none] },
                ⟨joinItems M', some commaCode⟩) := by
            unfold processItem
            rw [if_pos (by rfl)]
            rfl
          rw [hp1]
          dsimp only
          exact hloop
        · cases hdisj with
          | inl hd => exact absurd hd.1 hM'
          | inr hd => exact Or.inr ⟨by simp, hd.2⟩
      · rw [if_neg hs] at h
        simp only [exceptBind_ok] at h
        obtain ⟨⟨st1, it1⟩, hp, h⟩ := h
        dsimp only at h
        have hsfree : commaCode ∉ s := hfree s (List.mem_cons_self s _)
        have hp' : processItem mode names st ⟨s ++ [], none⟩ = .ok (st1, it1) := by
          simpa using hp
        obtain ⟨l2, hit2, hpX⟩ := @processItem_trans [] (commaCode :: joinItems M')
          (Or.inl rfl) (Or.inr ⟨_, rfl⟩)
          mode names st st1 s none l it1 hsfree (fun h0 => absurd h0 hs) hp'
        have hpX' : processItem mode names st ⟨s ++ commaCode :: joinItems M', l⟩ =
            .ok (st1, ⟨joinItems M', some commaCode⟩) := hpX
        obtain ⟨ds', lf, hloop, hdisj⟩ := ih st1 ds (some commaCode)
          (fun x hx => hfree x (List.mem_cons_of_mem _ hx)) (fun _ _ => rfl) h
        refine ⟨ds', lf, ?_, ?_⟩
        · rw [decodeLoop_eq, if_neg (by simp), hpX']
          dsimp only
          exact hloop
        · cases hdisj with
          | inl hd => exact absurd hd.1 hM'
          | inr hd => exact Or.inr ⟨by simp, hd.2⟩

/-- Success transport from the item-level run to `Decoder.decode()`. -/
theorem decoderDecode_of_runItems {mode : DecodeMode} {names : List String}
    {M : List (List Nat)} {ds : DecState} {d : DecodedScopeInfo}
    (hfree : ∀ s ∈ M, commaCode ∉ s) (hne : joinItems M ≠ [])
    (h : runItems mode names initDecState M = .ok ds)
    (hfin : decodeFinish mode ds = .ok d) :
    decoderDecode mode names (joinItems M) = .ok d := by
  obtain ⟨ds', lf, hloop, hdisj⟩ := runItems_loop mode names M initDecState ds none
    hfree (fun hj _ => absurd hj hne) h
  have hMne : M ≠ [] := by
    intro hc
    subst hc
    exact hne rfl
  cases hdisj with
  | inl hd => exact absurd hd.1 hMne
  | inr hd =>
    obtain ⟨_, c, hlf, hfs⟩ := hd
    rw [decoderDecode_eq]
    refine exceptBind_ok.mpr ⟨(ds', ⟨[], lf⟩), hloop, ?_⟩
    dsimp only
    refine exceptBind_ok.mpr ⟨c, by rw [hlf]; rfl, ?_⟩
    rw [finishScopes_some, hfs]
    exact hfin

/-! ### Encoded items are comma-free (the alphabet does not contain `,`). -/

theorem encodeUnsignedGo_mem :
    ∀ (m : Nat), ∀ c ∈ encodeUnsignedGo m, c ∈ BASE64_CHARS := by
  intro m
  induction m using Nat.strong_induction_on with
  | _ m ih =>
    intro c hc
    rw [encodeUnsignedGo] at hc
    by_cases hdiv : m / 32 = 0
    · rw [dif_pos hdiv] at hc
      simp only [List.mem_singleton] at hc
      subst hc
      exact base64Char_mem _ (by omega)
    · rw [dif_neg hdiv] at hc
      cases hc with
      | head => exact base64Char_mem _ (by omega)
      | tail _ hc =>
        exact ih (m / 32) (Nat.div_lt_self (by omega) (by norm_num)) c hc

theorem encodeUnsigned_mem {n : Nat} {c : Nat} (hc : c ∈ encodeUnsigned n) :
    c ∈ BASE64_CHARS :=
  encodeUnsignedGo_mem _ c hc

theorem encodeSigned_mem {n : Int} {c : Nat} (hc : c ∈ encodeSigned n) :
    c ∈ BASE64_CHARS :=
  encodeUnsigned_mem hc

theorem encodeUnsigned_ne_nil (n : Nat) : encodeUnsigned n ≠ [] := by
  unfold encodeUnsigned
  rw [encodeUnsignedGo]
  by_cases hdiv : n % 2 ^ 32 / 32 = 0
  · rw [dif_pos hdiv]; simp
  · rw [dif_neg hdiv]; simp

theorem comma_notin_encodeUnsigned (n : Nat) : commaCode ∉ encodeUnsigned n :=
  fun hc => comma_not_base64 (encodeUnsigned_mem hc)

theorem comma_notin_encodeSigned (n : Int) : commaCode ∉ encodeSigned n :=
  fun hc => comma_not_base64 (encodeSigned_mem hc)
